import Mathlib

/-!
# TACS threaded assembly: job dispenser, domain mapper, auxiliary merge

A shallow embedding of `src/TACSAssembler_thread.c`.  C `int`s are `Int`s, the
shared counter `numCompletedElements` is passed explicitly, and a worker is a
function of the sequence of indices that `schedPthreadJob` hands to it.
Floating-point scalars are replaced by `Int` (exact addition).

The interleaving of the workers' steps is a step system over the shared
counter (`workerStep`, `runPhase`), and the residual and tangent workers are
also given on the flat scratch array `data` with the slice offsets of the
source (`assembleRes_scratch`, `assembleJacobian_scratch`).
-/

namespace TACS

/-! ## Definitions -/

/-- Range of a C `int` (32 bit, two's complement). -/
@[reducible] def isInt (x : Int) : Prop := -2147483648 ≤ x ∧ x ≤ 2147483647

/-- Two's-complement wrap of an arithmetic result into the range of a C `int`. -/
def wrapInt (x : Int) : Int := (x + 2147483648) % 4294967296 - 2147483648

/-- The body of `TACSAssembler::schedPthreadJob`, executed between
`pthread_mutex_lock(&sched_mutex)` and `pthread_mutex_unlock(&sched_mutex)`.
The argument is the value of `tacs->numCompletedElements` on entry; the result
is `(*index, tacs->numCompletedElements on exit)`. -/
def schedPthreadJob (numCompletedElements total_size : Int) : Int × Int :=
  if numCompletedElements < total_size then
    (numCompletedElements, wrapInt (numCompletedElements + 1))
  else
    (-1, numCompletedElements)

/-- A serialised sequence of `schedPthreadJob(tacs, &index, total_size)` calls.
The list `sched` names the worker issuing each call, in the order in which the
calls obtain `sched_mutex`; the result pairs each call's worker with the index
it received. -/
def runClaims (total_size : Int) : Int → List Nat → List (Nat × Int)
  | _, [] => []
  | c, w :: ws =>
    (w, (schedPthreadJob c total_size).1) ::
      runClaims total_size (schedPthreadJob c total_size).2 ws

/-- The indices handed to worker `w`, in the order it received them. -/
def claimsOf (w : Nat) (tr : List (Nat × Int)) : List Int :=
  (tr.filter (fun p => p.1 == w)).map Prod.snd

/-! ### Kernel calls and accumulator writes observed along a worker's run -/

/-- The calls a worker makes into element, auxiliary-element and function
kernels, and its writes to the shared accumulators (made while holding
`tacs_mutex`). -/
inductive Event
  /-- Call `element->addResidual(...)` for element `elemIndex` -/
  | addResidual (elemIndex : Int)
  /-- Call `element->addJacobian(...)` for element `elemIndex` -/
  | addJacobian (elemIndex : Int)
  /-- Call `aux[aux_count].elem->addResidual(...)` on the buffers of element `elemIndex` -/
  | auxAddResidual (aux_count : Nat) (elemIndex : Int)
  /-- Call `aux[aux_count].elem->addJacobian(...)` on the buffers of element `elemIndex` -/
  | auxAddJacobian (aux_count : Nat) (elemIndex : Int)
  /-- Call `element->getMatType(matType, ...)` for element `elemIndex` -/
  | getMatType (elemIndex : Int)
  /-- Call `element->addAdjResProduct(...)` for element `elemIndex` into row `k` -/
  | addAdjResProduct (elemIndex : Int) (k : Nat)
  /-- Call `funcs[k]->preEvalThread(...)` -/
  | preEvalThread (k : Nat)
  /-- Call `function->elementWiseEval(...)`: `function` is `funcs[func]`, the work
  arrays are those of quantity `work` -/
  | elementWiseEval (func : Nat) (elemNum : Int) (work : Nat)
  /-- Call `funcs[k]->postEvalThread(...)` -/
  | postEvalThread (k : Nat)
  /-- Call `function->elementWiseDVSens(&fdvSens[row*numDVs], ...)`, `function` is `funcs[func]` -/
  | elementWiseDVSens (func : Nat) (elemNum : Int) (row : Nat)
  /-- Call `tacs->addValues(varsPerNode, elemIndex, elemRes, localRes)` -/
  | addValues (elemIndex : Int) (elemRes : List Int)
  /-- Call `tacs->addMatValues(A, elemIndex, elemMat, idata, elemWeights)` -/
  | addMatValues (elemIndex : Int) (elemMat : List Int)
  /-- The final merge `pinfo->fdvSens[k] += fdvSens[k]` for all `k < n` -/
  | mergeDVSens (n : Nat)
  deriving DecidableEq

/-! ### Domain Mapper (`evalFunctions_thread`, `evalDVSens_thread`) -/

/-- Values of `function->getDomain()`.  The workers compare against
`SUB_DOMAIN` and `ENTIRE_DOMAIN`; `NO_DOMAIN` stands for any other value. -/
inductive FunctionDomain
  | ENTIRE_DOMAIN
  | SUB_DOMAIN
  | NO_DOMAIN
  deriving DecidableEq

/-- What the workers read of a `TACSFunction`: its domain kind and the element
list returned by `getElements` (whose return value is the list's length). -/
structure TACSFunction where
  getDomain : FunctionDomain
  elemSubList : List Int

instance : Inhabited TACSFunction := ⟨⟨FunctionDomain.NO_DOMAIN, []⟩⟩

/-- A read `a[i]` of a C `int` array. -/
def rd (a : List Int) (i : Nat) : Int := a.getD i 0

/-- The entry `funcs[k]` of the function array. -/
def funcAt (funcs : List TACSFunction) (k : Nat) : TACSFunction := funcs.getD k default

/-- The amount added to `totalSize` for one function. -/
def domainSize (numElements : Int) (f : TACSFunction) : Int :=
  if f.getDomain = FunctionDomain.SUB_DOMAIN then (f.elemSubList.length : Int) else numElements

/-- The entries `funcElemDomainSize[k+1]` written by the loop over the
functions, `totalSize` being the running total on entry. -/
def domainSizeLoop (numElements : Int) : List TACSFunction → Int → List Int
  | [], _ => []
  | f :: fs, totalSize =>
    (totalSize + domainSize numElements f) ::
      domainSizeLoop numElements fs (totalSize + domainSize numElements f)

/-- The table `funcElemDomainSize[0..numFuncs]`: entry 0 is the zero left by
`memset`. -/
def funcElemDomainSize (numElements : Int) (funcs : List TACSFunction) : List Int :=
  0 :: domainSizeLoop numElements funcs 0

/-- The final value of `totalSize`. -/
def totalSize (numElements : Int) (funcs : List TACSFunction) : Int :=
  rd (funcElemDomainSize numElements funcs) funcs.length

/-- The loop `while (funcIndex < numFuncs && !(item >= off[funcIndex] && item <
off[funcIndex+1])) funcIndex++`.  The first argument is `numFuncs - funcIndex`,
so that `0` is the case `funcIndex >= numFuncs`. -/
def scanFuncIndex (off : List Int) (item : Int) : Nat → Nat → Nat
  | 0, funcIndex => funcIndex
  | n + 1, funcIndex =>
    if !(decide (item ≥ rd off funcIndex) && decide (item < rd off (funcIndex + 1))) then
      scanFuncIndex off item n (funcIndex + 1)
    else funcIndex

/-- The worker's cached quantity: `funcIndex`, and the index in `funcs` of the
object the pointer `function` refers to (in `evalFunctions_thread` the
pointers `iwork_array` and `work_array` are set together with `function`). -/
structure FuncCursor where
  funcIndex : Nat
  function : Nat
  deriving DecidableEq

/-- The block "find the new function index if required"; `none` is the `break`. -/
def findFunction (off : List Int) (numFuncs : Nat) (s : FuncCursor) (item : Int) :
    Option FuncCursor :=
  if item ≥ rd off (s.funcIndex + 1) then
    let funcIndex := scanFuncIndex off item (numFuncs - s.funcIndex) s.funcIndex
    if funcIndex ≥ numFuncs then none
    else some ⟨funcIndex, funcIndex⟩
  else some s

/-- One iteration of the loop of `evalFunctions_thread` on the claimed `item`
(after `schedPthreadJob`); `none` is the `break`. -/
def evalFunctions_body (funcs : List TACSFunction) (off : List Int) (s : FuncCursor)
    (item : Int) : Option (FuncCursor × List Event) :=
  if item ≥ 0 then
    match findFunction off funcs.length s item with
    | none => none
    | some s' =>
      let elemIndex := item - rd off s'.funcIndex
      let function := funcAt funcs s'.function
      if function.getDomain = FunctionDomain.SUB_DOMAIN then
        let elemNum := rd function.elemSubList elemIndex.toNat
        some (s', [Event.elementWiseEval s'.function elemNum s'.function])
      else if function.getDomain = FunctionDomain.ENTIRE_DOMAIN then
        let elemNum := elemIndex
        some (s', [Event.elementWiseEval s'.function elemNum s'.function])
      else some (s', [])
  else some (s, [])

/-- One iteration of the loop of `evalDVSens_thread` on the claimed `item`. -/
def evalDVSens_body (funcs : List TACSFunction) (off : List Int) (s : FuncCursor)
    (item : Int) : Option (FuncCursor × List Event) :=
  if item ≥ 0 then
    match findFunction off funcs.length s item with
    | none => none
    | some s' =>
      let elemIndex := item - rd off s'.funcIndex
      let function := funcAt funcs s'.function
      if function.getDomain = FunctionDomain.SUB_DOMAIN then
        let elemNum := rd function.elemSubList elemIndex.toNat
        some (s', [Event.elementWiseDVSens s'.function elemNum s'.funcIndex])
      else if function.getDomain = FunctionDomain.ENTIRE_DOMAIN then
        let elemNum := elemIndex
        some (s', [Event.elementWiseDVSens s'.function elemNum s'.funcIndex])
      else some (s', [])
  else some (s, [])

/-- The `while (funcIndex < numFuncs && ...)` loop of a multi-function worker
that is handed `items` by the dispenser: the iterations it executes, each as
the claimed item with the kernel calls made for it. -/
def functionLoop (body : FuncCursor → Int → Option (FuncCursor × List Event))
    (numFuncs : Nat) : FuncCursor → List Int → List (Int × List Event)
  | _, [] => []
  | s, item :: items =>
    if s.funcIndex < numFuncs then
      match body s item with
      | none => []
      | some (s', evs) => (item, evs) :: functionLoop body numFuncs s' items
    else []

/-- Iterations of the loop of `evalFunctions_thread`, from `funcIndex = 0`,
`function = funcs[0]`. -/
def evalFunctions_loop (numElements : Int) (funcs : List TACSFunction) (items : List Int) :
    List (Int × List Event) :=
  functionLoop (evalFunctions_body funcs (funcElemDomainSize numElements funcs)) funcs.length
    ⟨0, 0⟩ items

/-- Iterations of the loop of `evalDVSens_thread`. -/
def evalDVSens_loop (numElements : Int) (funcs : List TACSFunction) (items : List Int) :
    List (Int × List Event) :=
  functionLoop (evalDVSens_body funcs (funcElemDomainSize numElements funcs)) funcs.length
    ⟨0, 0⟩ items

/-- Specification of the Domain Mapper for one flat index `item`, following the
design document: the calls `evs` made for `item` are those for the unique
quantity `k` with `off[k] <= item < off[k+1]` at the local index
`item - off[k]`: element `local` for an entire-domain quantity, element
`subList[local]` for a sub-domain quantity (and none for a quantity of
neither kind). -/
def ResolvedCall (funcs : List TACSFunction) (off : List Int) (numElements : Int)
    (call : Nat → Int → Nat → Event) (item : Int) (evs : List Event) : Prop :=
  ∃ k, k < funcs.length ∧ rd off k ≤ item ∧ item < rd off (k + 1) ∧
    (∀ k', k' < funcs.length → rd off k' ≤ item → item < rd off (k' + 1) → k' = k) ∧
    0 ≤ item - rd off k ∧
    item - rd off k < domainSize numElements (funcAt funcs k) ∧
    ((funcAt funcs k).getDomain = FunctionDomain.ENTIRE_DOMAIN →
      evs = [call k (item - rd off k) k]) ∧
    ((funcAt funcs k).getDomain = FunctionDomain.SUB_DOMAIN →
      ∃ e, (funcAt funcs k).elemSubList[(item - rd off k).toNat]? = some e ∧
        evs = [call k e k]) ∧
    ((funcAt funcs k).getDomain = FunctionDomain.NO_DOMAIN → evs = [])

/-! ### Residual and tangent assembly (`assembleRes_thread`, `assembleJacobian_thread`) -/

/-- What the workers read of the `TACSAssembler` object during a phase.  The
element and auxiliary-element kernels are opaque: each is given as its action
on the local buffer it is handed (the first `nvars`, resp. `nvars*nvars`,
entries of the scratch slice, which `memset` has just zeroed), for the gathered
data of the element it is called for. -/
structure TACSAssembler where
  /-- Field `numElements` -/
  numElements : Int
  /-- The fields `aux[j].num` of the array returned by `getAuxElements`; empty
  when `aux_elements` is null -/
  aux : List Int
  /-- Method `elements[elemIndex]->numVariables()` -/
  numVariables : Int → Nat
  /-- Action of `elements[elemIndex]->addResidual` on `elemRes` -/
  addResidual : Int → List Int → List Int
  /-- Action of `elements[elemIndex]->addJacobian` with coefficients
  `alpha, beta, gamma` on `elemMat` -/
  addJacobian : Int → Int → Int → Int → List Int → List Int
  /-- Action of `aux[j].elem->addResidual` on `elemRes`, called with the
  gathered data of element `elemIndex` -/
  auxAddResidual : Nat → Int → List Int → List Int
  /-- Action of `aux[j].elem->addJacobian` on `elemMat` -/
  auxAddJacobian : Nat → Int → Int → Int → Int → List Int → List Int
  /-- Action of `elements[elemIndex]->getMatType(matType, elemMat, ...)` on `elemMat` -/
  getMatType : Nat → Int → List Int → List Int
  /-- The amount `elements[elemIndex]->addAdjResProduct` adds to entry `d` of
  the row it is given, for adjoint vector `k` -/
  adjResProduct : Int → Nat → Nat → Int
  /-- The amount `funcs[func]->elementWiseDVSens` adds to entry `d` of the row
  it is given, for element `elemNum` -/
  elementWiseDVSens : Nat → Int → Nat → Int

/-- The fields of `TACSAssemblerPthreadInfo` that configure a phase. -/
structure TACSAssemblerPthreadInfo where
  /-- Coefficient of the state variables in the tangent -/
  alpha : Int
  /-- Coefficient of the first time derivatives -/
  beta : Int
  /-- Coefficient of the second time derivatives -/
  gamma : Int
  /-- Field documented as "scaling factor applied to the matrix" -/
  scaleFactor : Int
  /-- The matrix type passed to `getMatType` -/
  matType : Nat
  /-- The number of adjoint vectors -/
  numAdjoints : Nat
  /-- The number of design variables -/
  numDesignVars : Nat
  /-- The functions to evaluate -/
  functions : List TACSFunction

/-- The loop `while (aux_count < naux && aux[aux_count].num < elemIndex)
aux_count++`.  The first argument is `naux - aux_count`, so that `0` is the
case `aux_count >= naux`. -/
def auxSkip (aux : List Int) (elemIndex : Int) : Nat → Nat → Nat
  | 0, aux_count => aux_count
  | n + 1, aux_count =>
    if rd aux aux_count < elemIndex then auxSkip aux elemIndex n (aux_count + 1)
    else aux_count

/-- The loop `while (aux_count < naux && aux[aux_count].num == elemIndex)` of
`assembleRes_thread`: the calls made, the final `aux_count` and the final
`elemRes`.  The first argument is `naux - aux_count`. -/
def auxResidualLoop (tacs : TACSAssembler) (elemIndex : Int) :
    Nat → Nat → List Int → List Event × Nat × List Int
  | 0, aux_count, elemRes => ([], aux_count, elemRes)
  | n + 1, aux_count, elemRes =>
    if rd tacs.aux aux_count = elemIndex then
      let r := auxResidualLoop tacs elemIndex n (aux_count + 1)
        (tacs.auxAddResidual aux_count elemIndex elemRes)
      (Event.auxAddResidual aux_count elemIndex :: r.1, r.2)
    else ([], aux_count, elemRes)

/-- One iteration of the loop of `assembleRes_thread` on the claimed
`elemIndex`: the new `aux_count` and the calls made. -/
def assembleRes_body (tacs : TACSAssembler) (aux_count : Nat) (elemIndex : Int) :
    Nat × List Event :=
  if elemIndex ≥ 0 then
    let nvars := tacs.numVariables elemIndex
    let elemRes := tacs.addResidual elemIndex (List.replicate nvars 0)
    let aux_count := auxSkip tacs.aux elemIndex (tacs.aux.length - aux_count) aux_count
    let r := auxResidualLoop tacs elemIndex (tacs.aux.length - aux_count) aux_count elemRes
    (r.2.1, Event.addResidual elemIndex :: r.1 ++ [Event.addValues elemIndex r.2.2])
  else (aux_count, [])

/-- The loop of `assembleRes_thread` run by a worker that is handed `items` by
the dispenser, from the given `aux_count`: all calls made, in order. -/
def assembleRes_loop (tacs : TACSAssembler) : Nat → List Int → List Event
  | _, [] => []
  | aux_count, elemIndex :: items =>
    (assembleRes_body tacs aux_count elemIndex).2 ++
      assembleRes_loop tacs (assembleRes_body tacs aux_count elemIndex).1 items

/-- The calls of one `assembleRes_thread` worker (`aux_count` starts at 0). -/
def assembleRes_thread (tacs : TACSAssembler) (items : List Int) : List Event :=
  assembleRes_loop tacs 0 items

/-- The loop `while (aux_count < naux && aux[aux_count].num == elemIndex)` of
`assembleJacobian_thread`: the calls made, the final `aux_count`, `elemRes`
and `elemMat`. -/
def auxJacobianLoop (tacs : TACSAssembler) (pinfo : TACSAssemblerPthreadInfo)
    (elemIndex : Int) : Nat → Nat → List Int → List Int →
    List Event × Nat × List Int × List Int
  | 0, aux_count, elemRes, elemMat => ([], aux_count, elemRes, elemMat)
  | n + 1, aux_count, elemRes, elemMat =>
    if rd tacs.aux aux_count = elemIndex then
      let r := auxJacobianLoop tacs pinfo elemIndex n (aux_count + 1)
        (tacs.auxAddResidual aux_count elemIndex elemRes)
        (tacs.auxAddJacobian aux_count elemIndex pinfo.alpha pinfo.beta pinfo.gamma elemMat)
      (Event.auxAddResidual aux_count elemIndex :: Event.auxAddJacobian aux_count elemIndex ::
        r.1, r.2)
    else ([], aux_count, elemRes, elemMat)

/-- One iteration of the loop of `assembleJacobian_thread`. -/
def assembleJacobian_body (tacs : TACSAssembler) (pinfo : TACSAssemblerPthreadInfo)
    (aux_count : Nat) (elemIndex : Int) : Nat × List Event :=
  if elemIndex ≥ 0 then
    let nvars := tacs.numVariables elemIndex
    let elemRes := tacs.addResidual elemIndex (List.replicate nvars 0)
    let elemMat := tacs.addJacobian elemIndex pinfo.alpha pinfo.beta pinfo.gamma
      (List.replicate (nvars * nvars) 0)
    let aux_count := auxSkip tacs.aux elemIndex (tacs.aux.length - aux_count) aux_count
    let r := auxJacobianLoop tacs pinfo elemIndex (tacs.aux.length - aux_count) aux_count
      elemRes elemMat
    (r.2.1, Event.addResidual elemIndex :: Event.addJacobian elemIndex :: r.1 ++
      [Event.addValues elemIndex r.2.2.1, Event.addMatValues elemIndex r.2.2.2])
  else (aux_count, [])

/-- The loop of `assembleJacobian_thread` on the items handed to the worker. -/
def assembleJacobian_loop (tacs : TACSAssembler) (pinfo : TACSAssemblerPthreadInfo) :
    Nat → List Int → List Event
  | _, [] => []
  | aux_count, elemIndex :: items =>
    (assembleJacobian_body tacs pinfo aux_count elemIndex).2 ++
      assembleJacobian_loop tacs pinfo (assembleJacobian_body tacs pinfo aux_count elemIndex).1
        items

/-- The calls of one `assembleJacobian_thread` worker. -/
def assembleJacobian_thread (tacs : TACSAssembler) (pinfo : TACSAssemblerPthreadInfo)
    (items : List Int) : List Event :=
  assembleJacobian_loop tacs pinfo 0 items

/-- Specification of the auxiliary merge: the table positions whose element
index is `e`, in table order. -/
def auxPositions (aux : List Int) (e : Int) : List Nat :=
  (List.range aux.length).filter (fun j => rd aux j == e)

/-- Specification: the local residual of element `e`, its own contribution
followed by every auxiliary contribution for `e`. -/
def localResidual (tacs : TACSAssembler) (e : Int) : List Int :=
  (auxPositions tacs.aux e).foldl (fun r j => tacs.auxAddResidual j e r)
    (tacs.addResidual e (List.replicate (tacs.numVariables e) 0))

/-- Specification: the local tangent matrix of element `e`, its own
contribution followed by every auxiliary contribution for `e`. -/
def localJacobian (tacs : TACSAssembler) (pinfo : TACSAssemblerPthreadInfo) (e : Int) :
    List Int :=
  (auxPositions tacs.aux e).foldl
    (fun r j => tacs.auxAddJacobian j e pinfo.alpha pinfo.beta pinfo.gamma r)
    (tacs.addJacobian e pinfo.alpha pinfo.beta pinfo.gamma
      (List.replicate (tacs.numVariables e * tacs.numVariables e) 0))

/-- Specification of the residual worker: for each processed element its
kernel call, then one call per auxiliary entry for that element, then its
scatter-add. -/
def residualSpec (tacs : TACSAssembler) (e : Int) : List Event :=
  Event.addResidual e :: (auxPositions tacs.aux e).map (fun j => Event.auxAddResidual j e) ++
    [Event.addValues e (localResidual tacs e)]

/-- Specification of the tangent worker for one processed element. -/
def jacobianSpec (tacs : TACSAssembler) (pinfo : TACSAssemblerPthreadInfo) (e : Int) :
    List Event :=
  Event.addResidual e :: Event.addJacobian e ::
    (auxPositions tacs.aux e).flatMap
      (fun j => [Event.auxAddResidual j e, Event.auxAddJacobian j e]) ++
    [Event.addValues e (localResidual tacs e),
      Event.addMatValues e (localJacobian tacs pinfo e)]

/-! ### Typed-matrix assembly (`assembleMatType_thread`) -/

/-- One iteration of the loop of `assembleMatType_thread`.  The slice
`elemMat` is not cleared between iterations, so its contents are carried
along. -/
def assembleMatType_body (tacs : TACSAssembler) (pinfo : TACSAssemblerPthreadInfo)
    (elemMat : List Int) (elemIndex : Int) : List Int × List Event :=
  if elemIndex ≥ 0 then
    let elemMat := tacs.getMatType pinfo.matType elemIndex elemMat
    (elemMat, [Event.getMatType elemIndex, Event.addMatValues elemIndex elemMat])
  else (elemMat, [])

/-- The loop of `assembleMatType_thread` on the items handed to the worker. -/
def assembleMatType_loop (tacs : TACSAssembler) (pinfo : TACSAssemblerPthreadInfo) :
    List Int → List Int → List Event
  | _, [] => []
  | elemMat, elemIndex :: items =>
    (assembleMatType_body tacs pinfo elemMat elemIndex).2 ++
      assembleMatType_loop tacs pinfo (assembleMatType_body tacs pinfo elemMat elemIndex).1 items

/-- The calls of one `assembleMatType_thread` worker; `elemMat` is the initial
content of its freshly allocated scratch slice. -/
def assembleMatType_thread (tacs : TACSAssembler) (pinfo : TACSAssemblerPthreadInfo)
    (elemMat : List Int) (items : List Int) : List Event :=
  assembleMatType_loop tacs pinfo elemMat items

/-! ### Thread-local sensitivities (`adjointResProduct_thread`, `evalDVSens_thread`) -/

/-- Modelled from the spec: the kernels `addAdjResProduct` and
`elementWiseDVSens` are not among the sources.  Following their calling
contract, a kernel that is handed the row `&fdvSens[row*numDVs]` and its width
`numDVs` accumulates into that row: it adds `c d` to entry `d < numDVs`. -/
def addRow (fdvSens : Nat → Int) (row numDVs : Nat) (c : Nat → Int) : Nat → Int :=
  fun i =>
    if row * numDVs ≤ i ∧ i < row * numDVs + numDVs then fdvSens i + c (i - row * numDVs)
    else fdvSens i

/-- The effect of a kernel call on the worker's private buffer `fdvSens`. -/
def sensKernel (tacs : TACSAssembler) (numDVs : Nat) (fdvSens : Nat → Int) :
    Event → Nat → Int
  | Event.addAdjResProduct elemIndex k =>
    addRow fdvSens k numDVs (tacs.adjResProduct elemIndex k)
  | Event.elementWiseDVSens func elemNum row =>
    addRow fdvSens row numDVs (tacs.elementWiseDVSens func elemNum)
  | _ => fdvSens

/-- The final loop `for (k = 0; k < n; k++) pinfo->fdvSens[k] += fdvSens[k]`,
executed while holding `tacs_mutex`. -/
def mergeDVSens (n : Nat) (shared fdvSens : Nat → Int) : Nat → Int :=
  (List.range n).foldl (fun sh k => Function.update sh k (sh k + fdvSens k)) shared

/-- One iteration of the loop of `adjointResProduct_thread`: the kernel calls
for the claimed element, one per adjoint vector. -/
def adjointResProduct_body (pinfo : TACSAssemblerPthreadInfo) (elemIndex : Int) :
    List Event :=
  if elemIndex ≥ 0 then
    (List.range pinfo.numAdjoints).map (fun k => Event.addAdjResProduct elemIndex k)
  else []

/-- The kernel calls of the loop of `adjointResProduct_thread`. -/
def adjointResProduct_loop (pinfo : TACSAssemblerPthreadInfo) (items : List Int) :
    List Event :=
  items.flatMap (adjointResProduct_body pinfo)

/-- One `adjointResProduct_thread` worker: its private buffer `fdvSens`
(zero-initialised, then updated by the kernel calls) as it stands at the final
merge, and all its steps. -/
def adjointResProduct_thread (tacs : TACSAssembler) (pinfo : TACSAssemblerPthreadInfo)
    (items : List Int) : (Nat → Int) × List Event :=
  ((adjointResProduct_loop pinfo items).foldl (sensKernel tacs pinfo.numDesignVars)
      (fun _ => 0),
    adjointResProduct_loop pinfo items ++
      [Event.mergeDVSens (pinfo.numAdjoints * pinfo.numDesignVars)])

/-- One `evalDVSens_thread` worker: its private buffer `fdvSens` at the final
merge, and all its steps. -/
def evalDVSens_thread (tacs : TACSAssembler) (pinfo : TACSAssemblerPthreadInfo)
    (items : List Int) : (Nat → Int) × List Event :=
  (((evalDVSens_loop tacs.numElements pinfo.functions items).flatMap Prod.snd).foldl
      (sensKernel tacs pinfo.numDesignVars) (fun _ => 0),
    (evalDVSens_loop tacs.numElements pinfo.functions items).flatMap Prod.snd ++
      [Event.mergeDVSens (pinfo.functions.length * pinfo.numDesignVars)])

/-- One `evalFunctions_thread` worker: the `preEvalThread` hooks of all
functions, the loop, the `postEvalThread` hooks of all functions. -/
def evalFunctions_thread (tacs : TACSAssembler) (pinfo : TACSAssemblerPthreadInfo)
    (items : List Int) : List Event :=
  (List.range pinfo.functions.length).map Event.preEvalThread ++
    (evalFunctions_loop tacs.numElements pinfo.functions items).flatMap Prod.snd ++
    (List.range pinfo.functions.length).map Event.postEvalThread

/-! ### The six phases -/

/-- The phase kinds. -/
inductive Phase
  | residual
  | tangent
  | typedMatrix
  | adjointProduct
  | functionEvaluation
  | designSensitivity
  deriving DecidableEq

/-- The total domain size a worker of the phase passes to `schedPthreadJob`. -/
def phaseTotal (tacs : TACSAssembler) (pinfo : TACSAssemblerPthreadInfo) : Phase → Int
  | Phase.functionEvaluation => totalSize tacs.numElements pinfo.functions
  | Phase.designSensitivity => totalSize tacs.numElements pinfo.functions
  | _ => tacs.numElements

/-- All steps of one worker of the phase that is handed `items`. -/
def workerTrace (tacs : TACSAssembler) (pinfo : TACSAssemblerPthreadInfo)
    (elemMat : List Int) : Phase → List Int → List Event
  | Phase.residual, items => assembleRes_thread tacs items
  | Phase.tangent, items => assembleJacobian_thread tacs pinfo items
  | Phase.typedMatrix, items => assembleMatType_thread tacs pinfo elemMat items
  | Phase.adjointProduct, items => (adjointResProduct_thread tacs pinfo items).2
  | Phase.functionEvaluation, items => evalFunctions_thread tacs pinfo items
  | Phase.designSensitivity, items => (evalDVSens_thread tacs pinfo items).2

/-- The private buffer a worker of the phase merges into `pinfo->fdvSens` (all
zero for the phases without such a buffer). -/
def workerFdvSens (tacs : TACSAssembler) (pinfo : TACSAssemblerPthreadInfo) :
    Phase → List Int → Nat → Int
  | Phase.adjointProduct, items => (adjointResProduct_thread tacs pinfo items).1
  | Phase.designSensitivity, items => (evalDVSens_thread tacs pinfo items).1
  | _, _ => fun _ => 0

/-- Whether a step is a call into an element, auxiliary-element or function
kernel (as opposed to a write to a shared accumulator). -/
def Event.isKernelCall : Event → Bool
  | Event.addValues _ _ => false
  | Event.addMatValues _ _ => false
  | Event.mergeDVSens _ => false
  | _ => true

/-! ### Accesses to the shared counter -/

/-- Kind of an access to `tacs->numCompletedElements`. -/
inductive AccessKind
  | read
  | write
  deriving DecidableEq

/-- The place in the source where an access to the counter is made. -/
inductive AccessSite
  | loopCondition
  | dispenser
  deriving DecidableEq

/-- One access of a thread to `tacs->numCompletedElements`: its kind, its
place, and whether the thread held `sched_mutex` when making it. -/
structure CounterAccess where
  kind : AccessKind
  site : AccessSite
  locked : Bool
  deriving DecidableEq

/-- The scheduling state as one thread sees it: the counter, whether this
thread holds `sched_mutex`, and the accesses it has made so far. -/
structure SchedState where
  numCompletedElements : Int
  locked : Bool
  log : List CounterAccess

/-- The call `pthread_mutex_lock(&sched_mutex)`, once it has returned. -/
def SchedState.lock (s : SchedState) : SchedState := { s with locked := true }

/-- The call `pthread_mutex_unlock(&sched_mutex)`. -/
def SchedState.unlock (s : SchedState) : SchedState := { s with locked := false }

/-- A read of `tacs->numCompletedElements`. -/
def SchedState.readCounter (site : AccessSite) (s : SchedState) : Int × SchedState :=
  (s.numCompletedElements,
    { s with log := s.log ++ [⟨AccessKind.read, site, s.locked⟩] })

/-- A write of `tacs->numCompletedElements`. -/
def SchedState.writeCounter (site : AccessSite) (v : Int) (s : SchedState) : SchedState :=
  { s with numCompletedElements := v,
           log := s.log ++ [⟨AccessKind.write, site, s.locked⟩] }

/-- Another thread changes the counter while this thread is between two of
its own steps. -/
def SchedState.interfere (v : Int) (s : SchedState) : SchedState :=
  { s with numCompletedElements := v }

/-- The statements of `TACSAssembler::schedPthreadJob` one by one, recording
each access to the counter; the result is `*index`. -/
def schedPthreadJob_traced (s : SchedState) (total_size : Int) : Int × SchedState :=
  let s := s.lock
  let c := s.readCounter AccessSite.dispenser
  if c.1 < total_size then
    let i := c.2.readCounter AccessSite.dispenser
    let r := i.2.readCounter AccessSite.dispenser
    let s := r.2.writeCounter AccessSite.dispenser (wrapInt (r.1 + 1))
    (i.1, s.unlock)
  else
    (-1, c.2.unlock)

/-- The loop `while (tacs->numCompletedElements < total) { schedPthreadJob(...);
... }` of `assembleRes_thread`, `assembleJacobian_thread`,
`assembleMatType_thread` and `adjointResProduct_thread`, whose bodies do not
touch the counter otherwise.  Each entry of the first list gives, for one
loop test, the counter values other threads have left when the condition is
evaluated and when the lock is obtained. -/
def elementLoop_traced (total : Int) : List (Int × Int) → SchedState → SchedState
  | [], s => s
  | (g, c) :: obs, s =>
    let t := (s.interfere g).readCounter AccessSite.loopCondition
    if t.1 < total then
      elementLoop_traced total obs (schedPthreadJob_traced (t.2.interfere c) total).2
    else t.2

/-- The loop `while (funcIndex < numFuncs && tacs->numCompletedElements <
totalSize) { schedPthreadJob(...); ... }` of `evalFunctions_thread` and
`evalDVSens_thread`.  The Boolean of an entry is the value of
`funcIndex < numFuncs` at that loop test (false also stands for a `break`). -/
def functionLoop_traced (total : Int) : List (Bool × Int × Int) → SchedState → SchedState
  | [], s => s
  | (b, g, c) :: obs, s =>
    if b then
      let t := (s.interfere g).readCounter AccessSite.loopCondition
      if t.1 < total then
        functionLoop_traced total obs (schedPthreadJob_traced (t.2.interfere c) total).2
      else t.2
    else s

/-- The accesses to the counter made by one worker of the phase, run from a
state in which it does not hold the lock. -/
def workerAccesses (total : Int) (c0 : Int) (obs : List (Bool × Int × Int)) :
    Phase → List CounterAccess
  | Phase.functionEvaluation => (functionLoop_traced total obs ⟨c0, false, []⟩).log
  | Phase.designSensitivity => (functionLoop_traced total obs ⟨c0, false, []⟩).log
  | _ => (elementLoop_traced total (obs.map Prod.snd) ⟨c0, false, []⟩).log

/-- The lock discipline the workers follow: writes are made in the dispenser,
every access in the dispenser is made holding `sched_mutex`, and the loop
conditions only read, without the lock. -/
def CounterAccess.disciplined (a : CounterAccess) : Prop :=
  (a.kind = AccessKind.write → a.site = AccessSite.dispenser) ∧
  (a.site = AccessSite.dispenser → a.locked = true) ∧
  (a.site = AccessSite.loopCondition → a.kind = AccessKind.read ∧ a.locked = false)

/-! ### The shared sensitivity buffer -/

/-- The buffer `pinfo->fdvSens` after the workers have made their final
merges one after the other; `locals` are their private buffers in the order of
the merges. -/
def sharedFdvSens (n : Nat) (init : Nat → Int) (locals : List (Nat → Int)) : Nat → Int :=
  locals.foldl (mergeDVSens n) init

/-- Specification: what a kernel that is handed row `row` and adds `c d` to
entry `d` contributes to entry `i` of the whole buffer. -/
def rowAt (row numDVs : Nat) (c : Nat → Int) (i : Nat) : Int :=
  if row * numDVs ≤ i ∧ i < row * numDVs + numDVs then c (i - row * numDVs) else 0

/-- Specification: what one kernel call contributes to entry `i` of a
sensitivity buffer. -/
def sensContribution (tacs : TACSAssembler) (numDVs : Nat) (i : Nat) : Event → Int
  | Event.addAdjResProduct elemIndex k => rowAt k numDVs (tacs.adjResProduct elemIndex k) i
  | Event.elementWiseDVSens func elemNum row =>
    rowAt row numDVs (tacs.elementWiseDVSens func elemNum) i
  | _ => 0

/-- The kernel calls of the design-sensitivity unit with flat index `item`:
those the worker makes for it when its cache is in the initial state. -/
def dvSensUnit (tacs : TACSAssembler) (pinfo : TACSAssemblerPthreadInfo) (item : Int) :
    List Event :=
  match evalDVSens_body pinfo.functions
      (funcElemDomainSize tacs.numElements pinfo.functions) ⟨0, 0⟩ item with
  | some r => r.2
  | none => []

/-! ### The shared residual vector -/

/-- Modelled from the spec: `TACSAssembler::addValues` is not among the
sources.  Following the Accumulator Gate of the design document, for each
local degree of freedom of element `elemIndex` its value is added into the
accumulator at the corresponding global location `dofs elemIndex`; global
locations may repeat within and across calls. -/
def addValues (dofs : Int → List Nat) (elemIndex : Int) (elemRes : List Int)
    (localRes : Nat → Int) : Nat → Int :=
  ((dofs elemIndex).zip elemRes).foldl
    (fun res p => Function.update res p.1 (res p.1 + p.2)) localRes

/-- The effect of one worker step on the shared residual vector `localRes`:
only `addValues` writes it. -/
def applyEvent (dofs : Int → List Nat) (localRes : Nat → Int) : Event → Nat → Int
  | Event.addValues elemIndex elemRes => addValues dofs elemIndex elemRes localRes
  | _ => localRes

/-- The shared residual vector after the steps `trace`, executed one at a time
in the given order. -/
def finalResidual (dofs : Int → List Nat) (init : Nat → Int) (trace : List Event) :
    Nat → Int :=
  trace.foldl (applyEvent dofs) init

/-- Specification: what the scatter of the local vector `vals` of element `e`
adds to the global degree of freedom `d`. -/
def scatterAt (dofs : Int → List Nat) (e : Int) (vals : List Int) (d : Nat) : Int :=
  ((((dofs e).zip vals).filter (fun p => p.1 == d)).map Prod.snd).sum

/-- The calls of all `K` workers of a residual phase, worker after worker, when
the dispenser serves the claims in the order `sched`. -/
def assembleRes_workers (tacs : TACSAssembler) (K : Nat) (sched : List Nat) : List Event :=
  (List.range K).flatMap (fun w =>
    assembleRes_thread tacs (claimsOf w (runClaims tacs.numElements 0 sched)))

/-- Specification: what one worker step adds to the global degree of freedom
`d` of the residual vector. -/
def eventContribution (dofs : Int → List Nat) (d : Nat) : Event → Int
  | Event.addValues e vals => scatterAt dofs e vals d
  | _ => 0

/-! ### The offset table in C arithmetic -/

/-- The final value of the variable `totalSize` after the loop over the
functions, `totalSize` being its value on entry. -/
def totalSizeLoop (numElements : Int) : List TACSFunction → Int → Int
  | [], totalSize => totalSize
  | f :: fs, totalSize => totalSizeLoop numElements fs (totalSize + domainSize numElements f)

/-- The loop that fills `funcElemDomainSize[k+1]` with every `totalSize += ...`
taken in C `int` arithmetic. -/
def domainSizeLoopInt (numElements : Int) : List TACSFunction → Int → List Int
  | [], _ => []
  | f :: fs, totalSize =>
    wrapInt (totalSize + domainSize numElements f) ::
      domainSizeLoopInt numElements fs (wrapInt (totalSize + domainSize numElements f))

/-! ### Projections of the steps -/

/-- The element of a matrix scatter-add `addMatValues`, if the step is one. -/
def Event.matElem : Event → Option Int
  | Event.addMatValues elemIndex _ => some elemIndex
  | _ => none

/-- The table position and the element of an auxiliary kernel call, if the
step is one. -/
def Event.auxCall : Event → Option (Nat × Int)
  | Event.auxAddResidual aux_count elemIndex => some (aux_count, elemIndex)
  | Event.auxAddJacobian aux_count elemIndex => some (aux_count, elemIndex)
  | _ => none

/-- The element of an element kernel call `addResidual`, if the step is one. -/
def Event.resElem : Event → Option Int
  | Event.addResidual elemIndex => some elemIndex
  | _ => none

/-! ### Layout of the scratch allocation `data` -/

/-- A sub-buffer of `data`: the index of its first entry and its length. -/
structure Slice where
  start : Nat
  size : Nat
  deriving DecidableEq

/-- The index one past the last entry of a sub-buffer. -/
def Slice.stop (a : Slice) : Nat := a.start + a.size

/-- Two sub-buffers share no index. -/
def Slice.disjoint (a b : Slice) : Prop := a.stop ≤ b.start ∨ b.stop ≤ a.start

/-- The value of `dataSize` in `assembleRes_thread` (`s = maxElementSize`,
`sx = 3*maxElementNodes`). -/
def assembleRes_dataSize (maxElementSize maxElementNodes : Nat) : Nat :=
  4 * maxElementSize + 3 * maxElementNodes

/-- The slices `vars`, `dvars`, `ddvars`, `elemRes`, `elemXpts` of
`assembleRes_thread`. -/
def assembleRes_slices (maxElementSize maxElementNodes : Nat) : List Slice :=
  [⟨0, maxElementSize⟩, ⟨maxElementSize, maxElementSize⟩,
   ⟨2 * maxElementSize, maxElementSize⟩, ⟨3 * maxElementSize, maxElementSize⟩,
   ⟨4 * maxElementSize, 3 * maxElementNodes⟩]

/-- The value of `dataSize` in `assembleJacobian_thread` and in
`adjointResProduct_thread` (`sw = maxElementIndepNodes`). -/
def assembleJacobian_dataSize (maxElementSize maxElementNodes maxElementIndepNodes : Nat) :
    Nat :=
  4 * maxElementSize + 3 * maxElementNodes + maxElementSize * maxElementSize +
    maxElementIndepNodes

/-- The slices `vars`, `dvars`, `ddvars`, `elemRes` (`elemAdjoint` in
`adjointResProduct_thread`), `elemXpts`, `elemWeights`, `elemMat` of
`assembleJacobian_thread` and `adjointResProduct_thread`. -/
def assembleJacobian_slices (maxElementSize maxElementNodes maxElementIndepNodes : Nat) :
    List Slice :=
  [⟨0, maxElementSize⟩, ⟨maxElementSize, maxElementSize⟩,
   ⟨2 * maxElementSize, maxElementSize⟩, ⟨3 * maxElementSize, maxElementSize⟩,
   ⟨4 * maxElementSize, 3 * maxElementNodes⟩,
   ⟨4 * maxElementSize + 3 * maxElementNodes, maxElementIndepNodes⟩,
   ⟨4 * maxElementSize + 3 * maxElementNodes + maxElementIndepNodes,
     maxElementSize * maxElementSize⟩]

/-- The value of `dataSize` in `assembleMatType_thread`. -/
def assembleMatType_dataSize (maxElementSize maxElementNodes maxElementIndepNodes : Nat) :
    Nat :=
  3 * maxElementSize + 3 * maxElementNodes + maxElementSize * maxElementSize +
    maxElementIndepNodes

/-- The slices `vars`, `elemRes`, `elemXpts`, `elemWeights`, `elemMat` of
`assembleMatType_thread`. -/
def assembleMatType_slices (maxElementSize maxElementNodes maxElementIndepNodes : Nat) :
    List Slice :=
  [⟨0, maxElementSize⟩, ⟨maxElementSize, maxElementSize⟩,
   ⟨2 * maxElementSize, 3 * maxElementNodes⟩,
   ⟨2 * maxElementSize + 3 * maxElementNodes, maxElementIndepNodes⟩,
   ⟨2 * maxElementSize + 3 * maxElementNodes + maxElementIndepNodes,
     maxElementSize * maxElementSize⟩]

/-- The slices of the scratch allocation of a worker of the phase (the
multi-function workers are not covered: their layout also depends on the
functions' work sizes). -/
def scratchSlices (s n w : Nat) : Phase → List Slice
  | Phase.residual => assembleRes_slices s n
  | Phase.tangent => assembleJacobian_slices s n w
  | Phase.typedMatrix => assembleMatType_slices s n w
  | Phase.adjointProduct => assembleJacobian_slices s n w
  | _ => []

/-- The value of `dataSize` of a worker of the phase. -/
def scratchDataSize (s n w : Nat) : Phase → Nat
  | Phase.residual => assembleRes_dataSize s n
  | Phase.tangent => assembleJacobian_dataSize s n w
  | Phase.typedMatrix => assembleMatType_dataSize s n w
  | Phase.adjointProduct => assembleJacobian_dataSize s n w
  | _ => 0

/-! ### Single-unit references -/

/-- The steps of a residual worker for element `e` when `e` is the first
element it processes (cursor at 0): the reference for the unit `e`. -/
def residualUnit (tacs : TACSAssembler) (e : Int) : List Event :=
  (assembleRes_body tacs 0 e).2

/-- The steps of a tangent worker for element `e` when `e` is the first
element it processes. -/
def jacobianUnit (tacs : TACSAssembler) (pinfo : TACSAssemblerPthreadInfo) (e : Int) :
    List Event :=
  (assembleJacobian_body tacs pinfo 0 e).2

/-! ### The auxiliary cursor -/

/-- The loop `while (aux_count < naux && aux[aux_count].num < elemIndex)
aux_count++` with its memory of the cursor: the final `aux_count`, the values
`aux_count` takes one after the other, and the table positions read.  The
first argument is `naux - aux_count`; the table is read only when the bound
test `aux_count < naux` has succeeded. -/
def auxSkip_traced (aux : List Int) (elemIndex : Int) : Nat → Nat → Nat × List Nat × List Nat
  | 0, aux_count => (aux_count, [], [])
  | n + 1, aux_count =>
    if rd aux aux_count < elemIndex then
      let r := auxSkip_traced aux elemIndex n (aux_count + 1)
      (r.1, (aux_count + 1) :: r.2.1, aux_count :: r.2.2)
    else (aux_count, [], [aux_count])

/-- The loop `while (aux_count < naux && aux[aux_count].num == elemIndex) {...
aux_count++; }` of both workers, with its memory of the cursor. -/
def auxApply_traced (aux : List Int) (elemIndex : Int) : Nat → Nat → Nat × List Nat × List Nat
  | 0, aux_count => (aux_count, [], [])
  | n + 1, aux_count =>
    if rd aux aux_count = elemIndex then
      let r := auxApply_traced aux elemIndex n (aux_count + 1)
      (r.1, (aux_count + 1) :: r.2.1, aux_count :: r.2.2)
    else (aux_count, [], [aux_count])

/-- The cursor during one iteration of the loop of `assembleRes_thread` or
`assembleJacobian_thread`: final value, values taken, positions read. -/
def auxCursor_body (aux : List Int) (aux_count : Nat) (elemIndex : Int) :
    Nat × List Nat × List Nat :=
  if elemIndex ≥ 0 then
    let s := auxSkip_traced aux elemIndex (aux.length - aux_count) aux_count
    let a := auxApply_traced aux elemIndex (aux.length - s.1) s.1
    (a.1, s.2.1 ++ a.2.1, s.2.2 ++ a.2.2)
  else (aux_count, [], [])

/-- The cursor along a worker's traversal of the items it is handed: the
values `aux_count` takes one after the other, and the table positions read. -/
def auxCursor_loop (aux : List Int) : Nat → List Int → List Nat × List Nat
  | _, [] => ([], [])
  | aux_count, elemIndex :: items =>
    ((auxCursor_body aux aux_count elemIndex).2.1 ++
        (auxCursor_loop aux (auxCursor_body aux aux_count elemIndex).1 items).1,
      (auxCursor_body aux aux_count elemIndex).2.2 ++
        (auxCursor_loop aux (auxCursor_body aux aux_count elemIndex).1 items).2)

/-! ### Interleaved execution of the workers of a phase -/

/-- Where a worker stands in its loop `while (... numCompletedElements < total)
{ schedPthreadJob(...); ... }`: about to evaluate the loop condition, about to
call `schedPthreadJob` (the condition was true), or past the loop. -/
inductive WorkerPC
  | atCondition
  | atClaim
  | finished
  deriving DecidableEq

/-- The state of a phase: the shared counter, where every worker stands, and
the calls of `schedPthreadJob` made so far, each with the worker that made it
and the index it received. -/
structure PhaseState where
  numCompletedElements : Int
  pc : Nat → WorkerPC
  claims : List (Nat × Int)

/-- The start of a phase: counter 0, every worker at its first loop test. -/
def PhaseState.init : PhaseState := ⟨0, fun _ => WorkerPC.atCondition, []⟩

/-- One atomic step of worker `w`.  At the loop condition it reads the counter
(without the lock) and enters the body or leaves the loop; `localGuard`, a
function of the indices the worker has received so far, is the part of the
condition that does not involve the counter (and is false once the body has
executed `break`).  In the body it calls `schedPthreadJob`; the rest of the
body does not touch the scheduling state. -/
def workerStep (localGuard : List Int → Bool) (total : Int) (s : PhaseState) (w : Nat) :
    PhaseState :=
  match s.pc w with
  | WorkerPC.atCondition =>
    if localGuard (claimsOf w s.claims) && decide (s.numCompletedElements < total) then
      { s with pc := Function.update s.pc w WorkerPC.atClaim }
    else
      { s with pc := Function.update s.pc w WorkerPC.finished }
  | WorkerPC.atClaim =>
    { numCompletedElements := (schedPthreadJob s.numCompletedElements total).2,
      pc := Function.update s.pc w WorkerPC.atCondition,
      claims := s.claims ++ [(w, (schedPthreadJob s.numCompletedElements total).1)] }
  | WorkerPC.finished => s

/-- The state after the workers have taken their steps in the order `sched`. -/
def runPhase (localGuard : List Int → Bool) (total : Int) (sched : List Nat) : PhaseState :=
  sched.foldl (workerStep localGuard total) PhaseState.init

/-- Whether the loop `while (funcIndex < numFuncs && ...)` of a multi-function
worker is still running after it has been handed `items`: no `break` was
executed and `funcIndex < numFuncs` holds at the next loop test. -/
def functionLoop_runs (body : FuncCursor → Int → Option (FuncCursor × List Event))
    (numFuncs : Nat) : FuncCursor → List Int → Bool
  | s, [] => decide (s.funcIndex < numFuncs)
  | s, item :: items =>
    if s.funcIndex < numFuncs then
      match body s item with
      | none => false
      | some r => functionLoop_runs body numFuncs r.1 items
    else false

/-- The part of the loop condition of a worker of the phase that does not
involve the counter. -/
def phaseGuard (tacs : TACSAssembler) (pinfo : TACSAssemblerPthreadInfo) :
    Phase → List Int → Bool
  | Phase.functionEvaluation =>
    functionLoop_runs
      (evalFunctions_body pinfo.functions (funcElemDomainSize tacs.numElements pinfo.functions))
      pinfo.functions.length ⟨0, 0⟩
  | Phase.designSensitivity =>
    functionLoop_runs
      (evalDVSens_body pinfo.functions (funcElemDomainSize tacs.numElements pinfo.functions))
      pinfo.functions.length ⟨0, 0⟩
  | _ => fun _ => true

/-- The workers that have received the sentinel, one entry per sentinel. -/
def sentinelWorkers (claims : List (Nat × Int)) : List Nat :=
  (claims.filter (fun p => p.2 == -1)).map Prod.fst

/-- What holds of every state a phase of total size `N` with workers below `K`
can reach. -/
structure PhaseInv (N : Int) (K : Nat) (s : PhaseState) : Prop where
  counter : s.numCompletedElements = min (s.claims.length : Int) N
  results : s.claims.map Prod.snd =
    (List.range s.claims.length).map (fun j : Nat => if (j : Int) < N then (j : Int) else -1)
  workers : ∀ p ∈ s.claims, p.1 < K
  once : (sentinelWorkers s.claims).Nodup
  left : ∀ w ∈ sentinelWorkers s.claims, s.pc w ≠ WorkerPC.atClaim
  exhausted : ∀ w ∈ sentinelWorkers s.claims, N ≤ s.numCompletedElements
  done : ∀ w, s.pc w = WorkerPC.finished → N ≤ s.numCompletedElements
  winner : 1 ≤ N → s.numCompletedElements = N →
    ∃ L, L < K ∧ L ∉ sentinelWorkers s.claims ∧ s.pc L ≠ WorkerPC.atClaim

/-! ### The scratch allocation made explicit (`assembleRes_thread`, `assembleJacobian_thread`) -/

/-- The entries `p[0], ..., p[n - 1]` of the pointer `p = &data[off]`. -/
def readAt (off n : Nat) (data : List Int) : List Int :=
  (data.drop off).take n

/-- The array `data` after `vals` has been stored at `p[0], p[1], ...` for
`p = &data[off]`. -/
def writeAt (off : Nat) (vals data : List Int) : List Int :=
  data.take off ++ vals ++ data.drop (off + vals.length)

/-- Call `memset(p, 0, n*sizeof(TacsScalar))` for `p = &data[off]`. -/
def memset (off n : Nat) (data : List Int) : List Int :=
  writeAt off (List.replicate n 0) data

/-- The element-local data a kernel is given: nodal coordinates, state, first
and second time derivatives. -/
structure ElementInput where
  elemXpts : List Int
  vars : List Int
  dvars : List Int
  ddvars : List Int

/-- Modelled from the spec: `TACSAssembler::getValues`, `addMatValues` and the
element classes are not among the sources.  Following the element kernel
contract of the spec (a kernel is given the element-local nodal coordinates,
state and derivatives, and the three coefficients for the tangent, and produces
a local result of the size it declares), `getValues` stores the values of the
element at the start of the buffer it is given, a kernel reads the entries
stored for the element and updates the first `nvars` entries of `elemRes`
(`nvars*nvars` entries of `elemMat`), and `addMatValues` uses `elemWeights` as
work space. -/
structure ElementKernels where
  /-- The values `getValues(TACS_SPATIAL_DIM, e, Xpts, elemXpts)` stores -/
  Xpts : Int → List Int
  /-- The values `getValues(varsPerNode, e, localVars, vars)` stores -/
  localVars : Int → List Int
  /-- The values `getValues(varsPerNode, e, localDotVars, dvars)` stores -/
  localDotVars : Int → List Int
  /-- The values `getValues(varsPerNode, e, localDDotVars, ddvars)` stores -/
  localDDotVars : Int → List Int
  /-- Action of `elements[e]->addResidual` on the first `nvars` entries of
  `elemRes` -/
  addResidual : Int → ElementInput → List Int → List Int
  /-- Action of `elements[e]->addJacobian` with coefficients
  `alpha, beta, gamma` on the first `nvars*nvars` entries of `elemMat` -/
  addJacobian : Int → Int → Int → Int → ElementInput → List Int → List Int
  /-- Action of `aux[j].elem->addResidual` on the first `nvars` entries of
  `elemRes` -/
  auxAddResidual : Nat → ElementInput → List Int → List Int
  /-- Action of `aux[j].elem->addJacobian` on the first `nvars*nvars` entries
  of `elemMat` -/
  auxAddJacobian : Nat → Int → Int → Int → ElementInput → List Int → List Int
  /-- What `addMatValues` for element `e` leaves in `elemWeights` -/
  elemWeights : Int → List Int

/-- The element-local data of element `e`. -/
def ElementKernels.input (k : ElementKernels) (e : Int) : ElementInput :=
  ⟨k.Xpts e, k.localVars e, k.localDotVars e, k.localDDotVars e⟩

/-- What a kernel called for element `e` reads from the slices `elemXpts`,
`vars`, `dvars`, `ddvars` of `data` (`s = maxElementSize`). -/
def readInput (k : ElementKernels) (s : Nat) (e : Int) (data : List Int) : ElementInput :=
  ⟨readAt (4 * s) (k.Xpts e).length data, readAt 0 (k.localVars e).length data,
    readAt s (k.localDotVars e).length data, readAt (2 * s) (k.localDDotVars e).length data⟩

/-- The four `getValues` calls at the start of an iteration, in the order of
the source: into `elemXpts`, `vars`, `dvars`, `ddvars`. -/
def gatherElement (k : ElementKernels) (s : Nat) (e : Int) (data : List Int) : List Int :=
  writeAt (2 * s) (k.localDDotVars e)
    (writeAt s (k.localDotVars e)
      (writeAt 0 (k.localVars e)
        (writeAt (4 * s) (k.Xpts e) data)))

/-- The assembler whose kernels are those of `k` called with the element-local
data of the element: what the workers compute when no scratch content
survives from one use to the next. -/
def withKernels (tacs : TACSAssembler) (k : ElementKernels) : TACSAssembler :=
  { tacs with
    addResidual := fun e r => k.addResidual e (k.input e) r
    addJacobian := fun e a b g r => k.addJacobian e a b g (k.input e) r
    auxAddResidual := fun j e r => k.auxAddResidual j (k.input e) r
    auxAddJacobian := fun j e a b g r => k.auxAddJacobian j a b g (k.input e) r }

/-- The loop `while (aux_count < naux && aux[aux_count].num == elemIndex)` of
`assembleRes_thread` on the array `data`: the calls made, the final
`aux_count` and the final `data`. -/
def auxResidualLoop_scratch (tacs : TACSAssembler) (k : ElementKernels) (s : Nat)
    (elemIndex : Int) : Nat → Nat → List Int → List Event × Nat × List Int
  | 0, aux_count, data => ([], aux_count, data)
  | n + 1, aux_count, data =>
    if rd tacs.aux aux_count = elemIndex then
      let r := auxResidualLoop_scratch tacs k s elemIndex n (aux_count + 1)
        (writeAt (3 * s)
          (k.auxAddResidual aux_count (readInput k s elemIndex data)
            (readAt (3 * s) (tacs.numVariables elemIndex) data)) data)
      (Event.auxAddResidual aux_count elemIndex :: r.1, r.2)
    else ([], aux_count, data)

/-- One iteration of the loop of `assembleRes_thread` on the array `data`
(`s = maxElementSize`): the new `aux_count`, the new `data` and the calls
made.  The scatter-add reads the first `nvars` entries of `elemRes`. -/
def assembleRes_scratch_body (tacs : TACSAssembler) (k : ElementKernels) (s : Nat)
    (aux_count : Nat) (data : List Int) (elemIndex : Int) : Nat × List Int × List Event :=
  if elemIndex ≥ 0 then
    let data := gatherElement k s elemIndex data
    let nvars := tacs.numVariables elemIndex
    let data := memset (3 * s) nvars data
    let data := writeAt (3 * s)
      (k.addResidual elemIndex (readInput k s elemIndex data) (readAt (3 * s) nvars data)) data
    let aux_count := auxSkip tacs.aux elemIndex (tacs.aux.length - aux_count) aux_count
    let r := auxResidualLoop_scratch tacs k s elemIndex (tacs.aux.length - aux_count)
      aux_count data
    (r.2.1, r.2.2,
      Event.addResidual elemIndex :: r.1 ++
        [Event.addValues elemIndex (readAt (3 * s) nvars r.2.2)])
  else (aux_count, data, [])

/-- The loop of `assembleRes_thread` on the array `data`, for a worker that is
handed `items`. -/
def assembleRes_scratch_loop (tacs : TACSAssembler) (k : ElementKernels) (s : Nat) :
    Nat → List Int → List Int → List Event
  | _, _, [] => []
  | aux_count, data, elemIndex :: items =>
    (assembleRes_scratch_body tacs k s aux_count data elemIndex).2.2 ++
      assembleRes_scratch_loop tacs k s
        (assembleRes_scratch_body tacs k s aux_count data elemIndex).1
        (assembleRes_scratch_body tacs k s aux_count data elemIndex).2.1 items

/-- The calls of one `assembleRes_thread` worker whose allocation
`new TacsScalar[dataSize]` holds `data` at the start. -/
def assembleRes_scratch (tacs : TACSAssembler) (k : ElementKernels) (maxElementSize : Nat)
    (data : List Int) (items : List Int) : List Event :=
  assembleRes_scratch_loop tacs k maxElementSize 0 data items

/-- The loop `while (aux_count < naux && aux[aux_count].num == elemIndex)` of
`assembleJacobian_thread` on the array `data`; `elemMat` is `&data[mat]`. -/
def auxJacobianLoop_scratch (tacs : TACSAssembler) (pinfo : TACSAssemblerPthreadInfo)
    (k : ElementKernels) (s mat : Nat) (elemIndex : Int) :
    Nat → Nat → List Int → List Event × Nat × List Int
  | 0, aux_count, data => ([], aux_count, data)
  | n + 1, aux_count, data =>
    if rd tacs.aux aux_count = elemIndex then
      let nvars := tacs.numVariables elemIndex
      let data1 := writeAt (3 * s)
        (k.auxAddResidual aux_count (readInput k s elemIndex data) (readAt (3 * s) nvars data))
        data
      let data2 := writeAt mat
        (k.auxAddJacobian aux_count pinfo.alpha pinfo.beta pinfo.gamma
          (readInput k s elemIndex data1) (readAt mat (nvars * nvars) data1)) data1
      let r := auxJacobianLoop_scratch tacs pinfo k s mat elemIndex n (aux_count + 1) data2
      (Event.auxAddResidual aux_count elemIndex :: Event.auxAddJacobian aux_count elemIndex ::
        r.1, r.2)
    else ([], aux_count, data)

/-- One iteration of the loop of `assembleJacobian_thread` on the array `data`
(`s = maxElementSize`, `sx = 3*maxElementNodes`, `sw = maxElementIndepNodes`). -/
def assembleJacobian_scratch_body (tacs : TACSAssembler) (pinfo : TACSAssemblerPthreadInfo)
    (k : ElementKernels) (s sx sw : Nat) (aux_count : Nat) (data : List Int)
    (elemIndex : Int) : Nat × List Int × List Event :=
  if elemIndex ≥ 0 then
    let data := gatherElement k s elemIndex data
    let nvars := tacs.numVariables elemIndex
    let data := memset (3 * s) nvars data
    let data := memset (4 * s + sx + sw) (nvars * nvars) data
    let data := writeAt (3 * s)
      (k.addResidual elemIndex (readInput k s elemIndex data) (readAt (3 * s) nvars data)) data
    let data := writeAt (4 * s + sx + sw)
      (k.addJacobian elemIndex pinfo.alpha pinfo.beta pinfo.gamma
        (readInput k s elemIndex data) (readAt (4 * s + sx + sw) (nvars * nvars) data)) data
    let aux_count := auxSkip tacs.aux elemIndex (tacs.aux.length - aux_count) aux_count
    let r := auxJacobianLoop_scratch tacs pinfo k s (4 * s + sx + sw) elemIndex
      (tacs.aux.length - aux_count) aux_count data
    (r.2.1, writeAt (4 * s + sx) (k.elemWeights elemIndex) r.2.2,
      Event.addResidual elemIndex :: Event.addJacobian elemIndex :: r.1 ++
        [Event.addValues elemIndex (readAt (3 * s) nvars r.2.2),
          Event.addMatValues elemIndex (readAt (4 * s + sx + sw) (nvars * nvars) r.2.2)])
  else (aux_count, data, [])

/-- The loop of `assembleJacobian_thread` on the array `data`. -/
def assembleJacobian_scratch_loop (tacs : TACSAssembler) (pinfo : TACSAssemblerPthreadInfo)
    (k : ElementKernels) (s sx sw : Nat) : Nat → List Int → List Int → List Event
  | _, _, [] => []
  | aux_count, data, elemIndex :: items =>
    (assembleJacobian_scratch_body tacs pinfo k s sx sw aux_count data elemIndex).2.2 ++
      assembleJacobian_scratch_loop tacs pinfo k s sx sw
        (assembleJacobian_scratch_body tacs pinfo k s sx sw aux_count data elemIndex).1
        (assembleJacobian_scratch_body tacs pinfo k s sx sw aux_count data elemIndex).2.1 items

/-- The calls of one `assembleJacobian_thread` worker whose allocation
`new TacsScalar[dataSize]` holds `data` at the start. -/
def assembleJacobian_scratch (tacs : TACSAssembler) (pinfo : TACSAssemblerPthreadInfo)
    (k : ElementKernels) (maxElementSize maxElementNodes maxElementIndepNodes : Nat)
    (data : List Int) (items : List Int) : List Event :=
  assembleJacobian_scratch_loop tacs pinfo k maxElementSize (3 * maxElementNodes)
    maxElementIndepNodes 0 data items

/-- The buffers are large enough for every element (`s`, `sx`, `sw` are the
maxima `maxElementSize`, `3*maxElementNodes`, `maxElementIndepNodes`), and a
kernel leaves the size of the local buffer unchanged. -/
structure ScratchFits (tacs : TACSAssembler) (k : ElementKernels) (s sx sw : Nat) : Prop where
  xpts : ∀ e, (k.Xpts e).length ≤ sx
  vars : ∀ e, (k.localVars e).length ≤ s
  dvars : ∀ e, (k.localDotVars e).length ≤ s
  ddvars : ∀ e, (k.localDDotVars e).length ≤ s
  nvars : ∀ e, tacs.numVariables e ≤ s
  weights : ∀ e, (k.elemWeights e).length ≤ sw
  resLen : ∀ e i r, (k.addResidual e i r).length = r.length
  jacLen : ∀ e a b g i r, (k.addJacobian e a b g i r).length = r.length
  auxResLen : ∀ j i r, (k.auxAddResidual j i r).length = r.length
  auxJacLen : ∀ j a b g i r, (k.auxAddJacobian j a b g i r).length = r.length

/-- The local values scatter-added for element `e` at a step, if the step is a
scatter-add for `e`. -/
def Event.scattered (e : Int) : Event → Option (List Int)
  | Event.addValues elemIndex vals => if elemIndex = e then some vals else none
  | Event.addMatValues elemIndex vals => if elemIndex = e then some vals else none
  | _ => none

/-- The array `d` of a tangent worker holds, for element `e`, the gathered
data where the kernels read it, `r` in the first `nvars` entries of `elemRes`
and `m` in the first `nvars*nvars` entries of `elemMat`. -/
structure ScratchHolds (tacs : TACSAssembler) (k : ElementKernels) (s sx sw : Nat) (e : Int)
    (d r m : List Int) : Prop where
  len : 4 * s + sx + s * s + sw ≤ d.length
  input : readInput k s e d = k.input e
  res : readAt (3 * s) (tacs.numVariables e) d = r
  mat : readAt (4 * s + sx + sw) (tacs.numVariables e * tacs.numVariables e) d = m

/-! ### The cached quantity along a worker's loop -/

/-- One use of the block "find the new function index if required": the cached
quantity on entry, the claimed flat index, and the quantity in use after the
block (`none` is the `break`). -/
structure Lookup where
  cached : FuncCursor
  item : Int
  used : Option FuncCursor
  deriving DecidableEq

/-- The `while (funcIndex < numFuncs && ...)` loop of a multi-function worker
with its memory of the cached quantity: one `Lookup` for every claimed `item`
with `item >= 0`, in order. -/
def lookupLoop (body : FuncCursor → Int → Option (FuncCursor × List Event))
    (numFuncs : Nat) : FuncCursor → List Int → List Lookup
  | _, [] => []
  | s, item :: items =>
    if s.funcIndex < numFuncs then
      match body s item with
      | none => [⟨s, item, none⟩]
      | some r =>
        if item ≥ 0 then ⟨s, item, some r.1⟩ :: lookupLoop body numFuncs r.1 items
        else lookupLoop body numFuncs r.1 items
    else []

/-- The cached lookup is right at one use: the cached quantity `c` is a
quantity, the flat index `i` lies in `[0, total)` and not below the range of
`c`, the block re-scans exactly when `i` is outside the range of `c` and keeps
`c` exactly when `i` is inside it, and the quantity `k` in use afterwards has
`off[k] <= i < off[k+1]` with the local index `i - off[k]` inside the domain of
`k`. -/
def CachedLookup (funcs : List TACSFunction) (off : List Int) (numElements : Int)
    (l : Lookup) : Prop :=
  l.cached.function = l.cached.funcIndex ∧ l.cached.funcIndex < funcs.length ∧
  0 ≤ l.item ∧ l.item < rd off funcs.length ∧ rd off l.cached.funcIndex ≤ l.item ∧
  (rd off (l.cached.funcIndex + 1) ≤ l.item ↔
    ¬ (rd off l.cached.funcIndex ≤ l.item ∧ l.item < rd off (l.cached.funcIndex + 1))) ∧
  ∃ k, l.used = some ⟨k, k⟩ ∧
    findFunction off funcs.length l.cached l.item = some ⟨k, k⟩ ∧ k < funcs.length ∧
    (k = l.cached.funcIndex ↔
      rd off l.cached.funcIndex ≤ l.item ∧ l.item < rd off (l.cached.funcIndex + 1)) ∧
    rd off k ≤ l.item ∧ l.item < rd off (k + 1) ∧
    0 ≤ l.item - rd off k ∧ l.item - rd off k < domainSize numElements (funcAt funcs k)

/-! ### Concrete configurations used to exercise the model -/

/-- Two quantities over four elements: one entire-domain, one sub-domain. -/
def twoFuncs : List TACSFunction :=
  [⟨FunctionDomain.ENTIRE_DOMAIN, []⟩, ⟨FunctionDomain.SUB_DOMAIN, [2, 0]⟩]

/-- Three sub-domain quantities with domains of sizes 3, 0 and 5. -/
def threeFuncs : List TACSFunction :=
  [⟨FunctionDomain.SUB_DOMAIN, [10, 11, 12]⟩, ⟨FunctionDomain.SUB_DOMAIN, []⟩,
   ⟨FunctionDomain.SUB_DOMAIN, [20, 21, 22, 23, 24]⟩]

/-- Five elements of one variable each with the auxiliary table
`[(1, A), (1, B), (3, C)]`: element `e` contributes `e + 1`, the auxiliary
entries contribute 10, 20 and 30. -/
def auxTacs : TACSAssembler where
  numElements := 5
  aux := [1, 1, 3]
  numVariables := fun _ => 1
  addResidual := fun e r => r.map (fun x => x + (e + 1))
  addJacobian := fun e a _ _ r => r.map (fun x => x + a * (e + 1))
  auxAddResidual := fun j _ r => r.map (fun x => x + 10 * ((j : Int) + 1))
  auxAddJacobian := fun j _ a _ _ r => r.map (fun x => x + a * (100 * ((j : Int) + 1)))
  getMatType := fun t e _ => [(t : Int) + e]
  adjResProduct := fun e k d => e + 10 * (k : Int) + 100 * (d : Int)
  elementWiseDVSens := fun f e d => (f : Int) + 10 * e + 100 * (d : Int)

/-- A phase configuration with unit tangent coefficients. -/
def unitInfo : TACSAssemblerPthreadInfo where
  alpha := 1
  beta := 0
  gamma := 0
  scaleFactor := 2
  matType := 0
  numAdjoints := 2
  numDesignVars := 2
  functions := twoFuncs

/-- Two elements of one variable each that share one global degree of freedom
(see `sharedDofs`); the auxiliary entries `(1, A)` and `(1, B)` apply to
element 1. -/
def sharedTacs : TACSAssembler := { auxTacs with numElements := 2 }

/-- Every element's single variable is global degree of freedom 0. -/
def sharedDofs : Int → List Nat := fun _ => [0]

/-- A phase configuration whose only function has an empty sub-domain. -/
def emptyInfo : TACSAssemblerPthreadInfo := { unitInfo with
  functions := [⟨FunctionDomain.SUB_DOMAIN, []⟩] }

/-- The configuration `auxTacs` with the unsorted auxiliary table
`[(3, A), (1, B), (3, C)]`. -/
def unsortedTacs : TACSAssembler := { auxTacs with aux := [3, 1, 3] }

/-- The state reached by the workers of phase `ph` after the steps `sched` (the
worker making each successive step), from the counter at 0. -/
def phaseRun (tacs : TACSAssembler) (pinfo : TACSAssemblerPthreadInfo) (ph : Phase)
    (sched : List Nat) : PhaseState :=
  runPhase (phaseGuard tacs pinfo ph) (phaseTotal tacs pinfo ph) sched

/-- Elements of one variable, except element 1 which has two. -/
def scratchTacs : TACSAssembler := { auxTacs with
  numVariables := fun e => if e = 1 then 2 else 1 }

/-- Kernels and shared vectors for `scratchTacs`: three coordinates per
element, as many state values as the element has variables, kernels that add
sums of what they read. -/
def scratchKernels : ElementKernels where
  Xpts := fun e => [e, e + 1, e + 2]
  localVars := fun e => if e = 1 then [10, 11] else [10 * e]
  localDotVars := fun e => if e = 1 then [20, 21] else [20 * e]
  localDDotVars := fun e => if e = 1 then [30, 31] else [30 * e]
  addResidual := fun e i r => r.map (fun x => x + e + i.elemXpts.sum + i.vars.sum)
  addJacobian := fun _ a b g i r =>
    r.map (fun x => x + a * i.vars.sum + b * i.dvars.sum + g * i.ddvars.sum)
  auxAddResidual := fun j i r => r.map (fun x => x + 1000 * ((j : Int) + 1) + i.vars.sum)
  auxAddJacobian := fun j a _ _ i r => r.map (fun x => x + a * ((j : Int) + 1) + i.dvars.sum)
  elemWeights := fun e => [e]

/-! ## Theorems -/

theorem wrapInt_of_isInt {x : Int} (h : isInt x) : wrapInt x = x := by
  unfold wrapInt
  obtain ⟨h1, h2⟩ := h
  omega

theorem schedPthreadJob_lt {c total : Int} (hc : isInt c) (ht : isInt total) (h : c < total) :
    schedPthreadJob c total = (c, c + 1) := by
  obtain ⟨hc1, hc2⟩ := hc
  obtain ⟨ht1, ht2⟩ := ht
  have hw : wrapInt (c + 1) = c + 1 := wrapInt_of_isInt ⟨by omega, by omega⟩
  simp [schedPthreadJob, h, hw]

theorem schedPthreadJob_ge {c total : Int} (h : ¬ c < total) :
    schedPthreadJob c total = (-1, c) := by
  simp [schedPthreadJob, h]

/-- C1: for C `int`s `c` and `total`, `schedPthreadJob` returns `c` and leaves
the counter at `c + 1` when `c < total`, and otherwise returns `-1` and leaves
the counter unchanged. -/
theorem schedPthreadJob_contract (c total : Int) (hc : isInt c) (ht : isInt total) :
    (c < total → schedPthreadJob c total = (c, c + 1)) ∧
    (¬ c < total → schedPthreadJob c total = (-1, c)) :=
  ⟨fun h => schedPthreadJob_lt hc ht h, fun h => schedPthreadJob_ge h⟩

theorem schedPthreadJob_contract_witness :
    (isInt 3 ∧ isInt 5) ∧
    ((3 : Int) < 5 → schedPthreadJob 3 5 = (3, 3 + 1)) ∧
    (¬ (3 : Int) < 5 → schedPthreadJob 3 5 = (-1, 3)) :=
  ⟨⟨by decide, by decide⟩, schedPthreadJob_contract 3 5 (by decide) (by decide)⟩

theorem runClaims_fst (total : Int) (sched : List Nat) :
    ∀ c : Int, (runClaims total c sched).map Prod.fst = sched := by
  induction sched with
  | nil => intro c; rfl
  | cons w ws ih => intro c; simp [runClaims, ih]

theorem runClaims_length (total : Int) (sched : List Nat) :
    ∀ c : Int, (runClaims total c sched).length = sched.length := by
  induction sched with
  | nil => intro c; rfl
  | cons w ws ih => intro c; simp [runClaims, ih]

/-- The results of a serialised run from counter `c`: the `j`-th call receives
`c + j` while that is below `total`, and the sentinel afterwards. -/
theorem runClaims_snd (total : Int) (ht : isInt total) (sched : List Nat) :
    ∀ c : Int, isInt c →
      (runClaims total c sched).map Prod.snd =
        (List.range sched.length).map
          (fun j : Nat => if c + (j : Int) < total then c + (j : Int) else -1) := by
  induction sched with
  | nil => intro c _; rfl
  | cons w ws ih =>
    intro c hc
    rw [List.length_cons, List.range_succ_eq_map]
    by_cases h : c < total
    · have hc1 : isInt (c + 1) := ⟨by have := hc.1; omega, by have := ht.2; omega⟩
      simp only [runClaims, schedPthreadJob_lt hc ht h, List.map_cons, ih (c + 1) hc1,
        List.map_map]
      refine congrArg₂ _ (by simp [h]) ?_
      apply List.map_congr_left
      intro j _
      simp only [Function.comp, Nat.succ_eq_add_one, Nat.cast_add, Nat.cast_one]
      have e : c + 1 + (j : Int) = c + ((j : Int) + 1) := by ring
      rw [e]
    · simp only [runClaims, schedPthreadJob_ge h, List.map_cons, ih c hc, List.map_map]
      refine congrArg₂ _ (by simp [h]) ?_
      apply List.map_congr_left
      intro j _
      simp only [Function.comp, Nat.succ_eq_add_one, Nat.cast_add, Nat.cast_one]
      have h1 : ¬ c + (j : Int) < total := by omega
      have h2 : ¬ c + ((j : Int) + 1) < total := by omega
      simp [h1, h2]

/-- The non-sentinel results of a serialised run from counter `c`. -/
theorem runClaims_claimed (total : Int) (ht : isInt total) (sched : List Nat) :
    ∀ c : Int, 0 ≤ c → c ≤ total →
      ((runClaims total c sched).map Prod.snd).filter (fun r => r != -1) =
        (List.range (min sched.length (total - c).toNat)).map (fun j : Nat => c + (j : Int)) := by
  induction sched with
  | nil => intro c _ _; simp [runClaims]
  | cons w ws ih =>
    intro c h0 hle
    have hc : isInt c := ⟨by omega, by have := ht.2; omega⟩
    by_cases h : c < total
    · have hne : (c != -1) = true := by simp; omega
      have hk : min (w :: ws).length (total - c).toNat
          = min ws.length (total - (c + 1)).toNat + 1 := by
        simp only [List.length_cons]; omega
      rw [hk, List.range_succ_eq_map]
      simp only [runClaims, schedPthreadJob_lt hc ht h, List.map_cons, List.filter_cons, hne,
        if_true, ih (c + 1) (by omega) (by omega), List.map_map]
      refine congrArg₂ _ (by simp) ?_
      apply List.map_congr_left
      intro j _
      simp only [Function.comp, Nat.succ_eq_add_one, Nat.cast_add, Nat.cast_one]
      ring
    · have hk : min (w :: ws).length (total - c).toNat = 0 := by
        have : (total - c).toNat = 0 := by omega
        simp [this]
      have hk2 : min ws.length (total - c).toNat = 0 := by
        have : (total - c).toNat = 0 := by omega
        simp [this]
      have hne : ((-1 : Int) != -1) = false := by decide
      rw [hk]
      simp only [runClaims, schedPthreadJob_ge h, List.map_cons, List.filter_cons, hne,
        ih c h0 hle, hk2]
      simp

/-- C2: starting from counter 0, in every serialised sequence of `claim(N)`
calls the `j`-th call returns `j` when `j < N` and `-1` otherwise; the
non-sentinel results are pairwise distinct, and once a sentinel has been
returned they are exactly `0, ..., N-1`. -/
theorem exactly_once_coverage (N : Int) (hN : 0 ≤ N) (hI : isInt N) (sched : List Nat) :
    (runClaims N 0 sched).map Prod.fst = sched ∧
    (runClaims N 0 sched).map Prod.snd =
      (List.range sched.length).map (fun j : Nat => if (j : Int) < N then (j : Int) else -1) ∧
    (((runClaims N 0 sched).map Prod.snd).filter (fun r => r != -1)).Nodup ∧
    ((-1 : Int) ∈ (runClaims N 0 sched).map Prod.snd →
      ((runClaims N 0 sched).map Prod.snd).filter (fun r => r != -1) =
        (List.range N.toNat).map (fun j : Nat => (j : Int))) := by
  have hsnd := runClaims_snd N hI sched 0 (by decide)
  have hcl := runClaims_claimed N hI sched 0 (le_refl 0) hN
  simp only [zero_add, sub_zero] at hsnd hcl
  refine ⟨runClaims_fst N sched 0, hsnd, ?_, ?_⟩
  · rw [hcl]
    exact (List.nodup_range _).map (fun a b h => by exact_mod_cast h)
  · intro hmem
    rw [hcl]
    rw [hsnd] at hmem
    obtain ⟨j, hj, hjv⟩ := List.mem_map.1 hmem
    have hjl : j < sched.length := List.mem_range.1 hj
    have hge : ¬ (j : Int) < N := by
      intro hlt
      rw [if_pos hlt] at hjv
      omega
    have : min sched.length N.toNat = N.toNat := by omega
    rw [this]

theorem exactly_once_coverage_witness :
    ((0 : Int) ≤ 2 ∧ isInt 2) ∧
    ((runClaims 2 0 [0, 1, 0, 1]).map Prod.fst = [0, 1, 0, 1] ∧
    (runClaims 2 0 [0, 1, 0, 1]).map Prod.snd =
      (List.range [0, 1, 0, 1].length).map
        (fun j : Nat => if (j : Int) < 2 then (j : Int) else -1) ∧
    (((runClaims 2 0 [0, 1, 0, 1]).map Prod.snd).filter (fun r => r != -1)).Nodup ∧
    ((-1 : Int) ∈ (runClaims 2 0 [0, 1, 0, 1]).map Prod.snd →
      ((runClaims 2 0 [0, 1, 0, 1]).map Prod.snd).filter (fun r => r != -1) =
        (List.range (2 : Int).toNat).map (fun j : Nat => (j : Int)))) :=
  ⟨⟨by decide, by decide⟩, exactly_once_coverage 2 (by decide) (by decide) [0, 1, 0, 1]⟩

/-! ### The indices one worker receives -/

theorem runClaims_result_cases (N : Int) (hI : isInt N) (sched : List Nat) :
    ∀ r ∈ (runClaims N 0 sched).map Prod.snd, r = -1 ∨ (0 ≤ r ∧ r < N) := by
  intro r hr
  rw [runClaims_snd N hI sched 0 (by decide)] at hr
  obtain ⟨j, _, hj⟩ := List.mem_map.1 hr
  simp only [zero_add] at hj
  by_cases h : (j : Int) < N
  · rw [if_pos h] at hj; right; omega
  · rw [if_neg h] at hj; left; omega

theorem claimsOf_sublist (w : Nat) (tr : List (Nat × Int)) :
    List.Sublist (claimsOf w tr) (tr.map Prod.snd) :=
  (List.filter_sublist _).map _

/-- The non-sentinel indices received by one worker are strictly increasing and
lie in `[0, N)`. -/
theorem claimsOf_sorted (N : Int) (hN : 0 ≤ N) (hI : isInt N) (sched : List Nat) (w : Nat) :
    ((claimsOf w (runClaims N 0 sched)).filter (fun r => decide (0 ≤ r))).Pairwise (· < ·) ∧
    ∀ i ∈ claimsOf w (runClaims N 0 sched), 0 ≤ i → i < N := by
  have hcases := runClaims_result_cases N hI sched
  constructor
  · have hsub : List.Sublist
        ((claimsOf w (runClaims N 0 sched)).filter (fun r => decide (0 ≤ r)))
        (((runClaims N 0 sched).map Prod.snd).filter (fun r => decide (0 ≤ r))) :=
      (claimsOf_sublist w _).filter _
    have hfil : ((runClaims N 0 sched).map Prod.snd).filter (fun r => decide (0 ≤ r)) =
        ((runClaims N 0 sched).map Prod.snd).filter (fun r => r != -1) := by
      apply List.filter_congr
      intro r hr
      rcases hcases r hr with h | h
      · subst h; decide
      · have h1 : (0 : Int) ≤ r := h.1
        have h2 : r ≠ -1 := by omega
        simp [h1, h2]
    rw [hfil, runClaims_claimed N hI sched 0 (le_refl 0) hN] at hsub
    refine List.Pairwise.sublist hsub ?_
    rw [List.pairwise_map]
    refine List.Pairwise.imp ?_ (List.pairwise_lt_range _)
    intro a b hab
    simp only [zero_add]
    exact_mod_cast hab
  · intro i hi h0
    rcases hcases i ((claimsOf_sublist w _).subset hi) with h | h
    · omega
    · exact h.2

/-! ### The offset table -/

theorem domainSize_nonneg {numElements : Int} (hn : 0 ≤ numElements) (f : TACSFunction) :
    0 ≤ domainSize numElements f := by
  unfold domainSize
  split
  · exact Int.ofNat_nonneg _
  · exact hn

theorem domainSizeLoop_succ (numElements : Int) :
    ∀ (fs : List TACSFunction) (t : Int) (k : Nat), k < fs.length →
      rd (t :: domainSizeLoop numElements fs t) (k + 1) =
        rd (t :: domainSizeLoop numElements fs t) k +
          domainSize numElements (funcAt fs k) := by
  intro fs
  induction fs with
  | nil => intro t k hk; simp at hk
  | cons f fs ih =>
    intro t k hk
    cases k with
    | zero => simp [domainSizeLoop, rd, funcAt]
    | succ k =>
      have hk2 : k < fs.length := by simpa using hk
      have := ih (t + domainSize numElements f) k hk2
      simpa [domainSizeLoop, rd, funcAt] using this

theorem funcElemDomainSize_zero (numElements : Int) (funcs : List TACSFunction) :
    rd (funcElemDomainSize numElements funcs) 0 = 0 := by
  simp [funcElemDomainSize, rd]

theorem funcElemDomainSize_succ (numElements : Int) (funcs : List TACSFunction) (k : Nat)
    (hk : k < funcs.length) :
    rd (funcElemDomainSize numElements funcs) (k + 1) =
      rd (funcElemDomainSize numElements funcs) k +
        domainSize numElements (funcAt funcs k) :=
  domainSizeLoop_succ numElements funcs 0 k hk

theorem funcElemDomainSize_step {numElements : Int} (hn : 0 ≤ numElements)
    (funcs : List TACSFunction) :
    ∀ k, k < funcs.length →
      rd (funcElemDomainSize numElements funcs) k ≤
        rd (funcElemDomainSize numElements funcs) (k + 1) := by
  intro k hk
  rw [funcElemDomainSize_succ numElements funcs k hk]
  have := domainSize_nonneg hn (funcAt funcs k)
  omega

/-- A table that does not decrease from one entry to the next up to `m` does
not decrease between any two entries up to `m`. -/
theorem offsets_mono {off : List Int} {m : Nat}
    (hstep : ∀ k, k < m → rd off k ≤ rd off (k + 1)) :
    ∀ k, k ≤ m → ∀ j, j ≤ k → rd off j ≤ rd off k := by
  intro k
  induction k with
  | zero => intro _ j hj; simp [Nat.le_zero.1 hj]
  | succ k ih =>
    intro hk j hj
    rcases Nat.lt_or_ge j (k + 1) with h | h
    · exact le_trans (ih (by omega) j (by omega)) (hstep k (by omega))
    · have : j = k + 1 := by omega
      subst this; exact le_refl _

/-- At most one quantity's range contains a given flat index. -/
theorem offsets_unique {off : List Int} {m : Nat}
    (hstep : ∀ k, k < m → rd off k ≤ rd off (k + 1)) {item : Int} {k k' : Nat}
    (hk : k < m) (hk' : k' < m)
    (h1 : rd off k ≤ item) (h2 : item < rd off (k + 1))
    (h1' : rd off k' ≤ item) (h2' : item < rd off (k' + 1)) : k' = k := by
  rcases Nat.lt_trichotomy k k' with h | h | h
  · have := offsets_mono hstep k' (by omega) (k + 1) (by omega)
    omega
  · exact h.symm
  · have := offsets_mono hstep k (by omega) (k' + 1) (by omega)
    omega

/-! ### The forward scan -/

theorem scanFuncIndex_found {off : List Int} {m : Nat}
    (hstep : ∀ k, k < m → rd off k ≤ rd off (k + 1)) {item : Int}
    (hlt : item < rd off m) :
    ∀ n k, n = m - k → k ≤ m → rd off k ≤ item →
      k ≤ scanFuncIndex off item n k ∧ scanFuncIndex off item n k < m ∧
      rd off (scanFuncIndex off item n k) ≤ item ∧
      item < rd off (scanFuncIndex off item n k + 1) := by
  intro n
  induction n with
  | zero =>
    intro k hn hk hge
    have : k = m := by omega
    subst this; omega
  | succ n ih =>
    intro k hn hk hge
    have hkm : k < m := by omega
    by_cases hin : item < rd off (k + 1)
    · have : scanFuncIndex off item (n + 1) k = k := by
        simp [scanFuncIndex, hge, hin]
      rw [this]
      exact ⟨le_refl _, hkm, hge, hin⟩
    · have : scanFuncIndex off item (n + 1) k = scanFuncIndex off item n (k + 1) := by
        simp [scanFuncIndex, hin]
      rw [this]
      have := ih (k + 1) (by omega) (by omega) (by omega)
      exact ⟨by omega, this.2⟩

theorem scanFuncIndex_out_of_range {off : List Int} {m : Nat}
    (hstep : ∀ k, k < m → rd off k ≤ rd off (k + 1)) {item : Int}
    (hge : rd off m ≤ item) :
    ∀ n k, n = m - k → k ≤ m → scanFuncIndex off item n k = m := by
  intro n
  induction n with
  | zero => intro k hn hk; simp only [scanFuncIndex]; omega
  | succ n ih =>
    intro k hn hk
    have hkm : k < m := by omega
    have h1 := offsets_mono hstep m (le_refl _) (k + 1) (by omega)
    have hin : ¬ item < rd off (k + 1) := by omega
    have : scanFuncIndex off item (n + 1) k = scanFuncIndex off item n (k + 1) := by
      simp [scanFuncIndex, hin]
    rw [this]
    exact ih (k + 1) (by omega) (by omega)

theorem findFunction_found {off : List Int} {m : Nat}
    (hstep : ∀ k, k < m → rd off k ≤ rd off (k + 1)) {item : Int}
    (hlt : item < rd off m) {k : Nat} (hk : k < m) (hge : rd off k ≤ item) :
    ∃ k', findFunction off m ⟨k, k⟩ item = some ⟨k', k'⟩ ∧ k ≤ k' ∧ k' < m ∧
      rd off k' ≤ item ∧ item < rd off (k' + 1) := by
  by_cases hin : item < rd off (k + 1)
  · refine ⟨k, ?_, le_refl _, hk, hge, hin⟩
    simp [findFunction, hin]
  · have hs := scanFuncIndex_found hstep hlt (m - k) k rfl (by omega) hge
    refine ⟨scanFuncIndex off item (m - k) k, ?_, hs⟩
    have h1 : rd off (k + 1) ≤ item := by omega
    have h2 : ¬ m ≤ scanFuncIndex off item (m - k) k := by omega
    simp [findFunction, h1, h2]

/-! ### One iteration of a multi-function worker -/

theorem rd_eq_getElem? {l : List Int} {i : Nat} (h : i < l.length) :
    l[i]? = some (rd l i) := by
  simp [rd, List.getD_eq_getElem?_getD, List.getElem?_eq_getElem h]

theorem resolvedCall_of_range (numElements : Int) (hn : 0 ≤ numElements)
    (funcs : List TACSFunction) (call : Nat → Int → Nat → Event) {item : Int} {k : Nat}
    (hk : k < funcs.length)
    (h1 : rd (funcElemDomainSize numElements funcs) k ≤ item)
    (h2 : item < rd (funcElemDomainSize numElements funcs) (k + 1))
    {evs : List Event}
    (hE : (funcAt funcs k).getDomain = FunctionDomain.ENTIRE_DOMAIN →
      evs = [call k (item - rd (funcElemDomainSize numElements funcs) k) k])
    (hS : (funcAt funcs k).getDomain = FunctionDomain.SUB_DOMAIN →
      evs = [call k (rd (funcAt funcs k).elemSubList
        (item - rd (funcElemDomainSize numElements funcs) k).toNat) k])
    (hO : (funcAt funcs k).getDomain = FunctionDomain.NO_DOMAIN → evs = []) :
    ResolvedCall funcs (funcElemDomainSize numElements funcs) numElements call item evs := by
  have hstep := funcElemDomainSize_step hn funcs
  have hsucc := funcElemDomainSize_succ numElements funcs k hk
  refine ⟨k, hk, h1, h2, ?_, by omega, by omega, hE, ?_, hO⟩
  · intro k' hk' h1' h2'
    exact offsets_unique hstep hk hk' h1 h2 h1' h2'
  · intro hsub
    refine ⟨_, rd_eq_getElem? ?_, hS hsub⟩
    have hd : domainSize numElements (funcAt funcs k) =
        ((funcAt funcs k).elemSubList.length : Int) := by
      simp [domainSize, hsub]
    omega

theorem evalFunctions_body_spec (numElements : Int) (hn : 0 ≤ numElements)
    (funcs : List TACSFunction) {item : Int} {k : Nat} (hk : k < funcs.length)
    (h0 : 0 ≤ item) (hge : rd (funcElemDomainSize numElements funcs) k ≤ item)
    (hlt : item < rd (funcElemDomainSize numElements funcs) funcs.length) :
    ∃ k' evs, evalFunctions_body funcs (funcElemDomainSize numElements funcs) ⟨k, k⟩ item =
        some (⟨k', k'⟩, evs) ∧ k' < funcs.length ∧
      rd (funcElemDomainSize numElements funcs) k' ≤ item ∧
      ResolvedCall funcs (funcElemDomainSize numElements funcs) numElements
        Event.elementWiseEval item evs := by
  obtain ⟨k', hf, _, hk', h1, h2⟩ :=
    findFunction_found (funcElemDomainSize_step hn funcs) hlt hk hge
  by_cases hS : (funcAt funcs k').getDomain = FunctionDomain.SUB_DOMAIN
  · refine ⟨k', _, ?_, hk', h1, resolvedCall_of_range numElements hn funcs _ hk' h1 h2
      (fun h => ?_) (fun _ => rfl) (fun h => ?_)⟩
    · simp only [evalFunctions_body, ge_iff_le, h0, if_true, hf, hS]
    · rw [hS] at h; cases h
    · rw [hS] at h; cases h
  · by_cases hE : (funcAt funcs k').getDomain = FunctionDomain.ENTIRE_DOMAIN
    · refine ⟨k', _, ?_, hk', h1, resolvedCall_of_range numElements hn funcs _ hk' h1 h2
        (fun _ => rfl) (fun h => absurd h hS) (fun h => by rw [hE] at h; cases h)⟩
      simp [evalFunctions_body, h0, hf, hE]
    · refine ⟨k', [], ?_, hk', h1, resolvedCall_of_range numElements hn funcs _ hk' h1 h2
        (fun h => absurd h hE) (fun h => absurd h hS) (fun _ => rfl)⟩
      simp only [evalFunctions_body, ge_iff_le, h0, if_true, hf, hS, hE, if_false]

theorem evalDVSens_body_spec (numElements : Int) (hn : 0 ≤ numElements)
    (funcs : List TACSFunction) {item : Int} {k : Nat} (hk : k < funcs.length)
    (h0 : 0 ≤ item) (hge : rd (funcElemDomainSize numElements funcs) k ≤ item)
    (hlt : item < rd (funcElemDomainSize numElements funcs) funcs.length) :
    ∃ k' evs, evalDVSens_body funcs (funcElemDomainSize numElements funcs) ⟨k, k⟩ item =
        some (⟨k', k'⟩, evs) ∧ k' < funcs.length ∧
      rd (funcElemDomainSize numElements funcs) k' ≤ item ∧
      ResolvedCall funcs (funcElemDomainSize numElements funcs) numElements
        Event.elementWiseDVSens item evs := by
  obtain ⟨k', hf, _, hk', h1, h2⟩ :=
    findFunction_found (funcElemDomainSize_step hn funcs) hlt hk hge
  by_cases hS : (funcAt funcs k').getDomain = FunctionDomain.SUB_DOMAIN
  · refine ⟨k', _, ?_, hk', h1, resolvedCall_of_range numElements hn funcs _ hk' h1 h2
      (fun h => ?_) (fun _ => rfl) (fun h => ?_)⟩
    · simp only [evalDVSens_body, ge_iff_le, h0, if_true, hf, hS]
    · rw [hS] at h; cases h
    · rw [hS] at h; cases h
  · by_cases hE : (funcAt funcs k').getDomain = FunctionDomain.ENTIRE_DOMAIN
    · refine ⟨k', _, ?_, hk', h1, resolvedCall_of_range numElements hn funcs _ hk' h1 h2
        (fun _ => rfl) (fun h => absurd h hS) (fun h => by rw [hE] at h; cases h)⟩
      simp [evalDVSens_body, h0, hf, hE]
    · refine ⟨k', [], ?_, hk', h1, resolvedCall_of_range numElements hn funcs _ hk' h1 h2
        (fun h => absurd h hE) (fun h => absurd h hS) (fun _ => rfl)⟩
      simp only [evalDVSens_body, ge_iff_le, h0, if_true, hf, hS, hE, if_false]

theorem evalFunctions_body_neg (funcs : List TACSFunction) (off : List Int) (s : FuncCursor)
    {item : Int} (h : item < 0) : evalFunctions_body funcs off s item = some (s, []) := by
  have : ¬ 0 ≤ item := by omega
  simp [evalFunctions_body, this]

theorem evalDVSens_body_neg (funcs : List TACSFunction) (off : List Int) (s : FuncCursor)
    {item : Int} (h : item < 0) : evalDVSens_body funcs off s item = some (s, []) := by
  have : ¬ 0 ≤ item := by omega
  simp [evalDVSens_body, this]

/-! ### The loop of a multi-function worker -/

theorem functionLoop_spec (body : FuncCursor → Int → Option (FuncCursor × List Event))
    (m : Nat) (off : List Int) (P : Int → List Event → Prop)
    (hbody : ∀ k item, k < m → 0 ≤ item → rd off k ≤ item → item < rd off m →
      ∃ k' evs, body ⟨k, k⟩ item = some (⟨k', k'⟩, evs) ∧ k' < m ∧ rd off k' ≤ item ∧
        P item evs)
    (hneg : ∀ s item, item < 0 → body s item = some (s, [])) :
    ∀ (items : List Int) (k : Nat), k < m →
      (items.filter (fun r => decide (0 ≤ r))).Pairwise (· < ·) →
      (∀ i ∈ items, 0 ≤ i → rd off k ≤ i ∧ i < rd off m) →
      (functionLoop body m ⟨k, k⟩ items).map Prod.fst = items ∧
      ∀ it ∈ functionLoop body m ⟨k, k⟩ items,
        (0 ≤ it.1 → P it.1 it.2) ∧ (it.1 < 0 → it.2 = []) := by
  intro items
  induction items with
  | nil => intro k _ _ _; simp [functionLoop]
  | cons item rest ih =>
    intro k hk hpw hb
    by_cases h0 : 0 ≤ item
    · obtain ⟨hk0, hlt⟩ := hb item (List.mem_cons_self _ _) h0
      obtain ⟨k', evs, hbd, hk', hge', hP⟩ := hbody k item hk h0 hk0 hlt
      have hfil : (item :: rest).filter (fun r => decide (0 ≤ r)) =
          item :: rest.filter (fun r => decide (0 ≤ r)) := by
        simp [List.filter_cons, h0]
      rw [hfil, List.pairwise_cons] at hpw
      have hrest : ∀ i ∈ rest, 0 ≤ i → rd off k' ≤ i ∧ i < rd off m := by
        intro i hi hi0
        have hlt' : item < i := hpw.1 i (List.mem_filter.2 ⟨hi, by simpa using hi0⟩)
        exact ⟨by omega, (hb i (List.mem_cons_of_mem _ hi) hi0).2⟩
      obtain ⟨ih1, ih2⟩ := ih k' hk' hpw.2 hrest
      have hloop : functionLoop body m ⟨k, k⟩ (item :: rest) =
          (item, evs) :: functionLoop body m ⟨k', k'⟩ rest := by
        simp [functionLoop, hk, hbd]
      rw [hloop]
      refine ⟨by simp [ih1], ?_⟩
      intro it hit
      rcases List.mem_cons.1 hit with h | h
      · subst h; exact ⟨fun _ => hP, fun hlt0 => absurd h0 (by simpa using hlt0)⟩
      · exact ih2 it h
    · have hfil : (item :: rest).filter (fun r => decide (0 ≤ r)) =
          rest.filter (fun r => decide (0 ≤ r)) := by
        simp [List.filter_cons, h0]
      rw [hfil] at hpw
      obtain ⟨ih1, ih2⟩ := ih k hk hpw (fun i hi => hb i (List.mem_cons_of_mem _ hi))
      have hloop : functionLoop body m ⟨k, k⟩ (item :: rest) =
          (item, []) :: functionLoop body m ⟨k, k⟩ rest := by
        simp [functionLoop, hk, hneg ⟨k, k⟩ item (by omega)]
      rw [hloop]
      refine ⟨by simp [ih1], ?_⟩
      intro it hit
      rcases List.mem_cons.1 hit with h | h
      · subst h; exact ⟨fun hit0 => absurd hit0 h0, fun _ => rfl⟩
      · exact ih2 it h

theorem functionLoop_no_functions (body : FuncCursor → Int → Option (FuncCursor × List Event))
    (s : FuncCursor) (items : List Int) : functionLoop body 0 s items = [] := by
  cases items <;> simp [functionLoop]

theorem totalSize_nonneg {numElements : Int} (hn : 0 ≤ numElements)
    (funcs : List TACSFunction) : 0 ≤ totalSize numElements funcs := by
  have := offsets_mono (funcElemDomainSize_step hn funcs) funcs.length (le_refl _) 0
    (Nat.zero_le _)
  rw [funcElemDomainSize_zero] at this
  exact this

/-- The loop of a multi-function worker on the indices the dispenser hands to
worker `w`: every claimed index gets an iteration, and the calls of each
iteration satisfy `P`. -/
theorem functionLoop_claims (numElements : Int) (hn : 0 ≤ numElements)
    (funcs : List TACSFunction) (hI : isInt (totalSize numElements funcs))
    (body : FuncCursor → Int → Option (FuncCursor × List Event))
    (P : Int → List Event → Prop)
    (hbody : ∀ k item, k < funcs.length → 0 ≤ item →
      rd (funcElemDomainSize numElements funcs) k ≤ item →
      item < rd (funcElemDomainSize numElements funcs) funcs.length →
      ∃ k' evs, body ⟨k, k⟩ item = some (⟨k', k'⟩, evs) ∧ k' < funcs.length ∧
        rd (funcElemDomainSize numElements funcs) k' ≤ item ∧ P item evs)
    (hneg : ∀ s item, item < 0 → body s item = some (s, []))
    (sched : List Nat) (w : Nat) :
    ((functionLoop body funcs.length ⟨0, 0⟩
        (claimsOf w (runClaims (totalSize numElements funcs) 0 sched))).map Prod.fst).filter
          (fun r => decide (0 ≤ r)) =
      (claimsOf w (runClaims (totalSize numElements funcs) 0 sched)).filter
          (fun r => decide (0 ≤ r)) ∧
    ∀ it ∈ functionLoop body funcs.length ⟨0, 0⟩
        (claimsOf w (runClaims (totalSize numElements funcs) 0 sched)),
      (0 ≤ it.1 → P it.1 it.2) ∧ (it.1 < 0 → it.2 = []) := by
  obtain ⟨hpw, hrange⟩ :=
    claimsOf_sorted (totalSize numElements funcs) (totalSize_nonneg hn funcs) hI sched w
  rcases Nat.eq_zero_or_pos funcs.length with hm | hm
  · have hnil : funcs = [] := List.length_eq_zero.1 hm
    subst hnil
    simp only [List.length_nil, functionLoop_no_functions, List.map_nil, List.filter_nil,
      List.not_mem_nil, false_implies, implies_true, and_true]
    symm
    rw [List.filter_eq_nil_iff]
    intro i hi
    have := hrange i hi
    have ht : totalSize numElements [] = 0 := by
      simp [totalSize, funcElemDomainSize, domainSizeLoop, rd]
    rw [ht] at this
    simp only [decide_eq_true_eq]
    intro h
    have := this h
    omega
  · have hb : ∀ i ∈ claimsOf w (runClaims (totalSize numElements funcs) 0 sched), 0 ≤ i →
        rd (funcElemDomainSize numElements funcs) 0 ≤ i ∧
        i < rd (funcElemDomainSize numElements funcs) funcs.length := by
      intro i hi h0
      rw [funcElemDomainSize_zero]
      exact ⟨h0, hrange i hi h0⟩
    obtain ⟨h1, h2⟩ := functionLoop_spec body funcs.length
      (funcElemDomainSize numElements funcs) P hbody hneg _ 0 hm hpw hb
    exact ⟨by rw [h1], h2⟩

/-- C3: along the run of any worker, in any serialised order of the claims,
every flat index the worker claims gets a loop iteration (the `break` is not
taken), and the kernel call made for it is the one for the unique quantity `k`
with `off[k] <= i < off[k+1]`, at local index `i - off[k]`: element `local`
for an entire-domain quantity and `subList[local]` for a sub-domain quantity.
This holds for `evalFunctions_thread` and for `evalDVSens_thread`. -/
theorem domain_mapper_along_run (numElements : Int) (hn : 0 ≤ numElements)
    (funcs : List TACSFunction) (hI : isInt (totalSize numElements funcs))
    (sched : List Nat) (w : Nat) :
    (((evalFunctions_loop numElements funcs
        (claimsOf w (runClaims (totalSize numElements funcs) 0 sched))).map Prod.fst).filter
          (fun r => decide (0 ≤ r)) =
      (claimsOf w (runClaims (totalSize numElements funcs) 0 sched)).filter
          (fun r => decide (0 ≤ r)) ∧
    ∀ it ∈ evalFunctions_loop numElements funcs
        (claimsOf w (runClaims (totalSize numElements funcs) 0 sched)),
      0 ≤ it.1 → ResolvedCall funcs (funcElemDomainSize numElements funcs) numElements
        Event.elementWiseEval it.1 it.2) ∧
    (((evalDVSens_loop numElements funcs
        (claimsOf w (runClaims (totalSize numElements funcs) 0 sched))).map Prod.fst).filter
          (fun r => decide (0 ≤ r)) =
      (claimsOf w (runClaims (totalSize numElements funcs) 0 sched)).filter
          (fun r => decide (0 ≤ r)) ∧
    ∀ it ∈ evalDVSens_loop numElements funcs
        (claimsOf w (runClaims (totalSize numElements funcs) 0 sched)),
      0 ≤ it.1 → ResolvedCall funcs (funcElemDomainSize numElements funcs) numElements
        Event.elementWiseDVSens it.1 it.2) :=
  ⟨⟨(functionLoop_claims numElements hn funcs hI _ _
      (fun _ _ hk h0 hge hlt => evalFunctions_body_spec numElements hn funcs hk h0 hge hlt)
      (fun s _ h => evalFunctions_body_neg funcs _ s h) sched w).1,
    fun it hit h0 => ((functionLoop_claims numElements hn funcs hI _ _
      (fun _ _ hk h0 hge hlt => evalFunctions_body_spec numElements hn funcs hk h0 hge hlt)
      (fun s _ h => evalFunctions_body_neg funcs _ s h) sched w).2 it hit).1 h0⟩,
    ⟨(functionLoop_claims numElements hn funcs hI _ _
      (fun _ _ hk h0 hge hlt => evalDVSens_body_spec numElements hn funcs hk h0 hge hlt)
      (fun s _ h => evalDVSens_body_neg funcs _ s h) sched w).1,
    fun it hit h0 => ((functionLoop_claims numElements hn funcs hI _ _
      (fun _ _ hk h0 hge hlt => evalDVSens_body_spec numElements hn funcs hk h0 hge hlt)
      (fun s _ h => evalDVSens_body_neg funcs _ s h) sched w).2 it hit).1 h0⟩⟩

theorem domain_mapper_along_run_witness :
    ((0 : Int) ≤ 4 ∧ isInt (totalSize 4 twoFuncs)) ∧
    ((((evalFunctions_loop 4 twoFuncs
        (claimsOf 0 (runClaims (totalSize 4 twoFuncs) 0 [0, 1, 1, 0, 1, 0, 0, 1]))).map
          Prod.fst).filter (fun r => decide (0 ≤ r)) =
      (claimsOf 0 (runClaims (totalSize 4 twoFuncs) 0 [0, 1, 1, 0, 1, 0, 0, 1])).filter
          (fun r => decide (0 ≤ r)) ∧
    ∀ it ∈ evalFunctions_loop 4 twoFuncs
        (claimsOf 0 (runClaims (totalSize 4 twoFuncs) 0 [0, 1, 1, 0, 1, 0, 0, 1])),
      0 ≤ it.1 → ResolvedCall twoFuncs (funcElemDomainSize 4 twoFuncs) 4
        Event.elementWiseEval it.1 it.2) ∧
    (((evalDVSens_loop 4 twoFuncs
        (claimsOf 0 (runClaims (totalSize 4 twoFuncs) 0 [0, 1, 1, 0, 1, 0, 0, 1]))).map
          Prod.fst).filter (fun r => decide (0 ≤ r)) =
      (claimsOf 0 (runClaims (totalSize 4 twoFuncs) 0 [0, 1, 1, 0, 1, 0, 0, 1])).filter
          (fun r => decide (0 ≤ r)) ∧
    ∀ it ∈ evalDVSens_loop 4 twoFuncs
        (claimsOf 0 (runClaims (totalSize 4 twoFuncs) 0 [0, 1, 1, 0, 1, 0, 0, 1])),
      0 ≤ it.1 → ResolvedCall twoFuncs (funcElemDomainSize 4 twoFuncs) 4
        Event.elementWiseDVSens it.1 it.2)) :=
  ⟨⟨by decide, by decide⟩,
    domain_mapper_along_run 4 (by decide) twoFuncs (by decide) [0, 1, 1, 0, 1, 0, 0, 1] 0⟩

/-! ### Resolution from the initial cache -/

theorem findFunction_in_range (numElements : Int) (hn : 0 ≤ numElements)
    (funcs : List TACSFunction) (item : Int) (h0 : 0 ≤ item)
    (hlt : item < totalSize numElements funcs) :
    ∃ k, k < funcs.length ∧
      findFunction (funcElemDomainSize numElements funcs) funcs.length ⟨0, 0⟩ item =
        some ⟨k, k⟩ ∧
      rd (funcElemDomainSize numElements funcs) k ≤ item ∧
      item < rd (funcElemDomainSize numElements funcs) (k + 1) := by
  have hm : 0 < funcs.length := by
    rcases Nat.eq_zero_or_pos funcs.length with hm | hm
    · have hz := funcElemDomainSize_zero numElements funcs
      unfold totalSize at hlt
      rw [hm] at hlt
      omega
    · exact hm
  have hz := funcElemDomainSize_zero numElements funcs
  obtain ⟨k, hf, _, hk, h1, h2⟩ :=
    findFunction_found (funcElemDomainSize_step hn funcs) hlt hm (by omega)
  exact ⟨k, hk, hf, h1, h2⟩

theorem body_out_of_range (numElements : Int) (hn : 0 ≤ numElements)
    (funcs : List TACSFunction) {item : Int} (hge : totalSize numElements funcs ≤ item)
    (hm : 0 < funcs.length) :
    findFunction (funcElemDomainSize numElements funcs) funcs.length ⟨0, 0⟩ item = none := by
  have hstep := funcElemDomainSize_step hn funcs
  have h1 := offsets_mono hstep funcs.length (le_refl _) 1 hm
  have hs := scanFuncIndex_out_of_range hstep hge (funcs.length - 0) 0 rfl (Nat.zero_le _)
  have h1' : rd (funcElemDomainSize numElements funcs) (0 + 1) ≤ item := by
    unfold totalSize at hge
    simpa using le_trans h1 hge
  simp only [findFunction, ge_iff_le, h1', if_true, hs, le_refl]

/-- C4: for every list of quantities (domain sizes `d_k >= 0`, possibly 0) the
table starts at 0 and grows by `d_k` at quantity `k`; resolved from cached
quantity 0, the flat index `off[k] + l` with `0 <= l < d_k` goes to quantity
`k`; every flat index in `[0, total)` goes to a quantity whose domain contains
its local index (so never to an empty one); and for a flat index `>= total`
the scan ends with `funcIndex = numFuncs` and the worker makes no iteration
and no kernel call. -/
theorem multi_quantity_offsets (numElements : Int) (hn : 0 ≤ numElements)
    (funcs : List TACSFunction) :
    (rd (funcElemDomainSize numElements funcs) 0 = 0 ∧
      ∀ k, k < funcs.length →
        rd (funcElemDomainSize numElements funcs) (k + 1) =
          rd (funcElemDomainSize numElements funcs) k +
            domainSize numElements (funcAt funcs k)) ∧
    (∀ k, k < funcs.length → ∀ l : Int, 0 ≤ l → l < domainSize numElements (funcAt funcs k) →
      findFunction (funcElemDomainSize numElements funcs) funcs.length ⟨0, 0⟩
        (rd (funcElemDomainSize numElements funcs) k + l) = some ⟨k, k⟩) ∧
    (∀ item : Int, 0 ≤ item → item < totalSize numElements funcs →
      ∃ k, k < funcs.length ∧
        findFunction (funcElemDomainSize numElements funcs) funcs.length ⟨0, 0⟩ item =
          some ⟨k, k⟩ ∧
        0 ≤ item - rd (funcElemDomainSize numElements funcs) k ∧
        item - rd (funcElemDomainSize numElements funcs) k <
          domainSize numElements (funcAt funcs k)) ∧
    (∀ item : Int, totalSize numElements funcs ≤ item →
      scanFuncIndex (funcElemDomainSize numElements funcs) item funcs.length 0 = funcs.length ∧
      ∀ rest : List Int,
        evalFunctions_loop numElements funcs (item :: rest) = [] ∧
        evalDVSens_loop numElements funcs (item :: rest) = []) := by
  have hstep := funcElemDomainSize_step hn funcs
  have hz := funcElemDomainSize_zero numElements funcs
  refine ⟨⟨hz, fun k hk => funcElemDomainSize_succ numElements funcs k hk⟩, ?_, ?_, ?_⟩
  · intro k hk l hl0 hl
    have hsucc := funcElemDomainSize_succ numElements funcs k hk
    have hk0 := offsets_mono hstep k (by omega) 0 (Nat.zero_le _)
    have hkm := offsets_mono hstep funcs.length (le_refl _) (k + 1) (by omega)
    obtain ⟨k', hk', hf, h1, h2⟩ := findFunction_in_range numElements hn funcs
      (rd (funcElemDomainSize numElements funcs) k + l) (by omega)
      (by unfold totalSize; omega)
    have : k' = k := (offsets_unique hstep hk' hk h1 h2 (by omega) (by omega)).symm
    rw [hf, this]
  · intro item h0 hlt
    obtain ⟨k, hk, hf, h1, h2⟩ := findFunction_in_range numElements hn funcs item h0 hlt
    have hsucc := funcElemDomainSize_succ numElements funcs k hk
    exact ⟨k, hk, hf, by omega, by omega⟩
  · intro item hge
    refine ⟨scanFuncIndex_out_of_range hstep hge funcs.length 0 rfl (Nat.zero_le _), ?_⟩
    intro rest
    rcases Nat.eq_zero_or_pos funcs.length with hm | hm
    · simp [evalFunctions_loop, evalDVSens_loop, functionLoop, hm]
    · have h0 : 0 ≤ item := le_trans (totalSize_nonneg hn funcs) hge
      have hnone := body_out_of_range numElements hn funcs hge hm
      simp [evalFunctions_loop, evalDVSens_loop, functionLoop, hm, evalFunctions_body,
        evalDVSens_body, h0, hnone]

theorem multi_quantity_offsets_witness :
    ((0 : Int) ≤ 7) ∧
    ((rd (funcElemDomainSize 7 threeFuncs) 0 = 0 ∧
      ∀ k, k < threeFuncs.length →
        rd (funcElemDomainSize 7 threeFuncs) (k + 1) =
          rd (funcElemDomainSize 7 threeFuncs) k + domainSize 7 (funcAt threeFuncs k)) ∧
    (∀ k, k < threeFuncs.length → ∀ l : Int, 0 ≤ l → l < domainSize 7 (funcAt threeFuncs k) →
      findFunction (funcElemDomainSize 7 threeFuncs) threeFuncs.length ⟨0, 0⟩
        (rd (funcElemDomainSize 7 threeFuncs) k + l) = some ⟨k, k⟩) ∧
    (∀ item : Int, 0 ≤ item → item < totalSize 7 threeFuncs →
      ∃ k, k < threeFuncs.length ∧
        findFunction (funcElemDomainSize 7 threeFuncs) threeFuncs.length ⟨0, 0⟩ item =
          some ⟨k, k⟩ ∧
        0 ≤ item - rd (funcElemDomainSize 7 threeFuncs) k ∧
        item - rd (funcElemDomainSize 7 threeFuncs) k < domainSize 7 (funcAt threeFuncs k)) ∧
    (∀ item : Int, totalSize 7 threeFuncs ≤ item →
      scanFuncIndex (funcElemDomainSize 7 threeFuncs) item threeFuncs.length 0 =
        threeFuncs.length ∧
      ∀ rest : List Int,
        evalFunctions_loop 7 threeFuncs (item :: rest) = [] ∧
        evalDVSens_loop 7 threeFuncs (item :: rest) = [])) ∧
    funcElemDomainSize 7 threeFuncs = [0, 3, 3, 8] ∧
    (List.range 9).map (fun i : Nat =>
        findFunction (funcElemDomainSize 7 threeFuncs) 3 ⟨0, 0⟩ (i : Int)) =
      [some ⟨0, 0⟩, some ⟨0, 0⟩, some ⟨0, 0⟩, some ⟨2, 2⟩, some ⟨2, 2⟩, some ⟨2, 2⟩,
        some ⟨2, 2⟩, some ⟨2, 2⟩, none] :=
  ⟨by decide, multi_quantity_offsets 7 (by decide) threeFuncs, by decide, by decide⟩

/-! ### The auxiliary merge -/

theorem rd_eq_getElem {l : List Int} {i : Nat} (h : i < l.length) : rd l i = l[i] := by
  simp [rd, List.getD_eq_getElem?_getD, List.getElem?_eq_getElem h]

/-- Index form of an ascending table. -/
theorem sorted_rd {aux : List Int} (hs : aux.Pairwise (· ≤ ·)) {i j : Nat} (hij : i ≤ j)
    (hj : j < aux.length) : rd aux i ≤ rd aux j := by
  rcases Nat.lt_or_ge i j with h | h
  · rw [rd_eq_getElem (by omega : i < aux.length), rd_eq_getElem hj]
    exact List.pairwise_iff_getElem.1 hs i j (by omega) hj h
  · have : i = j := by omega
    subst this; exact le_refl _

theorem auxSkip_spec (aux : List Int) (e : Int) :
    ∀ n c, n = aux.length - c → c ≤ aux.length → (∀ j, j < c → rd aux j < e) →
      c ≤ auxSkip aux e n c ∧ auxSkip aux e n c ≤ aux.length ∧
      (∀ j, j < auxSkip aux e n c → rd aux j < e) ∧
      (auxSkip aux e n c < aux.length → e ≤ rd aux (auxSkip aux e n c)) := by
  intro n
  induction n with
  | zero =>
    intro c hn hc hlt
    simp only [auxSkip]
    exact ⟨le_refl _, hc, hlt, fun h => by omega⟩
  | succ n ih =>
    intro c hn hc hlt
    by_cases h : rd aux c < e
    · have hu : auxSkip aux e (n + 1) c = auxSkip aux e n (c + 1) := by
        simp [auxSkip, h]
      rw [hu]
      have := ih (c + 1) (by omega) (by omega) (fun j hj => by
        rcases Nat.lt_or_ge j c with h' | h'
        · exact hlt j h'
        · have : j = c := by omega
          subst this; exact h)
      exact ⟨by omega, this.2⟩
    · have hu : auxSkip aux e (n + 1) c = c := by
        simp [auxSkip, h]
      rw [hu]
      exact ⟨le_refl _, hc, hlt, fun _ => by omega⟩

theorem auxResidualLoop_spec (tacs : TACSAssembler) (e : Int) :
    ∀ n c r, n = tacs.aux.length - c → c ≤ tacs.aux.length →
      ∃ c', c ≤ c' ∧ c' ≤ tacs.aux.length ∧
        (∀ j, c ≤ j → j < c' → rd tacs.aux j = e) ∧
        (c' < tacs.aux.length → rd tacs.aux c' ≠ e) ∧
        auxResidualLoop tacs e n c r =
          ((List.range' c (c' - c)).map (fun j => Event.auxAddResidual j e), c',
            (List.range' c (c' - c)).foldl (fun r j => tacs.auxAddResidual j e r) r) := by
  intro n
  induction n with
  | zero =>
    intro c r hn hc
    refine ⟨c, le_refl _, hc, fun j h1 h2 => by omega, fun h => by omega, ?_⟩
    simp [auxResidualLoop]
  | succ n ih =>
    intro c r hn hc
    by_cases h : rd tacs.aux c = e
    · obtain ⟨c', h1, h2, h3, h4, h5⟩ :=
        ih (c + 1) (tacs.auxAddResidual c e r) (by omega) (by omega)
      refine ⟨c', by omega, h2, ?_, h4, ?_⟩
      · intro j hj1 hj2
        rcases Nat.lt_or_ge c j with h' | h'
        · exact h3 j h' hj2
        · have : j = c := by omega
          subst this; exact h
      · have hlen : c' - c = (c' - (c + 1)) + 1 := by omega
        rw [hlen, List.range'_succ]
        simp [auxResidualLoop, h, h5]
    · refine ⟨c, le_refl _, hc, fun j h1 h2 => by omega, fun _ => h, ?_⟩
      simp [auxResidualLoop, h]

theorem auxJacobianLoop_spec (tacs : TACSAssembler) (pinfo : TACSAssemblerPthreadInfo)
    (e : Int) :
    ∀ n c r m, n = tacs.aux.length - c → c ≤ tacs.aux.length →
      ∃ c', c ≤ c' ∧ c' ≤ tacs.aux.length ∧
        (∀ j, c ≤ j → j < c' → rd tacs.aux j = e) ∧
        (c' < tacs.aux.length → rd tacs.aux c' ≠ e) ∧
        auxJacobianLoop tacs pinfo e n c r m =
          ((List.range' c (c' - c)).flatMap
              (fun j => [Event.auxAddResidual j e, Event.auxAddJacobian j e]), c',
            (List.range' c (c' - c)).foldl (fun r j => tacs.auxAddResidual j e r) r,
            (List.range' c (c' - c)).foldl
              (fun r j => tacs.auxAddJacobian j e pinfo.alpha pinfo.beta pinfo.gamma r) m) := by
  intro n
  induction n with
  | zero =>
    intro c r m hn hc
    refine ⟨c, le_refl _, hc, fun j h1 h2 => by omega, fun h => by omega, ?_⟩
    simp [auxJacobianLoop]
  | succ n ih =>
    intro c r m hn hc
    by_cases h : rd tacs.aux c = e
    · obtain ⟨c', h1, h2, h3, h4, h5⟩ :=
        ih (c + 1) (tacs.auxAddResidual c e r)
          (tacs.auxAddJacobian c e pinfo.alpha pinfo.beta pinfo.gamma m) (by omega) (by omega)
      refine ⟨c', by omega, h2, ?_, h4, ?_⟩
      · intro j hj1 hj2
        rcases Nat.lt_or_ge c j with h' | h'
        · exact h3 j h' hj2
        · have : j = c := by omega
          subst this; exact h
      · have hlen : c' - c = (c' - (c + 1)) + 1 := by omega
        rw [hlen, List.range'_succ]
        simp [auxJacobianLoop, h, h5]
    · refine ⟨c, le_refl _, hc, fun j h1 h2 => by omega, fun _ => h, ?_⟩
      simp [auxJacobianLoop, h]

/-- In an ascending table the positions holding `e` are the block `[c, c')`
delimited by the two loops. -/
theorem auxPositions_eq_block {aux : List Int} (hs : aux.Pairwise (· ≤ ·)) {e : Int}
    {c c' : Nat} (hc : c ≤ c') (hc' : c' ≤ aux.length)
    (hlt : ∀ j, j < c → rd aux j < e) (hge : c < aux.length → e ≤ rd aux c)
    (heq : ∀ j, c ≤ j → j < c' → rd aux j = e) (hne : c' < aux.length → rd aux c' ≠ e) :
    auxPositions aux e = List.range' c (c' - c) := by
  have hsplit : List.range aux.length =
      List.range' 0 c ++ (List.range' c (c' - c) ++ List.range' c' (aux.length - c')) := by
    have e1 : List.range' c (c' - c) ++ List.range' c' (aux.length - c') =
        List.range' c (aux.length - c) := by
      have h := List.range'_append_1 c (c' - c) (aux.length - c')
      rw [show c + (c' - c) = c' by omega] at h
      rw [h]; congr 1; omega
    have e2 : List.range' 0 c ++ List.range' c (aux.length - c) =
        List.range' 0 aux.length := by
      have h := List.range'_append_1 0 c (aux.length - c)
      rw [Nat.zero_add] at h
      rw [h]; congr 1; omega
    rw [List.range_eq_range', e1, e2]
  have hgt : c' < aux.length → e < rd aux c' := by
    intro h
    have hne' := hne h
    rcases Nat.lt_or_ge c c' with h' | h'
    · have h1 := heq (c' - 1) (by omega) (by omega)
      have h2 := sorted_rd hs (by omega : c' - 1 ≤ c') h
      omega
    · have : c = c' := by omega
      subst this
      have := hge h
      omega
  unfold auxPositions
  rw [hsplit, List.filter_append, List.filter_append]
  have hA : (List.range' 0 c).filter (fun j => rd aux j == e) = [] := by
    rw [List.filter_eq_nil_iff]
    intro j hj
    have hj' : j < c := by
      have := (List.mem_range'_1.1 hj).2; omega
    have := hlt j hj'
    simp; omega
  have hB : (List.range' c (c' - c)).filter (fun j => rd aux j == e) =
      List.range' c (c' - c) := by
    rw [List.filter_eq_self]
    intro j hj
    have hj' := List.mem_range'_1.1 hj
    have := heq j hj'.1 (by omega)
    simp [this]
  have hC : (List.range' c' (aux.length - c')).filter (fun j => rd aux j == e) = [] := by
    rw [List.filter_eq_nil_iff]
    intro j hj
    have hj' := List.mem_range'_1.1 hj
    have hjl : j < aux.length := by omega
    have h1 := hgt (by omega)
    have h2 := sorted_rd hs hj'.1 hjl
    simp; omega
  rw [hA, hB, hC]
  simp

theorem assembleRes_body_spec (tacs : TACSAssembler) (hs : tacs.aux.Pairwise (· ≤ ·))
    {c : Nat} {e : Int} (h0 : 0 ≤ e) (hc : c ≤ tacs.aux.length)
    (hlt : ∀ j, j < c → rd tacs.aux j < e) :
    (assembleRes_body tacs c e).2 = residualSpec tacs e ∧
    (assembleRes_body tacs c e).1 ≤ tacs.aux.length ∧
    ∀ j, j < (assembleRes_body tacs c e).1 → rd tacs.aux j ≤ e := by
  obtain ⟨s1, s2, s3, s4⟩ := auxSkip_spec tacs.aux e (tacs.aux.length - c) c rfl hc hlt
  obtain ⟨c', a1, a2, a3, a4, a5⟩ := auxResidualLoop_spec tacs e
    (tacs.aux.length - auxSkip tacs.aux e (tacs.aux.length - c) c)
    (auxSkip tacs.aux e (tacs.aux.length - c) c)
    (tacs.addResidual e (List.replicate (tacs.numVariables e) 0)) rfl s2
  have hpos := auxPositions_eq_block hs a1 a2 s3 s4 a3 a4
  simp only [assembleRes_body, ge_iff_le, h0, if_true, a5, residualSpec, localResidual, hpos]
  refine ⟨by simp, a2, ?_⟩
  intro j hj
  rcases Nat.lt_or_ge j (auxSkip tacs.aux e (tacs.aux.length - c) c) with h | h
  · exact le_of_lt (s3 j h)
  · exact le_of_eq (a3 j h hj)

theorem assembleJacobian_body_spec (tacs : TACSAssembler) (pinfo : TACSAssemblerPthreadInfo)
    (hs : tacs.aux.Pairwise (· ≤ ·))
    {c : Nat} {e : Int} (h0 : 0 ≤ e) (hc : c ≤ tacs.aux.length)
    (hlt : ∀ j, j < c → rd tacs.aux j < e) :
    (assembleJacobian_body tacs pinfo c e).2 = jacobianSpec tacs pinfo e ∧
    (assembleJacobian_body tacs pinfo c e).1 ≤ tacs.aux.length ∧
    ∀ j, j < (assembleJacobian_body tacs pinfo c e).1 → rd tacs.aux j ≤ e := by
  obtain ⟨s1, s2, s3, s4⟩ := auxSkip_spec tacs.aux e (tacs.aux.length - c) c rfl hc hlt
  obtain ⟨c', a1, a2, a3, a4, a5⟩ := auxJacobianLoop_spec tacs pinfo e
    (tacs.aux.length - auxSkip tacs.aux e (tacs.aux.length - c) c)
    (auxSkip tacs.aux e (tacs.aux.length - c) c)
    (tacs.addResidual e (List.replicate (tacs.numVariables e) 0))
    (tacs.addJacobian e pinfo.alpha pinfo.beta pinfo.gamma
      (List.replicate (tacs.numVariables e * tacs.numVariables e) 0)) rfl s2
  have hpos := auxPositions_eq_block hs a1 a2 s3 s4 a3 a4
  simp only [assembleJacobian_body, ge_iff_le, h0, if_true, a5, jacobianSpec, localResidual,
    localJacobian, hpos]
  refine ⟨by simp, a2, ?_⟩
  intro j hj
  rcases Nat.lt_or_ge j (auxSkip tacs.aux e (tacs.aux.length - c) c) with h | h
  · exact le_of_lt (s3 j h)
  · exact le_of_eq (a3 j h hj)

/-- A loop whose body meets `spec` on every non-negative item, keeps the
cursor invariant, and does nothing on a negative item, produces the
concatenation of `spec` over the non-negative items. -/
theorem mergeLoop_spec (aux : List Int) (body : Nat → Int → Nat × List Event)
    (loop : Nat → List Int → List Event) (spec : Int → List Event)
    (hnil : ∀ c, loop c [] = [])
    (hcons : ∀ c e items, loop c (e :: items) = (body c e).2 ++ loop (body c e).1 items)
    (hbody : ∀ c e, 0 ≤ e → c ≤ aux.length → (∀ j, j < c → rd aux j < e) →
      (body c e).2 = spec e ∧ (body c e).1 ≤ aux.length ∧
      ∀ j, j < (body c e).1 → rd aux j ≤ e)
    (hneg : ∀ c e, e < 0 → body c e = (c, [])) :
    ∀ (items : List Int) (c : Nat), c ≤ aux.length →
      (items.filter (fun r => decide (0 ≤ r))).Pairwise (· < ·) →
      (∀ i ∈ items, 0 ≤ i → ∀ j, j < c → rd aux j < i) →
      loop c items = (items.filter (fun r => decide (0 ≤ r))).flatMap spec := by
  intro items
  induction items with
  | nil => intro c _ _ _; simp [hnil]
  | cons e rest ih =>
    intro c hc hpw hb
    rw [hcons]
    by_cases h0 : 0 ≤ e
    · obtain ⟨b1, b2, b3⟩ := hbody c e h0 hc (hb e (List.mem_cons_self _ _) h0)
      have hfil : (e :: rest).filter (fun r => decide (0 ≤ r)) =
          e :: rest.filter (fun r => decide (0 ≤ r)) := by
        simp [List.filter_cons, h0]
      rw [hfil, List.pairwise_cons] at hpw
      rw [hfil, List.flatMap_cons, b1]
      congr 1
      apply ih _ b2 hpw.2
      intro i hi hi0 j hj
      have hlt : e < i := hpw.1 i (List.mem_filter.2 ⟨hi, by simpa using hi0⟩)
      have := b3 j hj
      omega
    · have hfil : (e :: rest).filter (fun r => decide (0 ≤ r)) =
          rest.filter (fun r => decide (0 ≤ r)) := by
        simp [List.filter_cons, h0]
      rw [hfil] at hpw
      rw [hfil, hneg c e (by omega)]
      simp only [List.nil_append]
      exact ih c hc hpw (fun i hi => hb i (List.mem_cons_of_mem _ hi))

theorem assembleRes_thread_spec (tacs : TACSAssembler) (hs : tacs.aux.Pairwise (· ≤ ·))
    (items : List Int) (hpw : (items.filter (fun r => decide (0 ≤ r))).Pairwise (· < ·)) :
    assembleRes_thread tacs items =
      (items.filter (fun r => decide (0 ≤ r))).flatMap (residualSpec tacs) := by
  unfold assembleRes_thread
  refine mergeLoop_spec tacs.aux (assembleRes_body tacs) (assembleRes_loop tacs) _
    (fun _ => rfl) (fun _ _ _ => rfl)
    (fun c e h0 hc hlt => assembleRes_body_spec tacs hs h0 hc hlt) ?_ items 0
    (Nat.zero_le _) hpw (fun _ _ _ j hj => absurd hj (Nat.not_lt_zero j))
  intro c e he
  have : ¬ 0 ≤ e := by omega
  simp [assembleRes_body, this]

theorem assembleJacobian_thread_spec (tacs : TACSAssembler) (pinfo : TACSAssemblerPthreadInfo)
    (hs : tacs.aux.Pairwise (· ≤ ·))
    (items : List Int) (hpw : (items.filter (fun r => decide (0 ≤ r))).Pairwise (· < ·)) :
    assembleJacobian_thread tacs pinfo items =
      (items.filter (fun r => decide (0 ≤ r))).flatMap (jacobianSpec tacs pinfo) := by
  unfold assembleJacobian_thread
  refine mergeLoop_spec tacs.aux (assembleJacobian_body tacs pinfo)
    (assembleJacobian_loop tacs pinfo) _
    (fun _ => rfl) (fun _ _ _ => rfl)
    (fun c e h0 hc hlt => assembleJacobian_body_spec tacs pinfo hs h0 hc hlt) ?_ items 0
    (Nat.zero_le _) hpw (fun _ _ _ j hj => absurd hj (Nat.not_lt_zero j))
  intro c e he
  have : ¬ 0 ≤ e := by omega
  simp [assembleJacobian_body, this]

/-- C5: with the auxiliary table sorted ascending, a worker that processes a
strictly increasing sequence of element indices (cursor starting at 0) makes,
for each processed element `e` in turn, the element's kernel call, then one
call for each table position whose element index is `e` (each such position
once, in table order, on the buffers of `e`), then the scatter-add of `e`
carrying the result of exactly those calls; no other auxiliary call is made.
This holds for `assembleRes_thread` and `assembleJacobian_thread`. -/
theorem auxiliary_merge_correct (tacs : TACSAssembler) (pinfo : TACSAssemblerPthreadInfo)
    (hs : tacs.aux.Pairwise (· ≤ ·)) (items : List Int)
    (hpw : (items.filter (fun r => decide (0 ≤ r))).Pairwise (· < ·)) :
    assembleRes_thread tacs items =
      (items.filter (fun r => decide (0 ≤ r))).flatMap (fun e =>
        Event.addResidual e ::
          (auxPositions tacs.aux e).map (fun j => Event.auxAddResidual j e) ++
          [Event.addValues e (localResidual tacs e)]) ∧
    assembleJacobian_thread tacs pinfo items =
      (items.filter (fun r => decide (0 ≤ r))).flatMap (fun e =>
        Event.addResidual e :: Event.addJacobian e ::
          (auxPositions tacs.aux e).flatMap
            (fun j => [Event.auxAddResidual j e, Event.auxAddJacobian j e]) ++
          [Event.addValues e (localResidual tacs e),
            Event.addMatValues e (localJacobian tacs pinfo e)]) ∧
    (∀ e, (auxPositions tacs.aux e).Nodup ∧
      ∀ j, j ∈ auxPositions tacs.aux e ↔ j < tacs.aux.length ∧ rd tacs.aux j = e) := by
  refine ⟨assembleRes_thread_spec tacs hs items hpw,
    assembleJacobian_thread_spec tacs pinfo hs items hpw, ?_⟩
  intro e
  refine ⟨(List.nodup_range _).filter _, ?_⟩
  intro j
  simp [auxPositions, List.mem_filter]

theorem auxiliary_merge_correct_witness :
    (auxTacs.aux.Pairwise (· ≤ ·) ∧
      (([0, 1, 2, 3, 4] : List Int).filter (fun r => decide (0 ≤ r))).Pairwise (· < ·)) ∧
    (assembleRes_thread auxTacs [0, 1, 2, 3, 4] =
      (([0, 1, 2, 3, 4] : List Int).filter (fun r => decide (0 ≤ r))).flatMap (fun e =>
        Event.addResidual e ::
          (auxPositions auxTacs.aux e).map (fun j => Event.auxAddResidual j e) ++
          [Event.addValues e (localResidual auxTacs e)]) ∧
    assembleJacobian_thread auxTacs unitInfo [0, 1, 2, 3, 4] =
      (([0, 1, 2, 3, 4] : List Int).filter (fun r => decide (0 ≤ r))).flatMap (fun e =>
        Event.addResidual e :: Event.addJacobian e ::
          (auxPositions auxTacs.aux e).flatMap
            (fun j => [Event.auxAddResidual j e, Event.auxAddJacobian j e]) ++
          [Event.addValues e (localResidual auxTacs e),
            Event.addMatValues e (localJacobian auxTacs unitInfo e)]) ∧
    (∀ e, (auxPositions auxTacs.aux e).Nodup ∧
      ∀ j, j ∈ auxPositions auxTacs.aux e ↔ j < auxTacs.aux.length ∧ rd auxTacs.aux j = e)) ∧
    assembleRes_thread auxTacs [0, 1, 2, 3, 4] =
      [Event.addResidual 0, Event.addValues 0 [1],
       Event.addResidual 1, Event.auxAddResidual 0 1, Event.auxAddResidual 1 1,
         Event.addValues 1 [32],
       Event.addResidual 2, Event.addValues 2 [3],
       Event.addResidual 3, Event.auxAddResidual 2 3, Event.addValues 3 [34],
       Event.addResidual 4, Event.addValues 4 [5]] :=
  ⟨⟨by decide, by decide⟩,
    auxiliary_merge_correct auxTacs unitInfo (by decide) [0, 1, 2, 3, 4] (by decide),
    by decide⟩

/-! ### Distribution of the claims among the workers -/

theorem filter_lt_succ_perm {β : Type} (l : List (Nat × β)) (K : Nat) :
    List.Perm (l.filter (fun p => decide (p.1 < K)) ++ l.filter (fun p => p.1 == K))
      (l.filter (fun p => decide (p.1 < K + 1))) := by
  have h := List.filter_append_perm (fun p : Nat × β => decide (p.1 < K))
    (l.filter (fun p => decide (p.1 < K + 1)))
  rw [List.filter_filter, List.filter_filter] at h
  have e1 : l.filter (fun p => decide (p.1 < K) && decide (p.1 < K + 1)) =
      l.filter (fun p => decide (p.1 < K)) := by
    apply List.filter_congr
    intro p _
    by_cases hp : p.1 < K
    · have : p.1 < K + 1 := by omega
      simp [hp, this]
    · simp [hp]
  have e2 : l.filter (fun p => (!decide (p.1 < K)) && decide (p.1 < K + 1)) =
      l.filter (fun p => p.1 == K) := by
    apply List.filter_congr
    intro p _
    rcases Nat.lt_trichotomy p.1 K with hp | hp | hp
    · have h2 : p.1 ≠ K := by omega
      simp [hp, h2]
    · simp [hp]
    · have h1 : ¬ p.1 < K := by omega
      have h2 : ¬ p.1 < K + 1 := by omega
      have h3 : p.1 ≠ K := by omega
      simp [h1, h2, h3]
  rw [e1, e2] at h
  exact h

/-- The claims of workers `0, ..., K-1` together are the claims made by workers
below `K`. -/
theorem claimsOf_partition_lt (tr : List (Nat × Int)) :
    ∀ K : Nat, List.Perm ((List.range K).flatMap (fun w => claimsOf w tr))
      ((tr.filter (fun p => decide (p.1 < K))).map Prod.snd) := by
  intro K
  induction K with
  | zero => simp
  | succ K ih =>
    rw [List.range_succ, List.flatMap_append, List.flatMap_singleton]
    have h1 := List.Perm.append_right (claimsOf K tr) ih
    refine h1.trans ?_
    unfold claimsOf
    rw [← List.map_append]
    exact (filter_lt_succ_perm tr K).map _

theorem claimsOf_partition (tr : List (Nat × Int)) (K : Nat) (hK : ∀ p ∈ tr, p.1 < K) :
    List.Perm ((List.range K).flatMap (fun w => claimsOf w tr)) (tr.map Prod.snd) := by
  have h := claimsOf_partition_lt tr K
  have e : tr.filter (fun p => decide (p.1 < K)) = tr := by
    rw [List.filter_eq_self]
    intro p hp
    simpa using hK p hp
  rw [e] at h
  exact h

theorem runClaims_workers (N : Int) (sched : List Nat) (K : Nat) (hw : ∀ w ∈ sched, w < K) :
    ∀ p ∈ runClaims N 0 sched, p.1 < K := by
  intro p hp
  have h1 : p.1 ∈ (runClaims N 0 sched).map Prod.fst := List.mem_map_of_mem _ hp
  rw [runClaims_fst] at h1
  exact hw _ h1

/-- When the phase has run to completion, the non-sentinel claims of all
workers together are a rearrangement of `0, ..., N-1`. -/
theorem claims_partition (N : Int) (hN : 0 ≤ N) (hI : isInt N) (sched : List Nat) (K : Nat)
    (hw : ∀ w ∈ sched, w < K) (hdone : N.toNat ≤ sched.length) :
    List.Perm
      ((List.range K).flatMap (fun w =>
        (claimsOf w (runClaims N 0 sched)).filter (fun r => decide (0 ≤ r))))
      ((List.range N.toNat).map (fun j : Nat => (j : Int))) := by
  have h1 := (claimsOf_partition _ K (runClaims_workers N sched K hw)).filter
    (fun r => decide (0 ≤ r))
  rw [List.filter_flatMap] at h1
  refine h1.trans ?_
  have hfil : ((runClaims N 0 sched).map Prod.snd).filter (fun r => decide (0 ≤ r)) =
      ((runClaims N 0 sched).map Prod.snd).filter (fun r => r != -1) := by
    apply List.filter_congr
    intro r hr
    rcases runClaims_result_cases N hI sched r hr with h | h
    · subst h; decide
    · have h1 : (0 : Int) ≤ r := h.1
      have h2 : r ≠ -1 := by omega
      simp [h1, h2]
  rw [hfil, runClaims_claimed N hI sched 0 (le_refl 0) hN]
  have : min sched.length (N - 0).toNat = N.toNat := by
    simp only [sub_zero]; omega
  rw [this]
  simp

/-! ### The residual vector after a phase -/

theorem scatter_foldl (ps : List (Nat × Int)) (d : Nat) :
    ∀ r : Nat → Int,
      (ps.foldl (fun res p => Function.update res p.1 (res p.1 + p.2)) r) d =
        r d + ((ps.filter (fun p => p.1 == d)).map Prod.snd).sum := by
  induction ps with
  | nil => intro r; simp
  | cons p ps ih =>
    intro r
    rw [List.foldl_cons, ih]
    by_cases h : p.1 = d
    · subst h
      simp [List.filter_cons, Function.update_same, add_assoc]
    · have h' : d ≠ p.1 := fun e => h e.symm
      simp [List.filter_cons, h, Function.update_noteq h']

theorem addValues_apply (dofs : Int → List Nat) (e : Int) (vals : List Int)
    (r : Nat → Int) (d : Nat) :
    addValues dofs e vals r d = r d + scatterAt dofs e vals d :=
  scatter_foldl _ d r

theorem applyEvent_apply (dofs : Int → List Nat) (r : Nat → Int) (ev : Event) (d : Nat) :
    applyEvent dofs r ev d = r d + eventContribution dofs d ev := by
  cases ev <;> simp [applyEvent, eventContribution, addValues_apply]

theorem finalResidual_apply (dofs : Int → List Nat) (trace : List Event) (d : Nat) :
    ∀ init : Nat → Int,
      finalResidual dofs init trace d =
        init d + (trace.map (eventContribution dofs d)).sum := by
  induction trace with
  | nil => intro init; simp [finalResidual]
  | cons ev evs ih =>
    intro init
    have := ih (applyEvent dofs init ev)
    simp only [finalResidual, List.foldl_cons] at this ⊢
    rw [this, applyEvent_apply]
    simp [add_assoc]

theorem sum_map_flatMap {α β : Type} (f : α → List β) (c : β → Int) (l : List α) :
    ((l.flatMap f).map c).sum = (l.map (fun x => ((f x).map c).sum)).sum := by
  induction l with
  | nil => simp
  | cons x xs ih => simp [List.flatMap_cons, ih]

theorem residualSpec_contribution (tacs : TACSAssembler) (dofs : Int → List Nat) (d : Nat)
    (e : Int) :
    ((residualSpec tacs e).map (eventContribution dofs d)).sum =
      scatterAt dofs e (localResidual tacs e) d := by
  have hz : ∀ l : List Nat,
      ((l.map (fun j => Event.auxAddResidual j e)).map (eventContribution dofs d)).sum = 0 := by
    intro l
    induction l with
    | nil => simp
    | cons j js ih =>
      simp only [List.map_cons, List.sum_cons, ih]
      simp [eventContribution]
  simp only [residualSpec, List.map_cons, List.map_append, List.sum_cons, List.sum_append, hz]
  simp [eventContribution]

/-- The residual vector after a completed residual phase, whatever the pool
size, the distribution of the claims and the order of the steps. -/
theorem residual_closed_form (tacs : TACSAssembler) (dofs : Int → List Nat)
    (init : Nat → Int) (hs : tacs.aux.Pairwise (· ≤ ·)) (hN : 0 ≤ tacs.numElements)
    (hI : isInt tacs.numElements) (K : Nat) (sched : List Nat) (hw : ∀ w ∈ sched, w < K)
    (hdone : tacs.numElements.toNat ≤ sched.length) (g : List Event)
    (hg : List.Perm g (assembleRes_workers tacs K sched)) (d : Nat) :
    finalResidual dofs init g d =
      init d + ((List.range tacs.numElements.toNat).map
        (fun e : Nat => scatterAt dofs e (localResidual tacs e) d)).sum := by
  rw [finalResidual_apply, (hg.map (eventContribution dofs d)).sum_eq]
  congr 1
  have hall : assembleRes_workers tacs K sched =
      ((List.range K).flatMap (fun w =>
        (claimsOf w (runClaims tacs.numElements 0 sched)).filter
          (fun r => decide (0 ≤ r)))).flatMap (residualSpec tacs) := by
    unfold assembleRes_workers
    rw [List.flatMap_assoc]
    apply List.flatMap_congr
    intro w _
    exact assembleRes_thread_spec tacs hs _ (claimsOf_sorted _ hN hI sched w).1
  have hperm := (claims_partition tacs.numElements hN hI sched K hw hdone).flatMap_right
    (residualSpec tacs)
  rw [hall, ((hperm.map (eventContribution dofs d)).sum_eq), sum_map_flatMap, List.map_map]
  congr 1
  apply List.map_congr_left
  intro e _
  simp [residualSpec_contribution]

/-- C6: over exact addition and with a sorted auxiliary table, for every pool
size `K`, every order `sched` in which the dispenser serves the workers'
claims (the phase having run to completion) and every order `g` of the
workers' steps, the final residual vector equals the one of a pool of size 1,
namely the initial vector plus, for every element `e < numElements`, the
scatter of the local residual of `e` (its own contribution and all auxiliary
contributions for `e`). -/
theorem residual_order_independent (tacs : TACSAssembler) (dofs : Int → List Nat)
    (init : Nat → Int) (hs : tacs.aux.Pairwise (· ≤ ·)) (hN : 0 ≤ tacs.numElements)
    (hI : isInt tacs.numElements) (K : Nat) (sched : List Nat) (hw : ∀ w ∈ sched, w < K)
    (hdone : tacs.numElements.toNat ≤ sched.length) (g : List Event)
    (hg : List.Perm g (assembleRes_workers tacs K sched)) :
    finalResidual dofs init g =
      finalResidual dofs init
        (assembleRes_workers tacs 1 (List.replicate tacs.numElements.toNat 0)) ∧
    ∀ d, finalResidual dofs init g d =
      init d + ((List.range tacs.numElements.toNat).map
        (fun e : Nat => scatterAt dofs e (localResidual tacs e) d)).sum := by
  have h1 := residual_closed_form tacs dofs init hs hN hI K sched hw hdone g hg
  have h2 := residual_closed_form tacs dofs init hs hN hI 1
    (List.replicate tacs.numElements.toNat 0)
    (fun w hw' => by rw [List.eq_of_mem_replicate hw']; exact Nat.one_pos)
    (by simp) _ (List.Perm.refl _)
  exact ⟨funext (fun d => by rw [h1, h2]), h1⟩

theorem residual_order_independent_witness :
    (sharedTacs.aux.Pairwise (· ≤ ·) ∧ 0 ≤ sharedTacs.numElements ∧
      isInt sharedTacs.numElements ∧ (∀ w ∈ [1, 0, 0, 1], w < 2) ∧
      sharedTacs.numElements.toNat ≤ [1, 0, 0, 1].length ∧
      List.Perm (assembleRes_workers sharedTacs 2 [1, 0, 0, 1]).reverse
        (assembleRes_workers sharedTacs 2 [1, 0, 0, 1])) ∧
    (finalResidual sharedDofs (fun _ => 0)
        (assembleRes_workers sharedTacs 2 [1, 0, 0, 1]).reverse =
      finalResidual sharedDofs (fun _ => 0)
        (assembleRes_workers sharedTacs 1 (List.replicate sharedTacs.numElements.toNat 0)) ∧
    ∀ d, finalResidual sharedDofs (fun _ => 0)
        (assembleRes_workers sharedTacs 2 [1, 0, 0, 1]).reverse d =
      (fun _ => 0) d + ((List.range sharedTacs.numElements.toNat).map
        (fun e : Nat => scatterAt sharedDofs e (localResidual sharedTacs e) d)).sum) ∧
    finalResidual sharedDofs (fun _ => 0)
        (assembleRes_workers sharedTacs 2 [1, 0, 0, 1]).reverse 0 = 1 + 32 :=
  ⟨⟨by decide, by decide, by decide, by decide, by decide, List.reverse_perm _⟩,
    residual_order_independent sharedTacs sharedDofs (fun _ => 0) (by decide) (by decide)
      (by decide) 2 [1, 0, 0, 1] (by decide) (by decide) _ (List.reverse_perm _),
    by decide⟩

/-! ### Phases with an empty domain -/

theorem claims_of_empty (sched : List Nat) (w : Nat) :
    ∀ i ∈ claimsOf w (runClaims 0 0 sched), i < 0 := by
  intro i hi
  rcases runClaims_result_cases 0 (by decide) sched i ((claimsOf_sublist w _).subset hi)
    with h | h
  · omega
  · omega

theorem assembleRes_loop_neg (tacs : TACSAssembler) :
    ∀ (items : List Int) (c : Nat), (∀ i ∈ items, i < 0) → assembleRes_loop tacs c items = [] := by
  intro items
  induction items with
  | nil => intro c _; rfl
  | cons e rest ih =>
    intro c h
    have he : ¬ 0 ≤ e := by have := h e (List.mem_cons_self _ _); omega
    simp only [assembleRes_loop, assembleRes_body, ge_iff_le, he, if_false, List.nil_append]
    exact ih c (fun i hi => h i (List.mem_cons_of_mem _ hi))

theorem assembleJacobian_loop_neg (tacs : TACSAssembler) (pinfo : TACSAssemblerPthreadInfo) :
    ∀ (items : List Int) (c : Nat), (∀ i ∈ items, i < 0) →
      assembleJacobian_loop tacs pinfo c items = [] := by
  intro items
  induction items with
  | nil => intro c _; rfl
  | cons e rest ih =>
    intro c h
    have he : ¬ 0 ≤ e := by have := h e (List.mem_cons_self _ _); omega
    simp only [assembleJacobian_loop, assembleJacobian_body, ge_iff_le, he, if_false,
      List.nil_append]
    exact ih c (fun i hi => h i (List.mem_cons_of_mem _ hi))

theorem assembleMatType_loop_neg (tacs : TACSAssembler) (pinfo : TACSAssemblerPthreadInfo) :
    ∀ (items : List Int) (m : List Int), (∀ i ∈ items, i < 0) →
      assembleMatType_loop tacs pinfo m items = [] := by
  intro items
  induction items with
  | nil => intro m _; rfl
  | cons e rest ih =>
    intro m h
    have he : ¬ 0 ≤ e := by have := h e (List.mem_cons_self _ _); omega
    simp only [assembleMatType_loop, assembleMatType_body, ge_iff_le, he, if_false,
      List.nil_append]
    exact ih m (fun i hi => h i (List.mem_cons_of_mem _ hi))

theorem adjointResProduct_loop_neg (pinfo : TACSAssemblerPthreadInfo) :
    ∀ items : List Int, (∀ i ∈ items, i < 0) → adjointResProduct_loop pinfo items = [] := by
  intro items
  induction items with
  | nil => intro _; rfl
  | cons e rest ih =>
    intro h
    have he : ¬ 0 ≤ e := by have := h e (List.mem_cons_self _ _); omega
    have := ih (fun i hi => h i (List.mem_cons_of_mem _ hi))
    unfold adjointResProduct_loop at this ⊢
    simp [List.flatMap_cons, adjointResProduct_body, he, this]

theorem functionLoop_neg (body : FuncCursor → Int → Option (FuncCursor × List Event))
    (m : Nat) (hneg : ∀ s item, item < 0 → body s item = some (s, [])) :
    ∀ (items : List Int) (s : FuncCursor), (∀ i ∈ items, i < 0) →
      (functionLoop body m s items).flatMap Prod.snd = [] := by
  intro items
  induction items with
  | nil => intro s _; rfl
  | cons e rest ih =>
    intro s h
    have he := h e (List.mem_cons_self _ _)
    have hr := ih s (fun i hi => h i (List.mem_cons_of_mem _ hi))
    by_cases hm : s.funcIndex < m
    · simp [functionLoop, hm, hneg s e he, hr]
    · simp [functionLoop, hm]

theorem mergeDVSens_apply (shared fdvSens : Nat → Int) (i : Nat) :
    ∀ n : Nat, mergeDVSens n shared fdvSens i =
      if i < n then shared i + fdvSens i else shared i := by
  intro n
  induction n with
  | zero => simp [mergeDVSens]
  | succ n ih =>
    unfold mergeDVSens at ih ⊢
    rw [List.range_succ, List.foldl_append, List.foldl_cons, List.foldl_nil]
    by_cases h : i = n
    · subst h
      have h1 : ¬ i < i := Nat.lt_irrefl _
      rw [Function.update_same, ih]
      simp [h1]
    · have h' : i ≠ n := h
      rw [Function.update_noteq h', ih]
      by_cases h2 : i < n
      · have : i < n + 1 := Nat.lt_succ_of_lt h2
        simp [h2, this]
      · have : ¬ i < n + 1 := fun h3 => h2 (lt_of_le_of_ne (Nat.lt_succ_iff.1 h3) h)
        simp [h2, this]

theorem mergeDVSens_zero (n : Nat) (shared : Nat → Int) :
    mergeDVSens n shared (fun _ => 0) = shared := by
  funext i
  rw [mergeDVSens_apply]
  simp

/-- C7 (as amended): when the total domain size of a phase is 0, a worker
makes no element, auxiliary or per-element function call and no scatter-add;
its only steps are, in the adjoint-product and design-sensitivity phases, the
final merge of a buffer that is still all zero (which leaves
`pinfo->fdvSens` unchanged), and, in the function-evaluation phase, the
`preEvalThread` and `postEvalThread` hooks of every function. -/
theorem empty_domain_noop (tacs : TACSAssembler) (pinfo : TACSAssemblerPthreadInfo)
    (elemMat : List Int) (ph : Phase) (h0 : phaseTotal tacs pinfo ph = 0)
    (sched : List Nat) (w : Nat) :
    workerTrace tacs pinfo elemMat ph
        (claimsOf w (runClaims (phaseTotal tacs pinfo ph) 0 sched)) =
      (match ph with
        | Phase.functionEvaluation =>
          (List.range pinfo.functions.length).map Event.preEvalThread ++
            (List.range pinfo.functions.length).map Event.postEvalThread
        | Phase.adjointProduct =>
          [Event.mergeDVSens (pinfo.numAdjoints * pinfo.numDesignVars)]
        | Phase.designSensitivity =>
          [Event.mergeDVSens (pinfo.functions.length * pinfo.numDesignVars)]
        | _ => []) ∧
    ∀ (n : Nat) (shared : Nat → Int),
      mergeDVSens n shared
        (workerFdvSens tacs pinfo ph
          (claimsOf w (runClaims (phaseTotal tacs pinfo ph) 0 sched))) = shared := by
  rw [h0]
  have hneg := claims_of_empty sched w
  cases ph with
  | residual =>
    exact ⟨assembleRes_loop_neg tacs _ 0 hneg, fun n sh => mergeDVSens_zero n sh⟩
  | tangent =>
    exact ⟨assembleJacobian_loop_neg tacs pinfo _ 0 hneg, fun n sh => mergeDVSens_zero n sh⟩
  | typedMatrix =>
    exact ⟨assembleMatType_loop_neg tacs pinfo _ elemMat hneg,
      fun n sh => mergeDVSens_zero n sh⟩
  | adjointProduct =>
    have hl := adjointResProduct_loop_neg pinfo _ hneg
    constructor
    · simp only [workerTrace, adjointResProduct_thread, hl, List.nil_append]
    · intro n sh
      simp only [workerFdvSens, adjointResProduct_thread, hl, List.foldl_nil]
      exact mergeDVSens_zero n sh
  | functionEvaluation =>
    have hl := functionLoop_neg
      (evalFunctions_body pinfo.functions (funcElemDomainSize tacs.numElements pinfo.functions))
      pinfo.functions.length (fun s _ h => evalFunctions_body_neg _ _ s h) _ ⟨0, 0⟩ hneg
    constructor
    · simp only [workerTrace, evalFunctions_thread, evalFunctions_loop, hl, List.append_nil]
    · intro n sh
      exact mergeDVSens_zero n sh
  | designSensitivity =>
    have hl := functionLoop_neg
      (evalDVSens_body pinfo.functions (funcElemDomainSize tacs.numElements pinfo.functions))
      pinfo.functions.length (fun s _ h => evalDVSens_body_neg _ _ s h) _ ⟨0, 0⟩ hneg
    constructor
    · simp only [workerTrace, evalDVSens_thread, evalDVSens_loop, hl, List.nil_append]
    · intro n sh
      simp only [workerFdvSens, evalDVSens_thread, evalDVSens_loop, hl, List.foldl_nil]
      exact mergeDVSens_zero n sh

theorem empty_domain_noop_witness :
    phaseTotal auxTacs emptyInfo Phase.functionEvaluation = 0 ∧
    (workerTrace auxTacs emptyInfo [] Phase.functionEvaluation
        (claimsOf 0 (runClaims (phaseTotal auxTacs emptyInfo Phase.functionEvaluation) 0
          [0, 1])) =
      (match Phase.functionEvaluation with
        | Phase.functionEvaluation =>
          (List.range emptyInfo.functions.length).map Event.preEvalThread ++
            (List.range emptyInfo.functions.length).map Event.postEvalThread
        | Phase.adjointProduct =>
          [Event.mergeDVSens (emptyInfo.numAdjoints * emptyInfo.numDesignVars)]
        | Phase.designSensitivity =>
          [Event.mergeDVSens (emptyInfo.functions.length * emptyInfo.numDesignVars)]
        | _ => []) ∧
    ∀ (n : Nat) (shared : Nat → Int),
      mergeDVSens n shared
        (workerFdvSens auxTacs emptyInfo Phase.functionEvaluation
          (claimsOf 0 (runClaims (phaseTotal auxTacs emptyInfo Phase.functionEvaluation) 0
            [0, 1]))) = shared) :=
  ⟨by decide, empty_domain_noop auxTacs emptyInfo [] Phase.functionEvaluation (by decide)
    [0, 1] 0⟩

/-- C7 (as stated) fails for the function-evaluation phase: with one function
whose sub-domain is empty the total domain size is 0, yet the worker (which
makes no claim at all) calls the function's `preEvalThread` and
`postEvalThread` hooks. -/
theorem empty_domain_counterexample :
    phaseTotal auxTacs emptyInfo Phase.functionEvaluation = 0 ∧
    (workerTrace auxTacs emptyInfo [] Phase.functionEvaluation
        (claimsOf 0 (runClaims (phaseTotal auxTacs emptyInfo Phase.functionEvaluation) 0
          []))).filter Event.isKernelCall =
      [Event.preEvalThread 0, Event.postEvalThread 0] := by
  decide

/-! ### Typed-matrix assembly and `scaleFactor` -/

theorem assembleMatType_loop_scaleFactor (tacs : TACSAssembler)
    (pinfo : TACSAssemblerPthreadInfo) (sf : Int) :
    ∀ (items : List Int) (elemMat : List Int),
      assembleMatType_loop tacs { pinfo with scaleFactor := sf } elemMat items =
        assembleMatType_loop tacs pinfo elemMat items := by
  intro items
  induction items with
  | nil => intro _; rfl
  | cons e rest ih =>
    intro elemMat
    simp only [assembleMatType_loop, assembleMatType_body]
    split
    · simp only [ih]
    · simp only [ih]

/-- C8 (code at the failing input): with `scaleFactor = 2` and an element
whose matrix of the requested type is `[3]`, the worker adds `[3]` into the
matrix, not `[6]`; in general its steps do not depend on `scaleFactor`. -/
theorem assembleMatType_ignores_scaleFactor :
    unitInfo.scaleFactor = 2 ∧
    auxTacs.getMatType unitInfo.matType 3 [0] = [3] ∧
    assembleMatType_thread auxTacs unitInfo [0] [3] =
      [Event.getMatType 3, Event.addMatValues 3 [3]] ∧
    ∀ (tacs : TACSAssembler) (pinfo : TACSAssemblerPthreadInfo) (sf : Int)
      (elemMat : List Int) (items : List Int),
      assembleMatType_thread tacs { pinfo with scaleFactor := sf } elemMat items =
        assembleMatType_thread tacs pinfo elemMat items :=
  ⟨by decide, by decide, by decide,
    fun tacs pinfo sf elemMat items => assembleMatType_loop_scaleFactor tacs pinfo sf items elemMat⟩

/-! ### Lock discipline of the accesses to the counter -/

/-- The instrumented dispenser computes what `schedPthreadJob` computes. -/
theorem schedPthreadJob_traced_eq (s : SchedState) (total : Int) :
    (schedPthreadJob_traced s total).1 = (schedPthreadJob s.numCompletedElements total).1 ∧
    (schedPthreadJob_traced s total).2.numCompletedElements =
      (schedPthreadJob s.numCompletedElements total).2 ∧
    (schedPthreadJob_traced s total).2.locked = false := by
  by_cases h : s.numCompletedElements < total
  · simp [schedPthreadJob_traced, schedPthreadJob, SchedState.lock, SchedState.unlock,
      SchedState.readCounter, SchedState.writeCounter, h]
  · simp [schedPthreadJob_traced, schedPthreadJob, SchedState.lock, SchedState.unlock,
      SchedState.readCounter, SchedState.writeCounter, h]

theorem schedPthreadJob_traced_log (s : SchedState) (total : Int)
    (hs : ∀ a ∈ s.log, a.disciplined) :
    ∀ a ∈ (schedPthreadJob_traced s total).2.log, a.disciplined := by
  by_cases h : s.numCompletedElements < total
  · simp only [schedPthreadJob_traced, SchedState.lock, SchedState.unlock,
      SchedState.readCounter, SchedState.writeCounter, h, if_true]
    intro a ha
    simp only [List.mem_append, List.mem_singleton] at ha
    rcases ha with ((((ha | ha) | ha) | ha) | ha)
    · exact hs a ha
    all_goals subst ha; simp [CounterAccess.disciplined]
  · simp only [schedPthreadJob_traced, SchedState.lock, SchedState.unlock,
      SchedState.readCounter, h, if_false]
    intro a ha
    simp only [List.mem_append, List.mem_singleton] at ha
    rcases ha with ha | ha
    · exact hs a ha
    · subst ha; simp [CounterAccess.disciplined]

theorem loopCondition_log (s : SchedState) (g : Int) (hl : s.locked = false)
    (hs : ∀ a ∈ s.log, a.disciplined) :
    ((s.interfere g).readCounter AccessSite.loopCondition).2.locked = false ∧
    ∀ a ∈ ((s.interfere g).readCounter AccessSite.loopCondition).2.log, a.disciplined := by
  refine ⟨by simp [SchedState.readCounter, SchedState.interfere, hl], ?_⟩
  intro a ha
  simp only [SchedState.readCounter, SchedState.interfere, List.mem_append,
    List.mem_singleton] at ha
  rcases ha with ha | ha
  · exact hs a ha
  · subst ha; simp [CounterAccess.disciplined, hl]

theorem elementLoop_traced_log (total : Int) :
    ∀ (obs : List (Int × Int)) (s : SchedState), s.locked = false →
      (∀ a ∈ s.log, a.disciplined) →
      ∀ a ∈ (elementLoop_traced total obs s).log, a.disciplined := by
  intro obs
  induction obs with
  | nil => intro s _ hs; exact hs
  | cons o obs ih =>
    intro s hl hs
    obtain ⟨g, c⟩ := o
    obtain ⟨h1, h2⟩ := loopCondition_log s g hl hs
    simp only [elementLoop_traced]
    split
    · refine ih _ (schedPthreadJob_traced_eq _ total).2.2 ?_
      exact schedPthreadJob_traced_log _ total (by simpa [SchedState.interfere] using h2)
    · exact h2

theorem functionLoop_traced_log (total : Int) :
    ∀ (obs : List (Bool × Int × Int)) (s : SchedState), s.locked = false →
      (∀ a ∈ s.log, a.disciplined) →
      ∀ a ∈ (functionLoop_traced total obs s).log, a.disciplined := by
  intro obs
  induction obs with
  | nil => intro s _ hs; exact hs
  | cons o obs ih =>
    intro s hl hs
    obtain ⟨b, g, c⟩ := o
    obtain ⟨h1, h2⟩ := loopCondition_log s g hl hs
    simp only [functionLoop_traced]
    split
    · split
      · refine ih _ (schedPthreadJob_traced_eq _ total).2.2 ?_
        exact schedPthreadJob_traced_log _ total (by simpa [SchedState.interfere] using h2)
      · exact h2
    · exact hs

/-- C9 (as amended): in every worker function and under any interference by
other threads, every write of the shared counter is made inside
`schedPthreadJob`, every access inside `schedPthreadJob` is made holding
`sched_mutex`, and the accesses of the loop conditions are reads made without
the lock. -/
theorem counter_lock_discipline (ph : Phase) (total c0 : Int)
    (obs : List (Bool × Int × Int)) :
    ∀ a ∈ workerAccesses total c0 obs ph,
      (a.kind = AccessKind.write → a.site = AccessSite.dispenser) ∧
      (a.site = AccessSite.dispenser → a.locked = true) ∧
      (a.site = AccessSite.loopCondition → a.kind = AccessKind.read ∧ a.locked = false) := by
  have hempty : ∀ a ∈ (⟨c0, false, []⟩ : SchedState).log, a.disciplined := by
    intro a ha; simp at ha
  cases ph
  case functionEvaluation => exact functionLoop_traced_log total obs _ rfl hempty
  case designSensitivity => exact functionLoop_traced_log total obs _ rfl hempty
  all_goals exact elementLoop_traced_log total _ _ rfl hempty

theorem counter_lock_discipline_witness :
    (⟨AccessKind.write, AccessSite.dispenser, true⟩ : CounterAccess) ∈
      workerAccesses 1 0 [(true, 0, 0), (true, 1, 1)] Phase.residual ∧
    (((⟨AccessKind.write, AccessSite.dispenser, true⟩ : CounterAccess).kind =
        AccessKind.write →
      (⟨AccessKind.write, AccessSite.dispenser, true⟩ : CounterAccess).site =
        AccessSite.dispenser) ∧
    ((⟨AccessKind.write, AccessSite.dispenser, true⟩ : CounterAccess).site =
        AccessSite.dispenser →
      (⟨AccessKind.write, AccessSite.dispenser, true⟩ : CounterAccess).locked = true) ∧
    ((⟨AccessKind.write, AccessSite.dispenser, true⟩ : CounterAccess).site =
        AccessSite.loopCondition →
      (⟨AccessKind.write, AccessSite.dispenser, true⟩ : CounterAccess).kind =
        AccessKind.read ∧
      (⟨AccessKind.write, AccessSite.dispenser, true⟩ : CounterAccess).locked = false)) :=
  ⟨by decide,
    counter_lock_discipline Phase.residual 1 0 [(true, 0, 0), (true, 1, 1)] _ (by decide)⟩

/-- C9 (as stated) fails: a residual worker on one element, run alone from
counter 0, reads the counter in its loop condition without holding
`sched_mutex`, before and after its claim. -/
theorem counter_lock_counterexample :
    workerAccesses 1 0 [(true, 0, 0), (true, 1, 1)] Phase.residual =
      [⟨AccessKind.read, AccessSite.loopCondition, false⟩,
       ⟨AccessKind.read, AccessSite.dispenser, true⟩,
       ⟨AccessKind.read, AccessSite.dispenser, true⟩,
       ⟨AccessKind.read, AccessSite.dispenser, true⟩,
       ⟨AccessKind.write, AccessSite.dispenser, true⟩,
       ⟨AccessKind.read, AccessSite.loopCondition, false⟩] ∧
    ¬ ∀ a ∈ workerAccesses 1 0 [(true, 0, 0), (true, 1, 1)] Phase.residual,
      a.locked = true := by
  decide

/-! ### Thread-local sensitivities -/

theorem addRow_apply (buf : Nat → Int) (row numDVs : Nat) (c : Nat → Int) (i : Nat) :
    addRow buf row numDVs c i = buf i + rowAt row numDVs c i := by
  unfold addRow rowAt
  split <;> simp

theorem sensKernel_apply (tacs : TACSAssembler) (numDVs : Nat) (buf : Nat → Int)
    (ev : Event) (i : Nat) :
    sensKernel tacs numDVs buf ev i = buf i + sensContribution tacs numDVs i ev := by
  cases ev <;> simp [sensKernel, sensContribution, addRow_apply]

/-- The private buffer after a sequence of kernel calls. -/
theorem sensKernel_foldl (tacs : TACSAssembler) (numDVs : Nat) (i : Nat)
    (evs : List Event) :
    ∀ buf : Nat → Int,
      (evs.foldl (sensKernel tacs numDVs) buf) i =
        buf i + (evs.map (sensContribution tacs numDVs i)).sum := by
  induction evs with
  | nil => intro buf; simp
  | cons ev evs ih =>
    intro buf
    rw [List.foldl_cons, ih, sensKernel_apply]
    simp [add_assoc]

/-- The shared buffer after a sequence of final merges. -/
theorem sharedFdvSens_apply (n : Nat) (i : Nat) (locals : List (Nat → Int)) :
    ∀ init : Nat → Int,
      sharedFdvSens n init locals i =
        if i < n then init i + (locals.map (fun l => l i)).sum else init i := by
  induction locals with
  | nil => intro init; simp [sharedFdvSens]
  | cons l ls ih =>
    intro init
    have h := ih (mergeDVSens n init l)
    unfold sharedFdvSens at h ⊢
    rw [List.foldl_cons, h, mergeDVSens_apply]
    by_cases hi : i < n
    · simp [hi, add_assoc]
    · simp [hi]

theorem adjointResProduct_loop_eq (pinfo : TACSAssemblerPthreadInfo) (items : List Int) :
    adjointResProduct_loop pinfo items =
      (items.filter (fun r => decide (0 ≤ r))).flatMap (fun e =>
        (List.range pinfo.numAdjoints).map (fun k => Event.addAdjResProduct e k)) := by
  unfold adjointResProduct_loop
  induction items with
  | nil => rfl
  | cons e rest ih =>
    by_cases h : 0 ≤ e
    · simp [List.flatMap_cons, List.filter_cons, adjointResProduct_body, h, ih]
    · simp [List.flatMap_cons, List.filter_cons, adjointResProduct_body, h, ih]

/-- The calls made for a flat index are determined by the specification of
the Domain Mapper. -/
theorem resolvedCall_unique {funcs : List TACSFunction} {off : List Int} {numElements : Int}
    {call : Nat → Int → Nat → Event} {item : Int} {evs evs' : List Event}
    (h : ResolvedCall funcs off numElements call item evs)
    (h' : ResolvedCall funcs off numElements call item evs') : evs = evs' := by
  obtain ⟨k, hk, h1, h2, hu, _, _, hE, hS, hO⟩ := h
  obtain ⟨k', hk', h1', h2', _, _, _, hE', hS', hO'⟩ := h'
  have hkk : k' = k := hu k' hk' h1' h2'
  subst hkk
  cases hd : (funcAt funcs k').getDomain with
  | ENTIRE_DOMAIN => rw [hE hd, hE' hd]
  | SUB_DOMAIN =>
    obtain ⟨e, he, hev⟩ := hS hd
    obtain ⟨e', he', hev'⟩ := hS' hd
    rw [he] at he'
    cases he'
    rw [hev, hev']
  | NO_DOMAIN => rw [hO hd, hO' hd]

theorem dvSensUnit_resolved (tacs : TACSAssembler) (pinfo : TACSAssemblerPthreadInfo)
    (hn : 0 ≤ tacs.numElements) {item : Int} (h0 : 0 ≤ item)
    (hlt : item < totalSize tacs.numElements pinfo.functions) :
    ResolvedCall pinfo.functions (funcElemDomainSize tacs.numElements pinfo.functions)
      tacs.numElements Event.elementWiseDVSens item (dvSensUnit tacs pinfo item) := by
  have hz := funcElemDomainSize_zero tacs.numElements pinfo.functions
  have hm : 0 < pinfo.functions.length := by
    rcases Nat.eq_zero_or_pos pinfo.functions.length with hm | hm
    · unfold totalSize at hlt
      rw [hm] at hlt
      omega
    · exact hm
  obtain ⟨k', evs, hb, _, _, hR⟩ := evalDVSens_body_spec tacs.numElements hn pinfo.functions
    hm h0 (by omega) hlt
  unfold dvSensUnit
  rw [hb]
  exact hR

theorem flatMap_snd_eq (loop : List (Int × List Event)) (unit : Int → List Event)
    (h : ∀ it ∈ loop, (0 ≤ it.1 → it.2 = unit it.1) ∧ (it.1 < 0 → it.2 = [])) :
    loop.flatMap Prod.snd =
      ((loop.map Prod.fst).filter (fun r => decide (0 ≤ r))).flatMap unit := by
  induction loop with
  | nil => rfl
  | cons it rest ih =>
    have hr := ih (fun x hx => h x (List.mem_cons_of_mem _ hx))
    obtain ⟨h1, h2⟩ := h it (List.mem_cons_self _ _)
    by_cases h0 : 0 ≤ it.1
    · simp [List.flatMap_cons, List.filter_cons, h0, h1 h0, hr]
    · simp [List.flatMap_cons, List.filter_cons, h0, h2 (by omega), hr]

/-- The kernel calls of a design-sensitivity worker are those of the units it
claims, in order. -/
theorem evalDVSens_loop_eq (tacs : TACSAssembler) (pinfo : TACSAssemblerPthreadInfo)
    (hn : 0 ≤ tacs.numElements)
    (hI : isInt (totalSize tacs.numElements pinfo.functions)) (sched : List Nat) (w : Nat) :
    (evalDVSens_loop tacs.numElements pinfo.functions
        (claimsOf w (runClaims (totalSize tacs.numElements pinfo.functions) 0 sched))).flatMap
          Prod.snd =
      ((claimsOf w (runClaims (totalSize tacs.numElements pinfo.functions) 0 sched)).filter
        (fun r => decide (0 ≤ r))).flatMap (dvSensUnit tacs pinfo) := by
  obtain ⟨h1, h2⟩ := functionLoop_claims tacs.numElements hn pinfo.functions hI
    (evalDVSens_body pinfo.functions (funcElemDomainSize tacs.numElements pinfo.functions))
    (ResolvedCall pinfo.functions (funcElemDomainSize tacs.numElements pinfo.functions)
      tacs.numElements Event.elementWiseDVSens)
    (fun _ _ hk h0 hge hlt =>
      evalDVSens_body_spec tacs.numElements hn pinfo.functions hk h0 hge hlt)
    (fun s _ h => evalDVSens_body_neg pinfo.functions _ s h) sched w
  have hrange := (claimsOf_sorted _ (totalSize_nonneg hn pinfo.functions) hI sched w).2
  unfold evalDVSens_loop
  rw [flatMap_snd_eq _ (dvSensUnit tacs pinfo), h1]
  intro it hit
  refine ⟨fun h0 => ?_, (h2 it hit).2⟩
  have hmem : it.1 ∈ (claimsOf w
      (runClaims (totalSize tacs.numElements pinfo.functions) 0 sched)).filter
        (fun r => decide (0 ≤ r)) := by
    rw [← h1]
    exact List.mem_filter.2 ⟨List.mem_map_of_mem _ hit, by simpa using h0⟩
  have hlt := hrange it.1 (List.mem_filter.1 hmem).1 h0
  exact resolvedCall_unique ((h2 it hit).1 h0) (dvSensUnit_resolved tacs pinfo hn h0 hlt)

/-- The shared sensitivity buffer after all workers of a completed phase have
merged, when every worker's kernel calls are those of the units it claimed:
the initial buffer plus the contributions of the units `0, ..., N-1`. -/
theorem reduction_closed_form (tacs : TACSAssembler) (numDVs n : Nat) (N : Int)
    (hN : 0 ≤ N) (hI : isInt N) (K : Nat) (sched : List Nat) (hw : ∀ w ∈ sched, w < K)
    (hdone : N.toNat ≤ sched.length) (unit : Int → List Event)
    (calls : Nat → List Event)
    (hcalls : ∀ w, calls w =
      ((claimsOf w (runClaims N 0 sched)).filter (fun r => decide (0 ≤ r))).flatMap unit)
    (order : List Nat) (hperm : List.Perm order (List.range K)) (init : Nat → Int) (i : Nat) :
    sharedFdvSens n init
        (order.map (fun w => (calls w).foldl (sensKernel tacs numDVs) (fun _ => 0))) i =
      if i < n then
        init i + ((List.range N.toNat).map (fun u : Nat =>
          ((unit u).map (sensContribution tacs numDVs i)).sum)).sum
      else init i := by
  rw [sharedFdvSens_apply]
  by_cases hi : i < n
  · simp only [hi, if_true]
    congr 1
    rw [List.map_map]
    have h1 : (order.map ((fun l : Nat → Int => l i) ∘
        fun w => (calls w).foldl (sensKernel tacs numDVs) (fun _ => 0))).sum =
        ((List.range K).map (fun w =>
          ((calls w).map (sensContribution tacs numDVs i)).sum)).sum := by
      rw [(hperm.map _).sum_eq]
      congr 1
      apply List.map_congr_left
      intro w _
      simp [Function.comp, sensKernel_foldl]
    rw [h1, ← sum_map_flatMap]
    have hall : (List.range K).flatMap calls =
        ((List.range K).flatMap (fun w =>
          (claimsOf w (runClaims N 0 sched)).filter (fun r => decide (0 ≤ r)))).flatMap
            unit := by
      rw [List.flatMap_assoc]
      apply List.flatMap_congr
      intro w _
      exact hcalls w
    have hp := (claims_partition N hN hI sched K hw hdone).flatMap_right unit
    rw [hall, ((hp.map (sensContribution tacs numDVs i)).sum_eq), sum_map_flatMap,
      List.map_map]
    rfl
  · simp [hi]

theorem evalDVSens_body_calls (funcs : List TACSFunction) (off : List Int) (s : FuncCursor)
    (item : Int) (r : FuncCursor × List Event)
    (h : evalDVSens_body funcs off s item = some r) :
    ∀ ev ∈ r.2, ev.isKernelCall = true := by
  unfold evalDVSens_body at h
  split at h
  · split at h
    · cases h
    · dsimp only at h
      split at h
      · cases h; intro ev hev; simp at hev; subst hev; rfl
      · split at h
        · cases h; intro ev hev; simp at hev; subst hev; rfl
        · cases h; intro ev hev; simp at hev
  · cases h; intro ev hev; simp at hev

theorem functionLoop_calls (body : FuncCursor → Int → Option (FuncCursor × List Event))
    (m : Nat)
    (hbody : ∀ s item r, body s item = some r → ∀ ev ∈ r.2, ev.isKernelCall = true) :
    ∀ (items : List Int) (s : FuncCursor),
      ∀ ev ∈ (functionLoop body m s items).flatMap Prod.snd, ev.isKernelCall = true := by
  intro items
  induction items with
  | nil => intro s ev hev; simp [functionLoop] at hev
  | cons item rest ih =>
    intro s ev hev
    unfold functionLoop at hev
    split at hev
    · cases hb : body s item with
      | none => rw [hb] at hev; simp at hev
      | some r =>
        rw [hb] at hev
        simp only [List.flatMap_cons, List.mem_append] at hev
        rcases hev with h | h
        · exact hbody s item r hb ev h
        · exact ih r.1 ev h
    · simp at hev

/-- C10: in the adjoint-product and the design-sensitivity phase every worker
makes its kernel calls into a private buffer that starts at zero and then
merges that buffer into `pinfo->fdvSens` exactly once, as its last step.
Hence, for every pool size, every order `sched` of the claims of a completed
phase and every order of the merges, the shared buffer ends as its initial
value plus, for every unit, the contribution of the unit's kernel calls to the
rows they are given (adjoint vector `k`, resp. the quantity the flat index
resolves to); a worker that claimed no unit leaves it unchanged. -/
theorem thread_local_reduction (tacs : TACSAssembler) (pinfo : TACSAssemblerPthreadInfo)
    (hN : 0 ≤ tacs.numElements) (hI : isInt tacs.numElements)
    (hT : isInt (totalSize tacs.numElements pinfo.functions))
    (K : Nat) (sched : List Nat) (hw : ∀ w ∈ sched, w < K)
    (hdoneA : tacs.numElements.toNat ≤ sched.length)
    (hdoneF : (totalSize tacs.numElements pinfo.functions).toNat ≤ sched.length)
    (order : List Nat) (hperm : List.Perm order (List.range K)) (init : Nat → Int) :
    (∀ items : List Int,
      (adjointResProduct_thread tacs pinfo items).2 =
        adjointResProduct_loop pinfo items ++
          [Event.mergeDVSens (pinfo.numAdjoints * pinfo.numDesignVars)] ∧
      (∀ ev ∈ adjointResProduct_loop pinfo items, ev.isKernelCall = true) ∧
      ∀ i, (adjointResProduct_thread tacs pinfo items).1 i =
        ((adjointResProduct_loop pinfo items).map
          (sensContribution tacs pinfo.numDesignVars i)).sum) ∧
    (∀ i, sharedFdvSens (pinfo.numAdjoints * pinfo.numDesignVars) init
        (order.map (fun w => (adjointResProduct_thread tacs pinfo
          (claimsOf w (runClaims tacs.numElements 0 sched))).1)) i =
      if i < pinfo.numAdjoints * pinfo.numDesignVars then
        init i + ((List.range tacs.numElements.toNat).map (fun e : Nat =>
          ((List.range pinfo.numAdjoints).map (fun k =>
            rowAt k pinfo.numDesignVars (tacs.adjResProduct e k) i)).sum)).sum
      else init i) ∧
    (∀ items : List Int,
      (evalDVSens_thread tacs pinfo items).2 =
        (evalDVSens_loop tacs.numElements pinfo.functions items).flatMap Prod.snd ++
          [Event.mergeDVSens (pinfo.functions.length * pinfo.numDesignVars)] ∧
      (∀ ev ∈ (evalDVSens_loop tacs.numElements pinfo.functions items).flatMap Prod.snd,
        ev.isKernelCall = true) ∧
      ∀ i, (evalDVSens_thread tacs pinfo items).1 i =
        (((evalDVSens_loop tacs.numElements pinfo.functions items).flatMap Prod.snd).map
          (sensContribution tacs pinfo.numDesignVars i)).sum) ∧
    (∀ i, sharedFdvSens (pinfo.functions.length * pinfo.numDesignVars) init
        (order.map (fun w => (evalDVSens_thread tacs pinfo
          (claimsOf w (runClaims (totalSize tacs.numElements pinfo.functions) 0 sched))).1)) i =
      if i < pinfo.functions.length * pinfo.numDesignVars then
        init i + ((List.range (totalSize tacs.numElements pinfo.functions).toNat).map
          (fun u : Nat => ((dvSensUnit tacs pinfo u).map
            (sensContribution tacs pinfo.numDesignVars i)).sum)).sum
      else init i) ∧
    (∀ u : Int, 0 ≤ u → u < totalSize tacs.numElements pinfo.functions →
      ResolvedCall pinfo.functions (funcElemDomainSize tacs.numElements pinfo.functions)
        tacs.numElements Event.elementWiseDVSens u (dvSensUnit tacs pinfo u)) ∧
    (∀ (items : List Int) (shared : Nat → Int), (∀ x ∈ items, x < 0) →
      mergeDVSens (pinfo.numAdjoints * pinfo.numDesignVars) shared
        (adjointResProduct_thread tacs pinfo items).1 = shared ∧
      mergeDVSens (pinfo.functions.length * pinfo.numDesignVars) shared
        (evalDVSens_thread tacs pinfo items).1 = shared) := by
  refine ⟨?_, ?_, ?_, ?_, ?_, ?_⟩
  · intro items
    refine ⟨rfl, ?_, ?_⟩
    · intro ev hev
      rw [adjointResProduct_loop_eq] at hev
      obtain ⟨e, _, he⟩ := List.mem_flatMap.1 hev
      obtain ⟨k, _, hk⟩ := List.mem_map.1 he
      subst hk; rfl
    · intro i
      simp only [adjointResProduct_thread]
      rw [sensKernel_foldl]
      simp
  · intro i
    have h := reduction_closed_form tacs pinfo.numDesignVars
      (pinfo.numAdjoints * pinfo.numDesignVars) tacs.numElements hN hI K sched hw hdoneA
      (fun e => (List.range pinfo.numAdjoints).map (fun k => Event.addAdjResProduct e k))
      (fun w => adjointResProduct_loop pinfo (claimsOf w (runClaims tacs.numElements 0 sched)))
      (fun w => adjointResProduct_loop_eq pinfo _) order hperm init i
    simp only [adjointResProduct_thread]
    rw [h]
    simp only [List.map_map]
    rfl
  · intro items
    refine ⟨rfl, ?_, ?_⟩
    · exact functionLoop_calls _ _
        (fun s item r h => evalDVSens_body_calls _ _ s item r h) items ⟨0, 0⟩
    · intro i
      simp only [evalDVSens_thread]
      rw [sensKernel_foldl]
      simp
  · intro i
    have h := reduction_closed_form tacs pinfo.numDesignVars
      (pinfo.functions.length * pinfo.numDesignVars)
      (totalSize tacs.numElements pinfo.functions) (totalSize_nonneg hN pinfo.functions) hT
      K sched hw hdoneF (dvSensUnit tacs pinfo)
      (fun w => (evalDVSens_loop tacs.numElements pinfo.functions
        (claimsOf w (runClaims (totalSize tacs.numElements pinfo.functions) 0 sched))).flatMap
          Prod.snd)
      (fun w => evalDVSens_loop_eq tacs pinfo hN hT sched w) order hperm init i
    simp only [evalDVSens_thread]
    rw [h]
  · intro u h0 hlt
    exact dvSensUnit_resolved tacs pinfo hN h0 hlt
  · intro items shared hneg
    constructor
    · simp only [adjointResProduct_thread, adjointResProduct_loop_neg pinfo items hneg,
        List.foldl_nil]
      exact mergeDVSens_zero _ shared
    · have hl := functionLoop_neg
        (evalDVSens_body pinfo.functions
          (funcElemDomainSize tacs.numElements pinfo.functions))
        pinfo.functions.length (fun s _ h => evalDVSens_body_neg _ _ s h) items ⟨0, 0⟩ hneg
      simp only [evalDVSens_thread, evalDVSens_loop, hl, List.foldl_nil]
      exact mergeDVSens_zero _ shared

theorem thread_local_reduction_witness :
    ((0 : Int) ≤ auxTacs.numElements ∧ isInt auxTacs.numElements ∧
      isInt (totalSize auxTacs.numElements unitInfo.functions) ∧
      (∀ w ∈ [0, 1, 1, 0, 1, 0, 0, 1, 0], w < 2) ∧
      auxTacs.numElements.toNat ≤ [0, 1, 1, 0, 1, 0, 0, 1, 0].length ∧
      (totalSize auxTacs.numElements unitInfo.functions).toNat ≤
        [0, 1, 1, 0, 1, 0, 0, 1, 0].length ∧
      List.Perm [1, 0] (List.range 2)) ∧
    (∀ i, sharedFdvSens (unitInfo.numAdjoints * unitInfo.numDesignVars) (fun _ => 0)
        ([1, 0].map (fun w => (adjointResProduct_thread auxTacs unitInfo
          (claimsOf w (runClaims auxTacs.numElements 0 [0, 1, 1, 0, 1, 0, 0, 1, 0]))).1)) i =
      if i < unitInfo.numAdjoints * unitInfo.numDesignVars then
        (fun _ => 0) i + ((List.range auxTacs.numElements.toNat).map (fun e : Nat =>
          ((List.range unitInfo.numAdjoints).map (fun k =>
            rowAt k unitInfo.numDesignVars (auxTacs.adjResProduct e k) i)).sum)).sum
      else (fun _ => 0) i) ∧
    (∀ i, sharedFdvSens (unitInfo.functions.length * unitInfo.numDesignVars) (fun _ => 0)
        ([1, 0].map (fun w => (evalDVSens_thread auxTacs unitInfo
          (claimsOf w (runClaims (totalSize auxTacs.numElements unitInfo.functions) 0
            [0, 1, 1, 0, 1, 0, 0, 1, 0]))).1)) i =
      if i < unitInfo.functions.length * unitInfo.numDesignVars then
        (fun _ => 0) i +
          ((List.range (totalSize auxTacs.numElements unitInfo.functions).toNat).map
            (fun u : Nat => ((dvSensUnit auxTacs unitInfo u).map
              (sensContribution auxTacs unitInfo.numDesignVars i)).sum)).sum
      else (fun _ => 0) i) ∧
    sharedFdvSens (unitInfo.numAdjoints * unitInfo.numDesignVars) (fun _ => 0)
        ([1, 0].map (fun w => (adjointResProduct_thread auxTacs unitInfo
          (claimsOf w (runClaims auxTacs.numElements 0 [0, 1, 1, 0, 1, 0, 0, 1, 0]))).1)) 3 =
      (0 + 10 + 100) + (1 + 10 + 100) + (2 + 10 + 100) + (3 + 10 + 100) + (4 + 10 + 100) :=
  ⟨⟨by decide, by decide, by decide, by decide, by decide, by decide, List.Perm.swap 0 1 []⟩,
    (thread_local_reduction auxTacs unitInfo (by decide) (by decide) (by decide) 2
      [0, 1, 1, 0, 1, 0, 0, 1, 0] (by decide) (by decide) (by decide) [1, 0]
      (List.Perm.swap 0 1 []) (fun _ => 0)).2.1,
    (thread_local_reduction auxTacs unitInfo (by decide) (by decide) (by decide) 2
      [0, 1, 1, 0, 1, 0, 0, 1, 0] (by decide) (by decide) (by decide) [1, 0]
      (List.Perm.swap 0 1 []) (fun _ => 0)).2.2.2.1,
    by decide⟩

/-! ### Construction of the offset table -/

theorem rd_cons_succ (a : Int) (l : List Int) (k : Nat) : rd (a :: l) (k + 1) = rd l k := by
  simp [rd]

theorem rd_cons_zero (a : Int) (l : List Int) : rd (a :: l) 0 = a := by
  simp [rd]

theorem domainSizeLoop_length (numElements : Int) :
    ∀ (fs : List TACSFunction) (t : Int), (domainSizeLoop numElements fs t).length = fs.length := by
  intro fs
  induction fs with
  | nil => intro t; rfl
  | cons f fs ih => intro t; simp [domainSizeLoop, ih]

theorem domainSizeLoop_step {numElements : Int} (hn : 0 ≤ numElements)
    (fs : List TACSFunction) (t : Int) :
    ∀ k, k < fs.length →
      rd (t :: domainSizeLoop numElements fs t) k ≤
        rd (t :: domainSizeLoop numElements fs t) (k + 1) := by
  intro k hk
  rw [domainSizeLoop_succ numElements fs t k hk]
  have := domainSize_nonneg hn (funcAt fs k)
  omega

theorem totalSizeLoop_eq (numElements : Int) :
    ∀ (fs : List TACSFunction) (t : Int),
      totalSizeLoop numElements fs t = rd (t :: domainSizeLoop numElements fs t) fs.length := by
  intro fs
  induction fs with
  | nil => intro t; simp [totalSizeLoop, domainSizeLoop, rd]
  | cons f fs ih =>
    intro t
    simp only [totalSizeLoop, domainSizeLoop, List.length_cons, rd_cons_succ]
    exact ih _

/-- While the final total is representable as a C `int`, the table computed
in `int` arithmetic is the table computed in the integers. -/
theorem domainSizeLoopInt_eq {numElements : Int} (hn : 0 ≤ numElements) :
    ∀ (fs : List TACSFunction) (t : Int), 0 ≤ t →
      isInt (rd (t :: domainSizeLoop numElements fs t) fs.length) →
      domainSizeLoopInt numElements fs t = domainSizeLoop numElements fs t := by
  intro fs
  induction fs with
  | nil => intro t _ _; rfl
  | cons f fs ih =>
    intro t ht hI
    have hd := domainSize_nonneg hn f
    simp only [domainSizeLoop, List.length_cons, rd_cons_succ] at hI
    have hmono := offsets_mono (domainSizeLoop_step hn fs (t + domainSize numElements f))
      fs.length (le_refl _) 0 (Nat.zero_le _)
    rw [rd_cons_zero] at hmono
    have hw : wrapInt (t + domainSize numElements f) = t + domainSize numElements f :=
      wrapInt_of_isInt ⟨by omega, by have := hI.2; omega⟩
    simp only [domainSizeLoopInt, domainSizeLoop, hw]
    rw [ih _ (by omega) hI]

/-- C12: the table built by `evalFunctions_thread` and `evalDVSens_thread` has
`numFuncs + 1` entries, starts with `offset[0] = 0`, satisfies
`offset[k+1] = offset[k] + domainSize(k)` where `domainSize(k)` is the
sub-list length for a sub-domain function and `numElements` otherwise, is
non-decreasing, and its last entry is the final value of `totalSize`; as long
as that value fits a C `int`, the `int` arithmetic of the loop does not wrap. -/
theorem offset_table_construction (numElements : Int) (hn : 0 ≤ numElements)
    (funcs : List TACSFunction) :
    (funcElemDomainSize numElements funcs).length = funcs.length + 1 ∧
    rd (funcElemDomainSize numElements funcs) 0 = 0 ∧
    (∀ k, k < funcs.length →
      rd (funcElemDomainSize numElements funcs) (k + 1) =
        rd (funcElemDomainSize numElements funcs) k +
          domainSize numElements (funcAt funcs k)) ∧
    (∀ k, ((funcAt funcs k).getDomain = FunctionDomain.SUB_DOMAIN →
        domainSize numElements (funcAt funcs k) = ((funcAt funcs k).elemSubList.length : Int)) ∧
      ((funcAt funcs k).getDomain ≠ FunctionDomain.SUB_DOMAIN →
        domainSize numElements (funcAt funcs k) = numElements)) ∧
    (∀ j k, j ≤ k → k ≤ funcs.length →
      rd (funcElemDomainSize numElements funcs) j ≤
        rd (funcElemDomainSize numElements funcs) k) ∧
    totalSizeLoop numElements funcs 0 =
      rd (funcElemDomainSize numElements funcs) funcs.length ∧
    totalSize numElements funcs = totalSizeLoop numElements funcs 0 ∧
    (isInt (totalSizeLoop numElements funcs 0) →
      0 :: domainSizeLoopInt numElements funcs 0 = funcElemDomainSize numElements funcs) := by
  refine ⟨?_, funcElemDomainSize_zero numElements funcs,
    fun k hk => funcElemDomainSize_succ numElements funcs k hk, ?_, ?_,
    totalSizeLoop_eq numElements funcs 0, (totalSizeLoop_eq numElements funcs 0).symm, ?_⟩
  · simp [funcElemDomainSize, domainSizeLoop_length]
  · intro k
    constructor
    · intro h; simp [domainSize, h]
    · intro h; simp [domainSize, h]
  · intro j k hjk hk
    exact offsets_mono (funcElemDomainSize_step hn funcs) k hk j hjk
  · intro hI
    rw [totalSizeLoop_eq] at hI
    unfold funcElemDomainSize
    rw [domainSizeLoopInt_eq hn funcs 0 (le_refl 0) hI]

theorem offset_table_construction_witness :
    ((0 : Int) ≤ 7) ∧
    ((funcElemDomainSize 7 twoFuncs).length = twoFuncs.length + 1 ∧
    rd (funcElemDomainSize 7 twoFuncs) 0 = 0 ∧
    (∀ k, k < twoFuncs.length →
      rd (funcElemDomainSize 7 twoFuncs) (k + 1) =
        rd (funcElemDomainSize 7 twoFuncs) k + domainSize 7 (funcAt twoFuncs k)) ∧
    (∀ k, ((funcAt twoFuncs k).getDomain = FunctionDomain.SUB_DOMAIN →
        domainSize 7 (funcAt twoFuncs k) = ((funcAt twoFuncs k).elemSubList.length : Int)) ∧
      ((funcAt twoFuncs k).getDomain ≠ FunctionDomain.SUB_DOMAIN →
        domainSize 7 (funcAt twoFuncs k) = 7)) ∧
    (∀ j k, j ≤ k → k ≤ twoFuncs.length →
      rd (funcElemDomainSize 7 twoFuncs) j ≤ rd (funcElemDomainSize 7 twoFuncs) k) ∧
    totalSizeLoop 7 twoFuncs 0 = rd (funcElemDomainSize 7 twoFuncs) twoFuncs.length ∧
    totalSize 7 twoFuncs = totalSizeLoop 7 twoFuncs 0 ∧
    (isInt (totalSizeLoop 7 twoFuncs 0) →
      0 :: domainSizeLoopInt 7 twoFuncs 0 = funcElemDomainSize 7 twoFuncs)) ∧
    funcElemDomainSize 7 twoFuncs = [0, 7, 9] ∧
    0 :: domainSizeLoopInt 7 twoFuncs 0 = [0, 7, 9] :=
  ⟨by decide, offset_table_construction 7 (by decide) twoFuncs, by decide, by decide⟩

/-! ### Typed-matrix assembly writes the matrix only -/

theorem assembleMatType_loop_shape (tacs : TACSAssembler) (pinfo : TACSAssemblerPthreadInfo) :
    ∀ (items : List Int) (elemMat : List Int),
      (assembleMatType_loop tacs pinfo elemMat items).filterMap Event.matElem =
        items.filter (fun r => decide (0 ≤ r)) ∧
      (∀ ev ∈ assembleMatType_loop tacs pinfo elemMat items,
        (∃ e, ev = Event.getMatType e) ∨ (∃ e m, ev = Event.addMatValues e m)) := by
  intro items
  induction items with
  | nil => intro _; simp [assembleMatType_loop]
  | cons e rest ih =>
    intro elemMat
    by_cases h0 : 0 ≤ e
    · obtain ⟨h1, h2⟩ := ih (tacs.getMatType pinfo.matType e elemMat)
      constructor
      · simp [assembleMatType_loop, assembleMatType_body, h0, List.filter_cons,
          List.filterMap_cons, Event.matElem, h1]
      · intro ev hev
        simp only [assembleMatType_loop, assembleMatType_body, ge_iff_le, h0, if_true,
          List.cons_append, List.nil_append, List.mem_cons] at hev
        rcases hev with h | h | h
        · exact Or.inl ⟨e, h⟩
        · exact Or.inr ⟨e, _, h⟩
        · exact h2 ev h
    · obtain ⟨h1, h2⟩ := ih elemMat
      constructor
      · simp [assembleMatType_loop, assembleMatType_body, h0, List.filter_cons, h1]
      · intro ev hev
        simp only [assembleMatType_loop, assembleMatType_body, ge_iff_le, h0, if_false,
          List.nil_append] at hev
        exact h2 ev hev

theorem finalResidual_unchanged (dofs : Int → List Nat) (trace : List Event)
    (h : ∀ ev ∈ trace, ∀ e r, ev ≠ Event.addValues e r) :
    ∀ init : Nat → Int, finalResidual dofs init trace = init := by
  induction trace with
  | nil => intro init; rfl
  | cons ev evs ih =>
    intro init
    have h1 : applyEvent dofs init ev = init := by
      cases ev with
      | addValues e r => exact absurd rfl (h _ (List.mem_cons_self _ _) e r)
      | _ => rfl
    have h2 := ih (fun x hx => h x (List.mem_cons_of_mem _ hx)) init
    simp only [finalResidual, List.foldl_cons, h1] at h2 ⊢
    exact h2

/-- C13: whatever indices the worker is handed, `assembleMatType_thread` makes
exactly one matrix scatter-add `addMatValues` for every claimed element, in
claim order; all its other steps are `getMatType` kernel calls, so it makes no
auxiliary call, no residual scatter-add and no merge, and the shared residual
vector `localRes` is left as it was. -/
theorem matType_writes_matrix_only (tacs : TACSAssembler) (pinfo : TACSAssemblerPthreadInfo)
    (elemMat : List Int) (items : List Int) :
    (assembleMatType_thread tacs pinfo elemMat items).filterMap Event.matElem =
      items.filter (fun r => decide (0 ≤ r)) ∧
    (∀ ev ∈ assembleMatType_thread tacs pinfo elemMat items,
      (∃ e, ev = Event.getMatType e) ∨ (∃ e m, ev = Event.addMatValues e m)) ∧
    (assembleMatType_thread tacs pinfo elemMat items).filterMap Event.auxCall = [] ∧
    ∀ (dofs : Int → List Nat) (init : Nat → Int),
      finalResidual dofs init (assembleMatType_thread tacs pinfo elemMat items) = init := by
  obtain ⟨h1, h2⟩ := assembleMatType_loop_shape tacs pinfo items elemMat
  refine ⟨h1, h2, ?_, ?_⟩
  · rw [List.filterMap_eq_nil_iff]
    intro ev hev
    rcases h2 ev hev with ⟨e, h⟩ | ⟨e, m, h⟩ <;> subst h <;> rfl
  · intro dofs init
    apply finalResidual_unchanged
    intro ev hev e r
    rcases h2 ev hev with ⟨e', h⟩ | ⟨e', m, h⟩ <;> subst h <;> simp

theorem matType_writes_matrix_only_witness :
    ((assembleMatType_thread auxTacs unitInfo [0] [0, 1, -1]).filterMap Event.matElem =
      ([0, 1, -1] : List Int).filter (fun r => decide (0 ≤ r)) ∧
    (∀ ev ∈ assembleMatType_thread auxTacs unitInfo [0] [0, 1, -1],
      (∃ e, ev = Event.getMatType e) ∨ (∃ e m, ev = Event.addMatValues e m)) ∧
    (assembleMatType_thread auxTacs unitInfo [0] [0, 1, -1]).filterMap Event.auxCall = [] ∧
    ∀ (dofs : Int → List Nat) (init : Nat → Int),
      finalResidual dofs init (assembleMatType_thread auxTacs unitInfo [0] [0, 1, -1]) = init) ∧
    assembleMatType_thread auxTacs unitInfo [0] [0, 1, -1] =
      [Event.getMatType 0, Event.addMatValues 0 [0], Event.getMatType 1,
        Event.addMatValues 1 [1]] :=
  ⟨matType_writes_matrix_only auxTacs unitInfo [0] [0, 1, -1], by decide⟩

/-! ### Per-worker order of the claims -/

theorem runClaims_negative_total (N : Int) (hI : isInt N) (hN : N < 0) (sched : List Nat) :
    ∀ r ∈ (runClaims N 0 sched).map Prod.snd, r = -1 := by
  intro r hr
  rw [runClaims_snd N hI sched 0 (by decide)] at hr
  obtain ⟨j, _, hj⟩ := List.mem_map.1 hr
  simp only [zero_add] at hj
  have h : ¬ (j : Int) < N := by omega
  rw [if_neg h] at hj
  exact hj.symm

/-- C17: in any serialised order of the workers' claims within one phase, the
successive non-sentinel indices returned to one and the same worker are
strictly increasing. -/
theorem per_worker_claims_increasing (N : Int) (hI : isInt N) (sched : List Nat) (w : Nat) :
    ((claimsOf w (runClaims N 0 sched)).filter (fun r => r != -1)).Pairwise (· < ·) := by
  have hsub : List.Sublist
      ((claimsOf w (runClaims N 0 sched)).filter (fun r => r != -1))
      (((runClaims N 0 sched).map Prod.snd).filter (fun r => r != -1)) :=
    (claimsOf_sublist w _).filter _
  refine List.Pairwise.sublist hsub ?_
  rcases lt_or_ge N 0 with hN | hN
  · have hnil : ((runClaims N 0 sched).map Prod.snd).filter (fun r => r != -1) = [] := by
      rw [List.filter_eq_nil_iff]
      intro r hr
      rw [runClaims_negative_total N hI hN sched r hr]
      decide
    rw [hnil]
    exact List.Pairwise.nil
  · rw [runClaims_claimed N hI sched 0 (le_refl 0) hN, List.pairwise_map]
    refine List.Pairwise.imp ?_ (List.pairwise_lt_range _)
    intro a b hab
    simp only [zero_add]
    exact_mod_cast hab

theorem per_worker_claims_increasing_witness :
    isInt 5 ∧
    ((claimsOf 1 (runClaims 5 0 [0, 1, 1, 0, 1, 0, 1, 1])).filter
      (fun r => r != -1)).Pairwise (· < ·) ∧
    claimsOf 1 (runClaims 5 0 [0, 1, 1, 0, 1, 0, 1, 1]) = [1, 2, 4, -1, -1] :=
  ⟨by decide, per_worker_claims_increasing 5 (by decide) [0, 1, 1, 0, 1, 0, 1, 1] 1,
    by decide⟩

/-! ### Layout of the scratch allocation -/

theorem scratch_pairwise (s n w : Nat) :
    ∀ ph : Phase, (scratchSlices s n w ph).Pairwise Slice.disjoint := by
  intro ph
  generalize hq : s * s = q
  cases ph <;>
    simp only [scratchSlices, assembleRes_slices, assembleJacobian_slices,
      assembleMatType_slices, hq, List.pairwise_cons, List.mem_cons, List.mem_singleton,
      List.not_mem_nil, forall_eq_or_imp, forall_eq, Slice.disjoint, Slice.stop,
      List.Pairwise.nil, false_implies, implies_true, and_true] <;>
    omega

theorem scratch_within (s n w : Nat) :
    ∀ ph : Phase, ∀ a ∈ scratchSlices s n w ph, a.stop ≤ scratchDataSize s n w ph := by
  intro ph
  generalize hq : s * s = q
  cases ph <;>
    simp only [scratchSlices, scratchDataSize, assembleRes_slices, assembleJacobian_slices,
      assembleMatType_slices, assembleRes_dataSize, assembleJacobian_dataSize,
      assembleMatType_dataSize, hq, List.mem_cons, List.mem_singleton, List.not_mem_nil,
      forall_eq_or_imp, forall_eq, Slice.stop, false_implies, implies_true, and_true] <;>
    omega

/-- C19: in the residual, tangent, typed-matrix and adjoint-product workers,
for all `s = maxElementSize`, `maxElementNodes` (`sx = 3*maxElementNodes`) and
`sw = maxElementIndepNodes`, the sub-buffers carved out of `data` are pairwise
disjoint index ranges and each ends at or before `dataSize`; whenever
`dataSize` fits a C `int`, so does every index computed for the layout. -/
theorem scratch_layout (s n w : Nat) (ph : Phase) :
    (scratchSlices s n w ph).Pairwise Slice.disjoint ∧
    (∀ a ∈ scratchSlices s n w ph, a.stop ≤ scratchDataSize s n w ph) ∧
    (isInt (scratchDataSize s n w ph : Int) →
      ∀ a ∈ scratchSlices s n w ph,
        wrapInt (a.start : Int) = (a.start : Int) ∧ wrapInt (a.stop : Int) = (a.stop : Int)) := by
  refine ⟨scratch_pairwise s n w ph, scratch_within s n w ph, ?_⟩
  intro hI a ha
  have h1 := scratch_within s n w ph a ha
  have h2 : a.start ≤ a.stop := Nat.le_add_right _ _
  have h3 := hI.2
  constructor
  · exact wrapInt_of_isInt ⟨by omega, by omega⟩
  · exact wrapInt_of_isInt ⟨by omega, by omega⟩

theorem scratch_layout_witness :
    ((scratchSlices 6 2 1 Phase.tangent).Pairwise Slice.disjoint ∧
    (∀ a ∈ scratchSlices 6 2 1 Phase.tangent, a.stop ≤ scratchDataSize 6 2 1 Phase.tangent) ∧
    (isInt (scratchDataSize 6 2 1 Phase.tangent : Int) →
      ∀ a ∈ scratchSlices 6 2 1 Phase.tangent,
        wrapInt (a.start : Int) = (a.start : Int) ∧
        wrapInt (a.stop : Int) = (a.stop : Int))) ∧
    scratchDataSize 6 2 1 Phase.tangent = 67 ∧
    scratchSlices 6 2 1 Phase.tangent =
      [⟨0, 6⟩, ⟨6, 6⟩, ⟨12, 6⟩, ⟨18, 6⟩, ⟨24, 6⟩, ⟨30, 1⟩, ⟨31, 36⟩] ∧
    scratchDataSize 6 2 1 Phase.typedMatrix = 61 ∧
    scratchSlices 6 2 1 Phase.typedMatrix = [⟨0, 6⟩, ⟨6, 6⟩, ⟨12, 6⟩, ⟨18, 1⟩, ⟨19, 36⟩] :=
  ⟨scratch_layout 6 2 1 Phase.tangent, by decide, by decide, by decide, by decide⟩

/-! ### The cached quantity -/

theorem findFunction_keep (off : List Int) (m : Nat) (c : Nat) (item : Int)
    (h : item < rd off (c + 1)) : findFunction off m ⟨c, c⟩ item = some ⟨c, c⟩ := by
  have h' : ¬ rd off (c + 1) ≤ item := by omega
  simp [findFunction, h']

/-- From a cached quantity `c < numFuncs` and a flat index `i` with
`offset[c] <= i < total`, the mapper ends up using the quantity `k >= c` with
`offset[k] <= i < offset[k+1]`, having kept `c` exactly when `i` lies in the
range of `c`, and the local index `i - offset[k]` is non-negative and smaller
than the domain size of `k`. -/
theorem findFunction_from_cache (numElements : Int) (hn : 0 ≤ numElements)
    (funcs : List TACSFunction) (c : Nat) (hc : c < funcs.length) (i : Int)
    (hge : rd (funcElemDomainSize numElements funcs) c ≤ i)
    (hlt : i < totalSize numElements funcs) :
    ∃ k, findFunction (funcElemDomainSize numElements funcs) funcs.length ⟨c, c⟩ i =
        some ⟨k, k⟩ ∧
      c ≤ k ∧ k < funcs.length ∧
      rd (funcElemDomainSize numElements funcs) k ≤ i ∧
      i < rd (funcElemDomainSize numElements funcs) (k + 1) ∧
      (k = c ↔ i < rd (funcElemDomainSize numElements funcs) (c + 1)) ∧
      0 ≤ i - rd (funcElemDomainSize numElements funcs) k ∧
      i - rd (funcElemDomainSize numElements funcs) k <
        domainSize numElements (funcAt funcs k) := by
  obtain ⟨k, hf, hck, hk, h1, h2⟩ :=
    findFunction_found (funcElemDomainSize_step hn funcs) hlt hc hge
  have hsucc := funcElemDomainSize_succ numElements funcs k hk
  refine ⟨k, hf, hck, hk, h1, h2, ?_, by omega, by omega⟩
  constructor
  · intro h; subst h; exact h2
  · intro h
    have hf' := findFunction_keep (funcElemDomainSize numElements funcs) funcs.length c i h
    rw [hf] at hf'
    cases hf'
    rfl

/-! ### The auxiliary merge on an arbitrary table -/

/-- The skip loop ends at the same position whether it starts at 0 or at a
cursor that has only passed entries below the current element. -/
theorem auxSkip_from_zero (aux : List Int) (e : Int) :
    ∀ c, c ≤ aux.length → (∀ j, j < c → rd aux j < e) →
      auxSkip aux e (aux.length - c) c = auxSkip aux e aux.length 0 := by
  intro c
  induction c with
  | zero => intro _ _; rfl
  | succ c ih =>
    intro hc hlt
    rw [← ih (by omega) (fun j hj => hlt j (by omega))]
    have hn : aux.length - c = (aux.length - (c + 1)) + 1 := by omega
    rw [hn]
    simp [auxSkip, hlt c (Nat.lt_succ_self c)]

theorem assembleRes_body_from_zero (tacs : TACSAssembler) {c : Nat} {e : Int}
    (hc : c ≤ tacs.aux.length) (hlt : ∀ j, j < c → rd tacs.aux j < e) :
    assembleRes_body tacs c e = (if 0 ≤ e then assembleRes_body tacs 0 e else (c, [])) := by
  by_cases h0 : 0 ≤ e
  · simp only [assembleRes_body, ge_iff_le, h0, if_true, Nat.sub_zero,
      auxSkip_from_zero tacs.aux e c hc hlt]
  · simp [assembleRes_body, h0]

theorem assembleJacobian_body_from_zero (tacs : TACSAssembler)
    (pinfo : TACSAssemblerPthreadInfo) {c : Nat} {e : Int}
    (hc : c ≤ tacs.aux.length) (hlt : ∀ j, j < c → rd tacs.aux j < e) :
    assembleJacobian_body tacs pinfo c e =
      (if 0 ≤ e then assembleJacobian_body tacs pinfo 0 e else (c, [])) := by
  by_cases h0 : 0 ≤ e
  · simp only [assembleJacobian_body, ge_iff_le, h0, if_true, Nat.sub_zero,
      auxSkip_from_zero tacs.aux e c hc hlt]
  · simp [assembleJacobian_body, h0]

/-- Shape of the steps for one element taken from cursor 0, for any table: the
auxiliary calls are made for a block `[q, q')` of positions holding `e`, all
positions before `q` holding smaller indices. -/
theorem residualUnit_shape (tacs : TACSAssembler) {e : Int} (h0 : 0 ≤ e) :
    ∃ q q' r, q ≤ q' ∧ q' ≤ tacs.aux.length ∧
      (∀ j, j < q → rd tacs.aux j < e) ∧ (∀ j, q ≤ j → j < q' → rd tacs.aux j = e) ∧
      (assembleRes_body tacs 0 e).1 = q' ∧
      residualUnit tacs e =
        Event.addResidual e :: (List.range' q (q' - q)).map (fun j => Event.auxAddResidual j e) ++
          [Event.addValues e r] := by
  obtain ⟨_, s2, s3, _⟩ := auxSkip_spec tacs.aux e (tacs.aux.length - 0) 0 rfl (Nat.zero_le _)
    (fun j hj => absurd hj (Nat.not_lt_zero j))
  obtain ⟨c', a1, a2, a3, _, a5⟩ := auxResidualLoop_spec tacs e
    (tacs.aux.length - auxSkip tacs.aux e (tacs.aux.length - 0) 0)
    (auxSkip tacs.aux e (tacs.aux.length - 0) 0)
    (tacs.addResidual e (List.replicate (tacs.numVariables e) 0)) rfl s2
  refine ⟨auxSkip tacs.aux e (tacs.aux.length - 0) 0, c',
    (List.range' (auxSkip tacs.aux e (tacs.aux.length - 0) 0)
      (c' - auxSkip tacs.aux e (tacs.aux.length - 0) 0)).foldl
        (fun r j => tacs.auxAddResidual j e r)
        (tacs.addResidual e (List.replicate (tacs.numVariables e) 0)),
    a1, a2, s3, a3, ?_, ?_⟩
  · simp only [assembleRes_body, ge_iff_le, h0, if_true, a5]
  · simp only [residualUnit, assembleRes_body, ge_iff_le, h0, if_true, a5]

theorem jacobianUnit_shape (tacs : TACSAssembler) (pinfo : TACSAssemblerPthreadInfo)
    {e : Int} (h0 : 0 ≤ e) :
    ∃ q q' r m, q ≤ q' ∧ q' ≤ tacs.aux.length ∧
      (∀ j, j < q → rd tacs.aux j < e) ∧ (∀ j, q ≤ j → j < q' → rd tacs.aux j = e) ∧
      (assembleJacobian_body tacs pinfo 0 e).1 = q' ∧
      jacobianUnit tacs pinfo e =
        Event.addResidual e :: Event.addJacobian e ::
          (List.range' q (q' - q)).flatMap
            (fun j => [Event.auxAddResidual j e, Event.auxAddJacobian j e]) ++
          [Event.addValues e r, Event.addMatValues e m] := by
  obtain ⟨_, s2, s3, _⟩ := auxSkip_spec tacs.aux e (tacs.aux.length - 0) 0 rfl (Nat.zero_le _)
    (fun j hj => absurd hj (Nat.not_lt_zero j))
  obtain ⟨c', a1, a2, a3, _, a5⟩ := auxJacobianLoop_spec tacs pinfo e
    (tacs.aux.length - auxSkip tacs.aux e (tacs.aux.length - 0) 0)
    (auxSkip tacs.aux e (tacs.aux.length - 0) 0)
    (tacs.addResidual e (List.replicate (tacs.numVariables e) 0))
    (tacs.addJacobian e pinfo.alpha pinfo.beta pinfo.gamma
      (List.replicate (tacs.numVariables e * tacs.numVariables e) 0)) rfl s2
  refine ⟨auxSkip tacs.aux e (tacs.aux.length - 0) 0, c',
    (List.range' (auxSkip tacs.aux e (tacs.aux.length - 0) 0)
      (c' - auxSkip tacs.aux e (tacs.aux.length - 0) 0)).foldl
        (fun r j => tacs.auxAddResidual j e r)
        (tacs.addResidual e (List.replicate (tacs.numVariables e) 0)),
    (List.range' (auxSkip tacs.aux e (tacs.aux.length - 0) 0)
      (c' - auxSkip tacs.aux e (tacs.aux.length - 0) 0)).foldl
        (fun r j => tacs.auxAddJacobian j e pinfo.alpha pinfo.beta pinfo.gamma r)
        (tacs.addJacobian e pinfo.alpha pinfo.beta pinfo.gamma
          (List.replicate (tacs.numVariables e * tacs.numVariables e) 0)),
    a1, a2, s3, a3, ?_, ?_⟩
  · simp only [assembleJacobian_body, ge_iff_le, h0, if_true, a5]
  · simp only [jacobianUnit, assembleJacobian_body, ge_iff_le, h0, if_true, a5]

theorem assembleRes_body_general (tacs : TACSAssembler) {c : Nat} {e : Int} (h0 : 0 ≤ e)
    (hc : c ≤ tacs.aux.length) (hlt : ∀ j, j < c → rd tacs.aux j < e) :
    (assembleRes_body tacs c e).2 = residualUnit tacs e ∧
    (assembleRes_body tacs c e).1 ≤ tacs.aux.length ∧
    ∀ j, j < (assembleRes_body tacs c e).1 → rd tacs.aux j ≤ e := by
  obtain ⟨q, q', r, _, h2, h3, h4, h5, _⟩ := residualUnit_shape tacs h0
  rw [assembleRes_body_from_zero tacs hc hlt, if_pos h0, h5]
  refine ⟨rfl, h2, ?_⟩
  intro j hj
  rcases Nat.lt_or_ge j q with h | h
  · exact le_of_lt (h3 j h)
  · exact le_of_eq (h4 j h hj)

theorem assembleJacobian_body_general (tacs : TACSAssembler)
    (pinfo : TACSAssemblerPthreadInfo) {c : Nat} {e : Int} (h0 : 0 ≤ e)
    (hc : c ≤ tacs.aux.length) (hlt : ∀ j, j < c → rd tacs.aux j < e) :
    (assembleJacobian_body tacs pinfo c e).2 = jacobianUnit tacs pinfo e ∧
    (assembleJacobian_body tacs pinfo c e).1 ≤ tacs.aux.length ∧
    ∀ j, j < (assembleJacobian_body tacs pinfo c e).1 → rd tacs.aux j ≤ e := by
  obtain ⟨q, q', r, m, _, h2, h3, h4, h5, _⟩ := jacobianUnit_shape tacs pinfo h0
  rw [assembleJacobian_body_from_zero tacs pinfo hc hlt, if_pos h0, h5]
  refine ⟨rfl, h2, ?_⟩
  intro j hj
  rcases Nat.lt_or_ge j q with h | h
  · exact le_of_lt (h3 j h)
  · exact le_of_eq (h4 j h hj)

/-- For any table, sorted or not, the steps of a residual worker are those of
the single-unit references of the elements it processes. -/
theorem assembleRes_thread_general (tacs : TACSAssembler) (items : List Int)
    (hpw : (items.filter (fun r => decide (0 ≤ r))).Pairwise (· < ·)) :
    assembleRes_thread tacs items =
      (items.filter (fun r => decide (0 ≤ r))).flatMap (residualUnit tacs) := by
  unfold assembleRes_thread
  refine mergeLoop_spec tacs.aux (assembleRes_body tacs) (assembleRes_loop tacs) _
    (fun _ => rfl) (fun _ _ _ => rfl)
    (fun c e h0 hc hlt => assembleRes_body_general tacs h0 hc hlt) ?_ items 0
    (Nat.zero_le _) hpw (fun _ _ _ j hj => absurd hj (Nat.not_lt_zero j))
  intro c e he
  have : ¬ 0 ≤ e := by omega
  simp [assembleRes_body, this]

theorem assembleJacobian_thread_general (tacs : TACSAssembler)
    (pinfo : TACSAssemblerPthreadInfo) (items : List Int)
    (hpw : (items.filter (fun r => decide (0 ≤ r))).Pairwise (· < ·)) :
    assembleJacobian_thread tacs pinfo items =
      (items.filter (fun r => decide (0 ≤ r))).flatMap (jacobianUnit tacs pinfo) := by
  unfold assembleJacobian_thread
  refine mergeLoop_spec tacs.aux (assembleJacobian_body tacs pinfo)
    (assembleJacobian_loop tacs pinfo) _
    (fun _ => rfl) (fun _ _ _ => rfl)
    (fun c e h0 hc hlt => assembleJacobian_body_general tacs pinfo h0 hc hlt) ?_ items 0
    (Nat.zero_le _) hpw (fun _ _ _ j hj => absurd hj (Nat.not_lt_zero j))
  intro c e he
  have : ¬ 0 ≤ e := by omega
  simp [assembleJacobian_body, this]

theorem filterMap_flatMap_unit {α : Type} (f : α → List Event) (g : Event → Option α)
    (L : List α) (h : ∀ e ∈ L, (f e).filterMap g = [e]) :
    (L.flatMap f).filterMap g = L := by
  induction L with
  | nil => rfl
  | cons e rest ih =>
    rw [List.flatMap_cons, List.filterMap_append, h e (List.mem_cons_self _ _),
      ih (fun x hx => h x (List.mem_cons_of_mem _ hx))]
    rfl

theorem residualUnit_resElem (tacs : TACSAssembler) {e : Int} (h0 : 0 ≤ e) :
    (residualUnit tacs e).filterMap Event.resElem = [e] := by
  obtain ⟨q, q', r, _, _, _, _, _, h⟩ := residualUnit_shape tacs h0
  have hz : ∀ l : List Nat,
      (l.map (fun j => Event.auxAddResidual j e)).filterMap Event.resElem = [] := by
    intro l
    induction l with
    | nil => rfl
    | cons j js ih => simp only [List.map_cons, List.filterMap_cons, Event.resElem, ih]
  rw [h, List.cons_append, List.filterMap_cons, List.filterMap_append, hz]
  rfl

theorem jacobianUnit_resElem (tacs : TACSAssembler) (pinfo : TACSAssemblerPthreadInfo)
    {e : Int} (h0 : 0 ≤ e) :
    (jacobianUnit tacs pinfo e).filterMap Event.resElem = [e] := by
  obtain ⟨q, q', r, m, _, _, _, _, _, h⟩ := jacobianUnit_shape tacs pinfo h0
  have hz : ∀ l : List Nat,
      (l.flatMap (fun j => [Event.auxAddResidual j e, Event.auxAddJacobian j e])).filterMap
        Event.resElem = [] := by
    intro l
    induction l with
    | nil => rfl
    | cons j js ih =>
      simp only [List.flatMap_cons, List.cons_append, List.nil_append, List.filterMap_cons,
        Event.resElem, ih]
  rw [h, List.cons_append, List.cons_append, List.filterMap_cons, List.filterMap_cons,
    List.filterMap_append, hz]
  rfl

/-- An auxiliary entry that is applied holds the element it is applied to, and
no entry before it in the table holds a larger element index. -/
theorem residualUnit_auxCalls (tacs : TACSAssembler) {e : Int} (h0 : 0 ≤ e) :
    ∀ p ∈ (residualUnit tacs e).filterMap Event.auxCall,
      p.2 = e ∧ p.1 < tacs.aux.length ∧ rd tacs.aux p.1 = e ∧
      ∀ i, i < p.1 → rd tacs.aux i ≤ rd tacs.aux p.1 := by
  obtain ⟨q, q', r, _, h2, h3, h4, _, h⟩ := residualUnit_shape tacs h0
  intro p hp
  obtain ⟨ev, hev, hpe⟩ := List.mem_filterMap.1 hp
  rw [h] at hev
  simp only [List.cons_append, List.mem_cons, List.mem_append, List.mem_map,
    List.mem_singleton, List.not_mem_nil, or_false] at hev
  rcases hev with hev | ⟨j, hj, hev⟩ | hev
  · subst hev; simp [Event.auxCall] at hpe
  · subst hev
    simp only [Event.auxCall, Option.some.injEq] at hpe
    subst hpe
    have hj' := List.mem_range'_1.1 hj
    have hje := h4 j hj'.1 (by omega)
    refine ⟨rfl, by omega, hje, ?_⟩
    intro i hi
    show rd tacs.aux i ≤ rd tacs.aux j
    rw [hje]
    rcases Nat.lt_or_ge i q with hq | hq
    · exact le_of_lt (h3 i hq)
    · exact le_of_eq (h4 i hq (by omega))
  · subst hev; simp [Event.auxCall] at hpe

theorem jacobianUnit_auxCalls (tacs : TACSAssembler) (pinfo : TACSAssemblerPthreadInfo)
    {e : Int} (h0 : 0 ≤ e) :
    ∀ p ∈ (jacobianUnit tacs pinfo e).filterMap Event.auxCall,
      p.2 = e ∧ p.1 < tacs.aux.length ∧ rd tacs.aux p.1 = e ∧
      ∀ i, i < p.1 → rd tacs.aux i ≤ rd tacs.aux p.1 := by
  obtain ⟨q, q', r, m, _, h2, h3, h4, _, h⟩ := jacobianUnit_shape tacs pinfo h0
  intro p hp
  obtain ⟨ev, hev, hpe⟩ := List.mem_filterMap.1 hp
  rw [h] at hev
  simp only [List.cons_append, List.mem_cons, List.mem_append, List.mem_flatMap,
    List.mem_singleton, List.not_mem_nil, or_false] at hev
  have key : ∀ j, j ∈ List.range' q (q' - q) →
      (j, e).2 = e ∧ (j, e).1 < tacs.aux.length ∧ rd tacs.aux (j, e).1 = e ∧
      ∀ i, i < (j, e).1 → rd tacs.aux i ≤ rd tacs.aux (j, e).1 := by
    intro j hj
    have hj' := List.mem_range'_1.1 hj
    have hje := h4 j hj'.1 (by omega)
    refine ⟨rfl, by omega, hje, ?_⟩
    intro i hi
    show rd tacs.aux i ≤ rd tacs.aux j
    rw [hje]
    rcases Nat.lt_or_ge i q with hq | hq
    · exact le_of_lt (h3 i hq)
    · exact le_of_eq (h4 i hq (by omega))
  rcases hev with hev | hev | ⟨j, hj, hev | hev⟩ | hev | hev
  · subst hev; simp [Event.auxCall] at hpe
  · subst hev; simp [Event.auxCall] at hpe
  · subst hev
    simp only [Event.auxCall, Option.some.injEq] at hpe
    subst hpe; exact key j hj
  · subst hev
    simp only [Event.auxCall, Option.some.injEq] at hpe
    subst hpe; exact key j hj
  · subst hev; simp [Event.auxCall] at hpe
  · subst hev; simp [Event.auxCall] at hpe

/-- C14: for any auxiliary table, sorted or not, a worker that processes
elements in ascending order still makes the kernel call of every element it
is handed, and a table entry that is preceded in the table by an entry with a
strictly larger element index is applied to no element.  This holds for
`assembleRes_thread` and `assembleJacobian_thread`, which have no error
result. -/
theorem unsorted_aux_table (tacs : TACSAssembler) (pinfo : TACSAssemblerPthreadInfo)
    (items : List Int)
    (hpw : (items.filter (fun r => decide (0 ≤ r))).Pairwise (· < ·)) :
    (assembleRes_thread tacs items).filterMap Event.resElem =
      items.filter (fun r => decide (0 ≤ r)) ∧
    (assembleJacobian_thread tacs pinfo items).filterMap Event.resElem =
      items.filter (fun r => decide (0 ≤ r)) ∧
    ∀ i j, i < j → j < tacs.aux.length → rd tacs.aux j < rd tacs.aux i →
      ∀ e, (j, e) ∉ (assembleRes_thread tacs items).filterMap Event.auxCall ∧
        (j, e) ∉ (assembleJacobian_thread tacs pinfo items).filterMap Event.auxCall := by
  have hnn : ∀ e ∈ items.filter (fun r => decide (0 ≤ r)), 0 ≤ e := by
    intro e he
    simpa using (List.mem_filter.1 he).2
  rw [assembleRes_thread_general tacs items hpw,
    assembleJacobian_thread_general tacs pinfo items hpw]
  refine ⟨filterMap_flatMap_unit _ _ _ (fun e he => residualUnit_resElem tacs (hnn e he)),
    filterMap_flatMap_unit _ _ _ (fun e he => jacobianUnit_resElem tacs pinfo (hnn e he)), ?_⟩
  intro i j hij _ hlt e
  constructor
  · intro hmem
    obtain ⟨ev, hev, hpe⟩ := List.mem_filterMap.1 hmem
    obtain ⟨x, hx, hevx⟩ := List.mem_flatMap.1 hev
    have := (residualUnit_auxCalls tacs (hnn x hx) (j, e)
      (List.mem_filterMap.2 ⟨ev, hevx, hpe⟩)).2.2.2 i hij
    exact absurd hlt (not_lt.2 this)
  · intro hmem
    obtain ⟨ev, hev, hpe⟩ := List.mem_filterMap.1 hmem
    obtain ⟨x, hx, hevx⟩ := List.mem_flatMap.1 hev
    have := (jacobianUnit_auxCalls tacs pinfo (hnn x hx) (j, e)
      (List.mem_filterMap.2 ⟨ev, hevx, hpe⟩)).2.2.2 i hij
    exact absurd hlt (not_lt.2 this)

theorem unsorted_aux_table_witness :
    ((([0, 1, 2, 3, 4] : List Int).filter (fun r => decide (0 ≤ r))).Pairwise (· < ·)) ∧
    ((assembleRes_thread unsortedTacs [0, 1, 2, 3, 4]).filterMap Event.resElem =
      ([0, 1, 2, 3, 4] : List Int).filter (fun r => decide (0 ≤ r)) ∧
    (assembleJacobian_thread unsortedTacs unitInfo [0, 1, 2, 3, 4]).filterMap Event.resElem =
      ([0, 1, 2, 3, 4] : List Int).filter (fun r => decide (0 ≤ r)) ∧
    ∀ i j, i < j → j < unsortedTacs.aux.length →
      rd unsortedTacs.aux j < rd unsortedTacs.aux i →
      ∀ e, (j, e) ∉ (assembleRes_thread unsortedTacs [0, 1, 2, 3, 4]).filterMap
          Event.auxCall ∧
        (j, e) ∉ (assembleJacobian_thread unsortedTacs unitInfo [0, 1, 2, 3, 4]).filterMap
          Event.auxCall) ∧
    unsortedTacs.aux = [3, 1, 3] ∧
    (assembleRes_thread unsortedTacs [0, 1, 2, 3, 4]).filterMap Event.auxCall = [(0, 3)] :=
  ⟨by decide, unsorted_aux_table unsortedTacs unitInfo [0, 1, 2, 3, 4] (by decide),
    by decide, by decide⟩

/-! ### The auxiliary cursor -/

theorem auxSkip_traced_spec (aux : List Int) (e : Int) :
    ∀ n c, n = aux.length - c → c ≤ aux.length →
      (auxSkip_traced aux e n c).1 = auxSkip aux e n c ∧
      c ≤ (auxSkip_traced aux e n c).1 ∧ (auxSkip_traced aux e n c).1 ≤ aux.length ∧
      (auxSkip_traced aux e n c).2.1 =
        List.range' (c + 1) ((auxSkip_traced aux e n c).1 - c) ∧
      ∀ p ∈ (auxSkip_traced aux e n c).2.2, p < aux.length := by
  intro n
  induction n with
  | zero =>
    intro c _ hc
    simp [auxSkip_traced, auxSkip, hc]
  | succ n ih =>
    intro c hn hc
    by_cases h : rd aux c < e
    · obtain ⟨h1, h2, h3, h4, h5⟩ := ih (c + 1) (by omega) (by omega)
      simp only [auxSkip_traced, auxSkip, h, if_true]
      refine ⟨h1, by omega, h3, ?_, ?_⟩
      · rw [h4]
        have hl : (auxSkip_traced aux e n (c + 1)).1 - c =
            ((auxSkip_traced aux e n (c + 1)).1 - (c + 1)) + 1 := by omega
        rw [hl, List.range'_succ]
      · intro p hp
        rcases List.mem_cons.1 hp with hp | hp
        · omega
        · exact h5 p hp
    · simp only [auxSkip_traced, auxSkip, h, if_false]
      refine ⟨trivial, le_refl _, hc, by simp, ?_⟩
      intro p hp
      have : p = c := by simpa using hp
      omega

theorem auxApply_traced_spec (tacs : TACSAssembler) (pinfo : TACSAssemblerPthreadInfo)
    (e : Int) :
    ∀ n c r m, n = tacs.aux.length - c → c ≤ tacs.aux.length →
      (auxApply_traced tacs.aux e n c).1 = (auxResidualLoop tacs e n c r).2.1 ∧
      (auxApply_traced tacs.aux e n c).1 = (auxJacobianLoop tacs pinfo e n c r m).2.1 ∧
      c ≤ (auxApply_traced tacs.aux e n c).1 ∧
      (auxApply_traced tacs.aux e n c).1 ≤ tacs.aux.length ∧
      (auxApply_traced tacs.aux e n c).2.1 =
        List.range' (c + 1) ((auxApply_traced tacs.aux e n c).1 - c) ∧
      ∀ p ∈ (auxApply_traced tacs.aux e n c).2.2, p < tacs.aux.length := by
  intro n
  induction n with
  | zero =>
    intro c r m _ hc
    simp [auxApply_traced, auxResidualLoop, auxJacobianLoop, hc]
  | succ n ih =>
    intro c r m hn hc
    by_cases h : rd tacs.aux c = e
    · obtain ⟨h1, h1', h2, h3, h4, h5⟩ := ih (c + 1) (tacs.auxAddResidual c e r)
        (tacs.auxAddJacobian c e pinfo.alpha pinfo.beta pinfo.gamma m) (by omega) (by omega)
      simp only [auxApply_traced, auxResidualLoop, auxJacobianLoop, h, if_true]
      refine ⟨h1, h1', by omega, h3, ?_, ?_⟩
      · rw [h4]
        have hl : (auxApply_traced tacs.aux e n (c + 1)).1 - c =
            ((auxApply_traced tacs.aux e n (c + 1)).1 - (c + 1)) + 1 := by omega
        rw [hl, List.range'_succ]
      · intro p hp
        rcases List.mem_cons.1 hp with hp | hp
        · omega
        · exact h5 p hp
    · simp only [auxApply_traced, auxResidualLoop, auxJacobianLoop, h, if_false]
      refine ⟨trivial, trivial, le_refl _, hc, by simp, ?_⟩
      intro p hp
      have : p = c := by simpa using hp
      omega

theorem range'_glue (a b c : Nat) (hab : a ≤ b) (hbc : b ≤ c) :
    List.range' (a + 1) (b - a) ++ List.range' (b + 1) (c - b) = List.range' (a + 1) (c - a) := by
  have h := List.range'_append_1 (a + 1) (b - a) (c - b)
  rw [show a + 1 + (b - a) = b + 1 by omega] at h
  rw [h]
  congr 1
  omega

theorem auxCursor_body_spec (tacs : TACSAssembler) (pinfo : TACSAssemblerPthreadInfo)
    (c : Nat) (e : Int) (hc : c ≤ tacs.aux.length) :
    (auxCursor_body tacs.aux c e).1 = (assembleRes_body tacs c e).1 ∧
    (auxCursor_body tacs.aux c e).1 = (assembleJacobian_body tacs pinfo c e).1 ∧
    c ≤ (auxCursor_body tacs.aux c e).1 ∧
    (auxCursor_body tacs.aux c e).1 ≤ tacs.aux.length ∧
    (auxCursor_body tacs.aux c e).2.1 =
      List.range' (c + 1) ((auxCursor_body tacs.aux c e).1 - c) ∧
    ∀ p ∈ (auxCursor_body tacs.aux c e).2.2, p < tacs.aux.length := by
  by_cases h0 : 0 ≤ e
  · obtain ⟨s1, s2, s3, s4, s5⟩ :=
      auxSkip_traced_spec tacs.aux e (tacs.aux.length - c) c rfl hc
    obtain ⟨a1, a1', a2, a3, a4, a5⟩ := auxApply_traced_spec tacs pinfo e
      (tacs.aux.length - (auxSkip_traced tacs.aux e (tacs.aux.length - c) c).1)
      (auxSkip_traced tacs.aux e (tacs.aux.length - c) c).1
      (tacs.addResidual e (List.replicate (tacs.numVariables e) 0))
      (tacs.addJacobian e pinfo.alpha pinfo.beta pinfo.gamma
        (List.replicate (tacs.numVariables e * tacs.numVariables e) 0)) rfl s3
    simp only [auxCursor_body, assembleRes_body, assembleJacobian_body, ge_iff_le, h0, if_true]
    refine ⟨?_, ?_, by omega, a3, ?_, ?_⟩
    · rw [a1, s1]
    · rw [a1', s1]
    · rw [s4, a4]
      exact range'_glue _ _ _ s2 a2
    · intro p hp
      rcases List.mem_append.1 hp with hp | hp
      · exact s5 p hp
      · exact a5 p hp
  · simp [auxCursor_body, assembleRes_body, assembleJacobian_body, h0, hc]

theorem auxCursor_loop_spec (tacs : TACSAssembler) (pinfo : TACSAssemblerPthreadInfo) :
    ∀ (items : List Int) (c : Nat), c ≤ tacs.aux.length →
      ∃ f, c ≤ f ∧ f ≤ tacs.aux.length ∧
        (auxCursor_loop tacs.aux c items).1 = List.range' (c + 1) (f - c) ∧
        ∀ p ∈ (auxCursor_loop tacs.aux c items).2, p < tacs.aux.length := by
  intro items
  induction items with
  | nil =>
    intro c hc
    exact ⟨c, le_refl _, hc, by simp [auxCursor_loop], by simp [auxCursor_loop]⟩
  | cons e rest ih =>
    intro c hc
    obtain ⟨_, _, b1, b2, b3, b4⟩ := auxCursor_body_spec tacs pinfo c e hc
    obtain ⟨f, f1, f2, f3, f4⟩ := ih _ b2
    refine ⟨f, by omega, f2, ?_, ?_⟩
    · simp only [auxCursor_loop, b3, f3]
      exact range'_glue _ _ _ b1 f1
    · intro p hp
      simp only [auxCursor_loop] at hp
      rcases List.mem_append.1 hp with hp | hp
      · exact b4 p hp
      · exact f4 p hp

/-- C16: for every auxiliary table and every sequence of element indices,
along a worker's traversal in the residual and tangent phases the cursor
`aux_count` starts at 0, never decreases (it only moves by `aux_count++`),
always satisfies `aux_count <= naux`, and the table is only read at positions
strictly below `naux`. -/
theorem aux_cursor_invariant (tacs : TACSAssembler) (pinfo : TACSAssemblerPthreadInfo)
    (items : List Int) :
    (0 :: (auxCursor_loop tacs.aux 0 items).1).Pairwise (· ≤ ·) ∧
    List.Chain (fun a b => b = a + 1) 0 (auxCursor_loop tacs.aux 0 items).1 ∧
    (∀ v ∈ 0 :: (auxCursor_loop tacs.aux 0 items).1, v ≤ tacs.aux.length) ∧
    (∀ p ∈ (auxCursor_loop tacs.aux 0 items).2, p < tacs.aux.length) ∧
    (∀ (c : Nat) (e : Int), c ≤ tacs.aux.length →
      (auxCursor_body tacs.aux c e).1 = (assembleRes_body tacs c e).1 ∧
      (auxCursor_body tacs.aux c e).1 = (assembleJacobian_body tacs pinfo c e).1) := by
  obtain ⟨f, _, f2, f3, f4⟩ := auxCursor_loop_spec tacs pinfo items 0 (Nat.zero_le _)
  have hr : 0 :: (auxCursor_loop tacs.aux 0 items).1 = List.range' 0 (f + 1) := by
    rw [f3, List.range'_succ]
    simp
  refine ⟨?_, ?_, ?_, f4, ?_⟩
  · rw [hr]
    exact (List.pairwise_lt_range' 0 (f + 1)).imp (fun h => Nat.le_of_lt h)
  · rw [f3]
    simp only [Nat.sub_zero, Nat.zero_add]
    exact List.chain_succ_range' 0 f 1
  · intro v hv
    rw [hr] at hv
    have := (List.mem_range'_1.1 hv).2
    omega
  · intro c e hc
    obtain ⟨h1, h2, _⟩ := auxCursor_body_spec tacs pinfo c e hc
    exact ⟨h1, h2⟩

theorem aux_cursor_invariant_witness :
    ((0 :: (auxCursor_loop unsortedTacs.aux 0 [4, 0, 3]).1).Pairwise (· ≤ ·) ∧
    List.Chain (fun a b => b = a + 1) 0 (auxCursor_loop unsortedTacs.aux 0 [4, 0, 3]).1 ∧
    (∀ v ∈ 0 :: (auxCursor_loop unsortedTacs.aux 0 [4, 0, 3]).1,
      v ≤ unsortedTacs.aux.length) ∧
    (∀ p ∈ (auxCursor_loop unsortedTacs.aux 0 [4, 0, 3]).2, p < unsortedTacs.aux.length) ∧
    (∀ (c : Nat) (e : Int), c ≤ unsortedTacs.aux.length →
      (auxCursor_body unsortedTacs.aux c e).1 = (assembleRes_body unsortedTacs c e).1 ∧
      (auxCursor_body unsortedTacs.aux c e).1 =
        (assembleJacobian_body unsortedTacs unitInfo c e).1)) ∧
    auxCursor_loop unsortedTacs.aux 0 [4, 0, 3] = ([1, 2, 3], [0, 1, 2]) ∧
    auxCursor_loop auxTacs.aux 0 [0, 1, 2, 3, 4] =
      ([1, 2, 3], [0, 0, 0, 0, 1, 2, 2, 2, 2, 2]) :=
  ⟨aux_cursor_invariant unsortedTacs unitInfo [4, 0, 3], by decide, by decide⟩

/-! ### Interleaved execution: what every reachable state satisfies -/

theorem workerStep_enter (g : List Int → Bool) (N : Int) (s : PhaseState) (w : Nat)
    (hpc : s.pc w = WorkerPC.atCondition)
    (hg : (g (claimsOf w s.claims) && decide (s.numCompletedElements < N)) = true) :
    workerStep g N s w = { s with pc := Function.update s.pc w WorkerPC.atClaim } := by
  unfold workerStep
  rw [hpc]
  simp only [hg, if_true]

theorem workerStep_leave (g : List Int → Bool) (N : Int) (s : PhaseState) (w : Nat)
    (hpc : s.pc w = WorkerPC.atCondition)
    (hg : (g (claimsOf w s.claims) && decide (s.numCompletedElements < N)) = false) :
    workerStep g N s w = { s with pc := Function.update s.pc w WorkerPC.finished } := by
  unfold workerStep
  rw [hpc]
  simp only [hg, Bool.false_eq_true, if_false]

theorem workerStep_claim (g : List Int → Bool) (N : Int) (s : PhaseState) (w : Nat)
    (hpc : s.pc w = WorkerPC.atClaim) :
    workerStep g N s w =
      { numCompletedElements := (schedPthreadJob s.numCompletedElements N).2,
        pc := Function.update s.pc w WorkerPC.atCondition,
        claims := s.claims ++ [(w, (schedPthreadJob s.numCompletedElements N).1)] } := by
  unfold workerStep
  rw [hpc]

theorem workerStep_finished (g : List Int → Bool) (N : Int) (s : PhaseState) (w : Nat)
    (hpc : s.pc w = WorkerPC.finished) : workerStep g N s w = s := by
  unfold workerStep
  rw [hpc]

theorem pair_list_ext {α β : Type} :
    ∀ (l l' : List (α × β)), l.map Prod.fst = l'.map Prod.fst →
      l.map Prod.snd = l'.map Prod.snd → l = l' := by
  intro l
  induction l with
  | nil =>
    intro l' h1 _
    cases l' with
    | nil => rfl
    | cons _ _ => simp at h1
  | cons p ps ih =>
    intro l' h1 h2
    cases l' with
    | nil => simp at h1
    | cons q qs =>
      simp only [List.map_cons, List.cons.injEq] at h1 h2
      rw [ih qs h1.2 h2.2, Prod.ext h1.1 h2.1]

/-- The calls recorded in a reachable state are a serialised run of the
dispenser. -/
theorem PhaseInv.claims_eq {N : Int} {K : Nat} {s : PhaseState} (h : PhaseInv N K s)
    (hI : isInt N) : s.claims = runClaims N 0 (s.claims.map Prod.fst) := by
  apply pair_list_ext
  · rw [runClaims_fst]
  · rw [runClaims_snd N hI _ 0 (by decide), h.results, List.length_map]
    simp only [zero_add]

theorem sentinelWorkers_append_real (claims : List (Nat × Int)) (w : Nat) (r : Int)
    (hr : r ≠ -1) : sentinelWorkers (claims ++ [(w, r)]) = sentinelWorkers claims := by
  simp [sentinelWorkers, List.filter_append, List.filter_cons, hr]

theorem sentinelWorkers_append_sentinel (claims : List (Nat × Int)) (w : Nat) :
    sentinelWorkers (claims ++ [(w, -1)]) = sentinelWorkers claims ++ [w] := by
  simp [sentinelWorkers, List.filter_append, List.filter_cons]

theorem phaseInv_init (N : Int) (K : Nat) (hN : 0 ≤ N) : PhaseInv N K PhaseState.init where
  counter := by simp [PhaseState.init, hN]
  results := by simp [PhaseState.init]
  workers := by intro p hp; simp [PhaseState.init] at hp
  once := by simp [PhaseState.init, sentinelWorkers]
  left := by intro w hw; simp [PhaseState.init, sentinelWorkers] at hw
  exhausted := by intro w hw; simp [PhaseState.init, sentinelWorkers] at hw
  done := by intro w hw; simp [PhaseState.init] at hw
  winner := by
    intro h1 h2
    simp only [PhaseState.init] at h2
    omega

theorem phaseInv_step (g : List Int → Bool) (N : Int) (K : Nat) (hN : 0 ≤ N) (hI : isInt N)
    (hg : 1 ≤ N → ∀ items : List Int,
      (items.filter (fun r => decide (0 ≤ r))).Pairwise (· < ·) →
      (∀ i ∈ items, 0 ≤ i → i < N) → g items = true)
    (s : PhaseState) (h : PhaseInv N K s) (w : Nat) (hw : w < K) :
    PhaseInv N K (workerStep g N s w) := by
  have hc0 : 0 ≤ s.numCompletedElements := by rw [h.counter]; omega
  have hcN : s.numCompletedElements ≤ N := by rw [h.counter]; omega
  cases hpc : s.pc w with
  | atCondition =>
    cases hgd : (g (claimsOf w s.claims) && decide (s.numCompletedElements < N)) with
    | true =>
      rw [workerStep_enter g N s w hpc hgd]
      have hlt : s.numCompletedElements < N := by
        have := (Bool.and_eq_true_iff.1 hgd).2
        simpa using this
      refine ⟨h.counter, h.results, h.workers, h.once, ?_, h.exhausted, ?_, ?_⟩
      · intro w' hw'
        have := h.exhausted w' hw'
        omega
      · intro w' hw'
        by_cases e : w' = w
        · subst e; simp at hw'
        · simp only [Function.update_noteq e] at hw'
          exact h.done w' hw'
      · intro _ h2
        simp only at h2
        omega
    | false =>
      rw [workerStep_leave g N s w hpc hgd]
      refine ⟨h.counter, h.results, h.workers, h.once, ?_, h.exhausted, ?_, ?_⟩
      · intro w' hw'
        by_cases e : w' = w
        · subst e; simp
        · simp only [Function.update_noteq e]
          exact h.left w' hw'
      · intro w' hw'
        by_cases e : w' = w
        · show N ≤ s.numCompletedElements
          by_contra hlt
          have hlt' : s.numCompletedElements < N := by omega
          have hsorted := claimsOf_sorted N hN hI (s.claims.map Prod.fst) w
          rw [← h.claims_eq hI] at hsorted
          have hgt := hg (by omega) (claimsOf w s.claims) hsorted.1 hsorted.2
          simp [hgt, hlt'] at hgd
        · simp only [Function.update_noteq e] at hw'
          exact h.done w' hw'
      · intro h1 h2
        obtain ⟨L, hL, hLW, hLpc⟩ := h.winner h1 h2
        refine ⟨L, hL, hLW, ?_⟩
        by_cases e : L = w
        · subst e; simp
        · simp only [Function.update_noteq e]
          exact hLpc
  | atClaim =>
    rw [workerStep_claim g N s w hpc]
    have hwW : w ∉ sentinelWorkers s.claims := fun hmem => h.left w hmem hpc
    by_cases hlt : s.numCompletedElements < N
    · have hIc : isInt s.numCompletedElements :=
        ⟨by omega, by have := hI.2; omega⟩
      rw [schedPthreadJob_lt hIc hI hlt]
      have hlen : s.numCompletedElements = (s.claims.length : Int) := by
        have := h.counter; omega
      have hne : s.numCompletedElements ≠ -1 := by omega
      have hnoW : ∀ w', w' ∉ sentinelWorkers s.claims := by
        intro w' hw'
        have := h.exhausted w' hw'
        omega
      refine ⟨?_, ?_, ?_, ?_, ?_, ?_, ?_, ?_⟩
      · simp only [List.length_append, List.length_singleton, Nat.cast_add, Nat.cast_one]
        omega
      · simp only [List.map_append, List.map_cons, List.map_nil, List.length_append,
          List.length_singleton, List.range_succ, h.results]
        have : ((s.claims.length : Int) < N) := by omega
        simp [this, hlen]
      · intro p hp
        rcases List.mem_append.1 hp with hp | hp
        · exact h.workers p hp
        · have : p = (w, s.numCompletedElements) := by simpa using hp
          subst this; exact hw
      · show (sentinelWorkers (s.claims ++ [(w, s.numCompletedElements)])).Nodup
        rw [sentinelWorkers_append_real _ _ _ hne]; exact h.once
      · intro w' hw'
        simp only [sentinelWorkers_append_real _ _ _ hne] at hw'
        exact absurd hw' (hnoW w')
      · intro w' hw'
        simp only [sentinelWorkers_append_real _ _ _ hne] at hw'
        exact absurd hw' (hnoW w')
      · intro w' hw'
        by_cases e : w' = w
        · subst e; simp at hw'
        · simp only [Function.update_noteq e] at hw'
          have := h.done w' hw'
          show N ≤ s.numCompletedElements + 1
          omega
      · intro _ _
        refine ⟨w, hw, ?_, by simp⟩
        show w ∉ sentinelWorkers (s.claims ++ [(w, s.numCompletedElements)])
        rw [sentinelWorkers_append_real _ _ _ hne]; exact hnoW w
    · rw [schedPthreadJob_ge hlt]
      have hlen : N ≤ (s.claims.length : Int) := by
        have := h.counter; omega
      refine ⟨?_, ?_, ?_, ?_, ?_, ?_, ?_, ?_⟩
      · simp only [List.length_append, List.length_singleton, Nat.cast_add, Nat.cast_one]
        have := h.counter
        omega
      · simp only [List.map_append, List.map_cons, List.map_nil, List.length_append,
          List.length_singleton, List.range_succ, h.results]
        have : ¬ ((s.claims.length : Int) < N) := by omega
        simp [this]
      · intro p hp
        rcases List.mem_append.1 hp with hp | hp
        · exact h.workers p hp
        · have : p = (w, -1) := by simpa using hp
          subst this; exact hw
      · show (sentinelWorkers (s.claims ++ [(w, -1)])).Nodup
        rw [sentinelWorkers_append_sentinel]
        exact List.nodup_append.2 ⟨h.once, List.nodup_singleton w, by
          intro a ha hb
          have : a = w := by simpa using hb
          subst this; exact hwW ha⟩
      · intro w' hw'
        simp only [sentinelWorkers_append_sentinel, List.mem_append, List.mem_singleton] at hw'
        by_cases e : w' = w
        · subst e; simp
        · simp only [Function.update_noteq e]
          rcases hw' with hw' | hw'
          · exact h.left w' hw'
          · exact absurd hw' e
      · intro _ _
        show N ≤ s.numCompletedElements
        omega
      · intro w' hw'
        by_cases e : w' = w
        · subst e; simp at hw'
        · simp only [Function.update_noteq e] at hw'
          exact h.done w' hw'
      · intro h1 h2
        obtain ⟨L, hL, hLW, hLpc⟩ := h.winner h1 h2
        have e : L ≠ w := by
          intro e; subst e; exact hLpc hpc
        refine ⟨L, hL, ?_, ?_⟩
        · show L ∉ sentinelWorkers (s.claims ++ [(w, -1)])
          rw [sentinelWorkers_append_sentinel]
          simp only [List.mem_append, List.mem_singleton, not_or]
          exact ⟨hLW, e⟩
        · simp only [Function.update_noteq e]
          exact hLpc
  | finished =>
    rw [workerStep_finished g N s w hpc]
    exact h

/-- Every state reached by workers below `K` satisfies the invariant. -/
theorem phaseInv_run (g : List Int → Bool) (N : Int) (K : Nat) (hN : 0 ≤ N) (hI : isInt N)
    (hg : 1 ≤ N → ∀ items : List Int,
      (items.filter (fun r => decide (0 ≤ r))).Pairwise (· < ·) →
      (∀ i ∈ items, 0 ≤ i → i < N) → g items = true) :
    ∀ (sched : List Nat) (s : PhaseState), PhaseInv N K s → (∀ w ∈ sched, w < K) →
      PhaseInv N K (sched.foldl (workerStep g N) s) := by
  intro sched
  induction sched with
  | nil => intro s h _; exact h
  | cons w ws ih =>
    intro s h hw
    rw [List.foldl_cons]
    exact ih _ (phaseInv_step g N K hN hI hg s h w (hw w (List.mem_cons_self _ _)))
      (fun x hx => hw x (List.mem_cons_of_mem _ hx))

/-! ### The loop condition of the multi-function workers -/

theorem functionLoop_runs_spec (body : FuncCursor → Int → Option (FuncCursor × List Event))
    (m : Nat) (off : List Int) (P : Int → List Event → Prop)
    (hbody : ∀ k item, k < m → 0 ≤ item → rd off k ≤ item → item < rd off m →
      ∃ k' evs, body ⟨k, k⟩ item = some (⟨k', k'⟩, evs) ∧ k' < m ∧ rd off k' ≤ item ∧
        P item evs)
    (hneg : ∀ s item, item < 0 → body s item = some (s, [])) :
    ∀ (items : List Int) (k : Nat), k < m →
      (items.filter (fun r => decide (0 ≤ r))).Pairwise (· < ·) →
      (∀ i ∈ items, 0 ≤ i → rd off k ≤ i ∧ i < rd off m) →
      functionLoop_runs body m ⟨k, k⟩ items = true := by
  intro items
  induction items with
  | nil => intro k hk _ _; simp [functionLoop_runs, hk]
  | cons item rest ih =>
    intro k hk hpw hb
    by_cases h0 : 0 ≤ item
    · obtain ⟨hk0, hlt⟩ := hb item (List.mem_cons_self _ _) h0
      obtain ⟨k', evs, hbd, hk', hge', _⟩ := hbody k item hk h0 hk0 hlt
      have hfil : (item :: rest).filter (fun r => decide (0 ≤ r)) =
          item :: rest.filter (fun r => decide (0 ≤ r)) := by
        simp [List.filter_cons, h0]
      rw [hfil, List.pairwise_cons] at hpw
      have hrest : ∀ i ∈ rest, 0 ≤ i → rd off k' ≤ i ∧ i < rd off m := by
        intro i hi hi0
        have hlt' : item < i := hpw.1 i (List.mem_filter.2 ⟨hi, by simpa using hi0⟩)
        exact ⟨by omega, (hb i (List.mem_cons_of_mem _ hi) hi0).2⟩
      have := ih k' hk' hpw.2 hrest
      simp [functionLoop_runs, hk, hbd, this]
    · have hfil : (item :: rest).filter (fun r => decide (0 ≤ r)) =
          rest.filter (fun r => decide (0 ≤ r)) := by
        simp [List.filter_cons, h0]
      rw [hfil] at hpw
      have := ih k hk hpw (fun i hi => hb i (List.mem_cons_of_mem _ hi))
      simp [functionLoop_runs, hk, hneg ⟨k, k⟩ item (by omega), this]

theorem phaseTotal_nonneg (tacs : TACSAssembler) (pinfo : TACSAssemblerPthreadInfo)
    (hn : 0 ≤ tacs.numElements) (ph : Phase) : 0 ≤ phaseTotal tacs pinfo ph := by
  cases ph <;> first
    | exact hn
    | exact totalSize_nonneg hn pinfo.functions

/-- While indices remain, the part of the loop condition that does not involve
the counter holds for every worker, whatever increasing indices it has been
handed. -/
theorem phaseGuard_holds (tacs : TACSAssembler) (pinfo : TACSAssemblerPthreadInfo)
    (hn : 0 ≤ tacs.numElements) (ph : Phase) :
    1 ≤ phaseTotal tacs pinfo ph → ∀ items : List Int,
      (items.filter (fun r => decide (0 ≤ r))).Pairwise (· < ·) →
      (∀ i ∈ items, 0 ≤ i → i < phaseTotal tacs pinfo ph) →
      phaseGuard tacs pinfo ph items = true := by
  intro h1 items hpw hb
  have hfun : phaseTotal tacs pinfo ph = totalSize tacs.numElements pinfo.functions →
      0 < pinfo.functions.length ∧
      ∀ i ∈ items, 0 ≤ i →
        rd (funcElemDomainSize tacs.numElements pinfo.functions) 0 ≤ i ∧
        i < rd (funcElemDomainSize tacs.numElements pinfo.functions)
          pinfo.functions.length := by
    intro ht
    have hz := funcElemDomainSize_zero tacs.numElements pinfo.functions
    constructor
    · rcases Nat.eq_zero_or_pos pinfo.functions.length with hm | hm
      · rw [ht] at h1
        unfold totalSize at h1
        rw [hm] at h1
        omega
      · exact hm
    · intro i hi h0
      have := hb i hi h0
      rw [ht] at this
      rw [hz]
      exact ⟨h0, this⟩
  cases ph with
  | functionEvaluation =>
    obtain ⟨hm, hb'⟩ := hfun rfl
    exact functionLoop_runs_spec _ _ _ _
      (fun _ _ hk h0 hge hlt =>
        evalFunctions_body_spec tacs.numElements hn pinfo.functions hk h0 hge hlt)
      (fun s _ h => evalFunctions_body_neg pinfo.functions _ s h) items 0 hm hpw hb'
  | designSensitivity =>
    obtain ⟨hm, hb'⟩ := hfun rfl
    exact functionLoop_runs_spec _ _ _ _
      (fun _ _ hk h0 hge hlt =>
        evalDVSens_body_spec tacs.numElements hn pinfo.functions hk h0 hge hlt)
      (fun s _ h => evalDVSens_body_neg pinfo.functions _ s h) items 0 hm hpw hb'
  | residual => rfl
  | tangent => rfl
  | typedMatrix => rfl
  | adjointProduct => rfl

/-! ### Counting the unsuccessful claims -/

theorem count_sentinel_claimsOf (w : Nat) (claims : List (Nat × Int)) :
    (claimsOf w claims).count (-1) = (sentinelWorkers claims).count w := by
  induction claims with
  | nil => rfl
  | cons p ps ih =>
    obtain ⟨a, r⟩ := p
    unfold claimsOf sentinelWorkers at ih ⊢
    by_cases ha : a = w <;> by_cases hr : r = -1 <;>
      simp [List.filter_cons, List.count_cons, ha, hr, ih]

theorem mem_sentinelWorkers_iff (w : Nat) (claims : List (Nat × Int)) :
    w ∈ sentinelWorkers claims ↔ (-1 : Int) ∈ claimsOf w claims := by
  simp only [sentinelWorkers, claimsOf, List.mem_map, List.mem_filter, beq_iff_eq]
  constructor
  · rintro ⟨p, ⟨hp, hr⟩, hw⟩
    exact ⟨p, ⟨hp, hw⟩, hr⟩
  · rintro ⟨p, ⟨hp, hw⟩, hr⟩
    exact ⟨p, ⟨hp, hr⟩, hw⟩

theorem length_sentinelWorkers (claims : List (Nat × Int)) :
    (sentinelWorkers claims).length = (claims.filter (fun p => p.2 == -1)).length := by
  simp [sentinelWorkers]

/-- In a reachable state of a phase with at least one unit, fewer workers than
`K` have received the sentinel. -/
theorem PhaseInv.sentinels_le {N : Int} {K : Nat} {s : PhaseState} (h : PhaseInv N K s)
    (h1 : 1 ≤ N) : (sentinelWorkers s.claims).length ≤ K - 1 := by
  by_cases hc : s.numCompletedElements = N
  · obtain ⟨L, hL, hLW, _⟩ := h.winner h1 hc
    have hsub : sentinelWorkers s.claims ⊆ (List.range K).erase L := by
      intro w hw
      rw [(List.nodup_range K).mem_erase_iff]
      refine ⟨fun e => hLW (e ▸ hw), List.mem_range.2 ?_⟩
      obtain ⟨p, hp, hpw⟩ := List.mem_map.1 hw
      rw [← hpw]
      exact h.workers p (List.mem_filter.1 hp).1
    have := (List.subperm_of_subset h.once hsub).length_le
    rw [List.length_erase_of_mem (List.mem_range.2 hL), List.length_range] at this
    exact this
  · have hnil : sentinelWorkers s.claims = [] := by
      rw [List.eq_nil_iff_forall_not_mem]
      intro w hw
      have := h.exhausted w hw
      have hle : s.numCompletedElements ≤ N := by rw [h.counter]; omega
      exact hc (le_antisymm hle this)
    rw [hnil]
    exact Nat.zero_le _

/-- A worker that has received the sentinel finds its loop condition false at
its next step: it leaves the loop without a further claim. -/
theorem PhaseInv.sentinel_leaves {N : Int} {K : Nat} {s : PhaseState} (h : PhaseInv N K s)
    (g : List Int → Bool) (w : Nat) (hw : w ∈ sentinelWorkers s.claims) :
    N ≤ s.numCompletedElements ∧
    (workerStep g N s w).pc w = WorkerPC.finished ∧
    (workerStep g N s w).claims = s.claims ∧
    (workerStep g N s w).numCompletedElements = s.numCompletedElements := by
  have hex := h.exhausted w hw
  have hne := h.left w hw
  refine ⟨hex, ?_⟩
  cases hpc : s.pc w with
  | atClaim => exact absurd hpc hne
  | finished =>
    rw [workerStep_finished g N s w hpc]
    exact ⟨hpc, rfl, rfl⟩
  | atCondition =>
    have hgd : (g (claimsOf w s.claims) && decide (s.numCompletedElements < N)) = false := by
      have : decide (s.numCompletedElements < N) = false := by
        simp only [decide_eq_false_iff_not]
        omega
      rw [this, Bool.and_false]
    rw [workerStep_leave g N s w hpc hgd]
    exact ⟨by simp, rfl, rfl⟩

theorem claimsOf_solo (c : Nat) :
    claimsOf 0 ((List.range c).map (fun j : Nat => ((0 : Nat), (j : Int)))) =
      (List.range c).map (fun j : Nat => (j : Int)) := by
  unfold claimsOf
  rw [List.filter_eq_self.2]
  · rw [List.map_map]
    rfl
  · intro p hp
    obtain ⟨j, _, rfl⟩ := List.mem_map.1 hp
    rfl

/-- A worker that is alone in the pool runs its loop body on `0, 1, ..., N - 1`
in that order and then leaves the loop. -/
theorem solo_run (g : List Int → Bool) (N : Int) (hN : 0 ≤ N) (hI : isInt N)
    (hg : 1 ≤ N → ∀ items : List Int,
      (items.filter (fun r => decide (0 ≤ r))).Pairwise (· < ·) →
      (∀ i ∈ items, 0 ≤ i → i < N) → g items = true) :
    ∀ (n c : Nat) (s : PhaseState), c + n = N.toNat →
      s.numCompletedElements = (c : Int) → s.pc 0 = WorkerPC.atCondition →
      s.claims = (List.range c).map (fun j : Nat => ((0 : Nat), (j : Int))) →
      ((List.replicate (2 * n + 1) 0).foldl (workerStep g N) s).pc 0 = WorkerPC.finished ∧
      ((List.replicate (2 * n + 1) 0).foldl (workerStep g N) s).numCompletedElements = N ∧
      ((List.replicate (2 * n + 1) 0).foldl (workerStep g N) s).claims =
        (List.range N.toNat).map (fun j : Nat => ((0 : Nat), (j : Int))) := by
  intro n
  induction n with
  | zero =>
    intro c s hc hcnt hpc hcl
    have hcN : (c : Int) = N := by omega
    have hgd : (g (claimsOf 0 s.claims) && decide (s.numCompletedElements < N)) = false := by
      have : decide (s.numCompletedElements < N) = false := by
        simp only [decide_eq_false_iff_not]
        omega
      rw [this, Bool.and_false]
    simp only [Nat.mul_zero, Nat.zero_add, List.replicate_one, List.foldl_cons, List.foldl_nil]
    rw [workerStep_leave g N s 0 hpc hgd]
    refine ⟨by simp, by simp only; omega, ?_⟩
    simp only
    rw [hcl]
    have : c = N.toNat := by omega
    rw [this]
  | succ n ih =>
    intro c s hc hcnt hpc hcl
    have hlt : (c : Int) < N := by omega
    have hgi : g (claimsOf 0 s.claims) = true := by
      rw [hcl, claimsOf_solo]
      apply hg (by omega)
      · rw [List.filter_eq_self.2]
        · rw [List.pairwise_map]
          exact (List.pairwise_lt_range c).imp (fun h => by exact_mod_cast h)
        · intro i hi
          obtain ⟨j, _, rfl⟩ := List.mem_map.1 hi
          simp
      · intro i hi _
        obtain ⟨j, hj, rfl⟩ := List.mem_map.1 hi
        have := List.mem_range.1 hj
        omega
    have hgd : (g (claimsOf 0 s.claims) && decide (s.numCompletedElements < N)) = true := by
      rw [hgi, Bool.true_and, decide_eq_true_iff]
      omega
    have hrep : List.replicate (2 * (n + 1) + 1) 0 =
        (0 : Nat) :: 0 :: List.replicate (2 * n + 1) 0 := by
      have : 2 * (n + 1) + 1 = (2 * n + 1) + 1 + 1 := by ring
      rw [this, List.replicate_succ, List.replicate_succ]
    rw [hrep, List.foldl_cons, List.foldl_cons, workerStep_enter g N s 0 hpc hgd]
    rw [workerStep_claim g N _ 0 (by simp)]
    simp only
    have hcI : isInt (c : Int) := ⟨by have := hI.1; omega, by have := hI.2; omega⟩
    rw [hcnt, schedPthreadJob_lt hcI hI hlt]
    apply ih (c + 1)
    · omega
    · simp
    · simp
    · simp only
      rw [hcl, List.range_succ, List.map_append]
      rfl

theorem phaseRun_inv (tacs : TACSAssembler) (pinfo : TACSAssemblerPthreadInfo) (ph : Phase)
    (hn : 0 ≤ tacs.numElements) (hI : isInt (phaseTotal tacs pinfo ph)) (K : Nat)
    (sched : List Nat) (hw : ∀ w ∈ sched, w < K) :
    PhaseInv (phaseTotal tacs pinfo ph) K (phaseRun tacs pinfo ph sched) :=
  phaseInv_run _ _ K (phaseTotal_nonneg tacs pinfo hn ph) hI
    (phaseGuard_holds tacs pinfo hn ph) sched PhaseState.init
    (phaseInv_init _ K (phaseTotal_nonneg tacs pinfo hn ph)) hw

theorem PhaseInv.successful {N : Int} {K : Nat} {s : PhaseState} (h : PhaseInv N K s)
    (hN : 0 ≤ N) (hI : isInt N) :
    (s.claims.map Prod.snd).filter (fun r => r != -1) =
      (List.range s.numCompletedElements.toNat).map (fun j : Nat => (j : Int)) ∧
    s.numCompletedElements ≤ N := by
  constructor
  · have h1 := runClaims_claimed N hI (s.claims.map Prod.fst) 0 (le_refl 0) hN
    rw [← h.claims_eq hI] at h1
    rw [h1, h.counter]
    have : min (s.claims.map Prod.fst).length (N - 0).toNat =
        (min (s.claims.length : Int) N).toNat := by
      rw [List.length_map]
      omega
    rw [this]
    simp only [zero_add]
  · rw [h.counter]
    omega

/-- C18: in a phase of total size `N` (an `int`) with the counter starting at
0, in every state reached by any interleaving of the steps of workers
`0, ..., K - 1`: the recorded claims are a serialised run of the dispenser;
every worker has received the sentinel at most once; a worker that has
received it finds `counter < total` false, so its next step leaves the loop
without a further claim; the successful claims returned `0, ..., counter - 1`
in this order with `counter ≤ N`, and are exactly `0, ..., N - 1` once every
worker has left its loop; at most `K - 1` claims were unsuccessful when
`N ≥ 1`; and a worker run alone executes its loop body on `0, 1, ..., N - 1`
in that order and then leaves the loop. -/
theorem worker_loop_termination (tacs : TACSAssembler) (pinfo : TACSAssemblerPthreadInfo)
    (ph : Phase) (hn : 0 ≤ tacs.numElements) (hI : isInt (phaseTotal tacs pinfo ph))
    (K : Nat) (sched : List Nat) (hw : ∀ w ∈ sched, w < K) :
    (phaseRun tacs pinfo ph sched).claims =
      runClaims (phaseTotal tacs pinfo ph) 0
        ((phaseRun tacs pinfo ph sched).claims.map Prod.fst) ∧
    (∀ w, (claimsOf w (phaseRun tacs pinfo ph sched).claims).count (-1) ≤ 1) ∧
    (∀ w, (-1 : Int) ∈ claimsOf w (phaseRun tacs pinfo ph sched).claims →
      ¬ (phaseRun tacs pinfo ph sched).numCompletedElements < phaseTotal tacs pinfo ph ∧
      (phaseRun tacs pinfo ph (sched ++ [w])).pc w = WorkerPC.finished ∧
      (phaseRun tacs pinfo ph (sched ++ [w])).claims =
        (phaseRun tacs pinfo ph sched).claims) ∧
    (((phaseRun tacs pinfo ph sched).claims.map Prod.snd).filter (fun r => r != -1) =
        (List.range (phaseRun tacs pinfo ph sched).numCompletedElements.toNat).map
          (fun j : Nat => (j : Int)) ∧
      (phaseRun tacs pinfo ph sched).numCompletedElements ≤ phaseTotal tacs pinfo ph) ∧
    (1 ≤ K → (∀ w, w < K → (phaseRun tacs pinfo ph sched).pc w = WorkerPC.finished) →
      ((phaseRun tacs pinfo ph sched).claims.map Prod.snd).filter (fun r => r != -1) =
        (List.range (phaseTotal tacs pinfo ph).toNat).map (fun j : Nat => (j : Int))) ∧
    (1 ≤ phaseTotal tacs pinfo ph →
      ((phaseRun tacs pinfo ph sched).claims.filter (fun p => p.2 == -1)).length ≤ K - 1) ∧
    (phaseRun tacs pinfo ph
        (List.replicate (2 * (phaseTotal tacs pinfo ph).toNat + 1) 0)).pc 0 =
      WorkerPC.finished ∧
    (phaseRun tacs pinfo ph
        (List.replicate (2 * (phaseTotal tacs pinfo ph).toNat + 1) 0)).claims =
      (List.range (phaseTotal tacs pinfo ph).toNat).map
        (fun j : Nat => ((0 : Nat), (j : Int))) := by
  have hN := phaseTotal_nonneg tacs pinfo hn ph
  have h := phaseRun_inv tacs pinfo ph hn hI K sched hw
  have hsolo := solo_run (phaseGuard tacs pinfo ph) _ hN hI
    (phaseGuard_holds tacs pinfo hn ph) (phaseTotal tacs pinfo ph).toNat 0
    PhaseState.init (by omega) rfl rfl rfl
  refine ⟨h.claims_eq hI, ?_, ?_, h.successful hN hI, ?_, ?_, hsolo.1, hsolo.2.2⟩
  · intro w
    rw [count_sentinel_claimsOf]
    exact List.nodup_iff_count_le_one.1 h.once w
  · intro w hmem
    have hs := h.sentinel_leaves (phaseGuard tacs pinfo ph) w
      ((mem_sentinelWorkers_iff w _).2 hmem)
    have hstep : phaseRun tacs pinfo ph (sched ++ [w]) =
        workerStep (phaseGuard tacs pinfo ph) (phaseTotal tacs pinfo ph)
          (phaseRun tacs pinfo ph sched) w := by
      simp only [phaseRun, runPhase, List.foldl_append, List.foldl_cons, List.foldl_nil]
    rw [hstep]
    exact ⟨by omega, hs.2.1, hs.2.2.1⟩
  · intro hK hfin
    have hc : (phaseRun tacs pinfo ph sched).numCompletedElements =
        phaseTotal tacs pinfo ph :=
      le_antisymm (h.successful hN hI).2 (h.done 0 (hfin 0 (by omega)))
    have := (h.successful hN hI).1
    rw [hc] at this
    exact this
  · intro h1
    rw [← length_sentinelWorkers]
    exact h.sentinels_le h1

theorem worker_loop_termination_witness :
    0 ≤ sharedTacs.numElements ∧
    isInt (phaseTotal sharedTacs unitInfo Phase.functionEvaluation) ∧
    (∀ w ∈ [0, 0, 0, 0, 0, 0, 0, 1, 0, 1, 0, 1], w < 2) ∧
    phaseTotal sharedTacs unitInfo Phase.functionEvaluation = 4 ∧
    (phaseRun sharedTacs unitInfo Phase.functionEvaluation
      [0, 0, 0, 0, 0, 0, 0, 1, 0, 1, 0, 1]).claims =
      [(0, 0), (0, 1), (0, 2), (0, 3), (1, -1)] ∧
    (phaseRun sharedTacs unitInfo Phase.functionEvaluation
      [0, 0, 0, 0, 0, 0, 0, 1, 0, 1, 0, 1]).pc 1 = WorkerPC.finished ∧
    ((phaseRun sharedTacs unitInfo Phase.functionEvaluation
      [0, 0, 0, 0, 0, 0, 0, 1, 0, 1, 0, 1]).claims.filter (fun p => p.2 == -1)).length ≤
      2 - 1 :=
  ⟨by decide, by decide, by decide, by decide, by decide, by decide,
    (worker_loop_termination sharedTacs unitInfo Phase.functionEvaluation (by decide)
      (by decide) 2 [0, 0, 0, 0, 0, 0, 0, 1, 0, 1, 0, 1] (by decide)).2.2.2.2.2.1
      (by decide)⟩

/-! ### Reading and writing slices of the scratch allocation -/

theorem length_writeAt (off : Nat) (vals data : List Int)
    (h : off + vals.length ≤ data.length) :
    (writeAt off vals data).length = data.length := by
  simp only [writeAt, List.length_append, List.length_take, List.length_drop]
  omega

theorem readAt_writeAt_same (off : Nat) (vals data : List Int)
    (h : off + vals.length ≤ data.length) :
    readAt off vals.length (writeAt off vals data) = vals := by
  have hl : (data.take off).length = off := by
    rw [List.length_take]; omega
  unfold readAt writeAt
  rw [List.append_assoc, List.drop_left' hl, List.take_left' rfl]

theorem readAt_writeAt_before (off off' n : Nat) (vals data : List Int)
    (h : off + vals.length ≤ data.length) (hd : off' + n ≤ off) :
    readAt off' n (writeAt off vals data) = readAt off' n data := by
  have hl : (data.take off).length = off := by
    rw [List.length_take]; omega
  unfold readAt writeAt
  rw [List.append_assoc, List.drop_append_of_le_length (by omega),
    List.take_append_of_le_length (by rw [List.length_drop]; omega)]
  conv_rhs => rw [← List.take_append_drop off data]
  rw [List.drop_append_of_le_length (by omega),
    List.take_append_of_le_length (by rw [List.length_drop]; omega)]

theorem readAt_writeAt_after (off off' n : Nat) (vals data : List Int)
    (h : off + vals.length ≤ data.length) (hd : off + vals.length ≤ off') :
    readAt off' n (writeAt off vals data) = readAt off' n data := by
  have hl : (data.take off ++ vals).length = off + vals.length := by
    rw [List.length_append, List.length_take]; omega
  unfold readAt writeAt
  have : off' = (data.take off ++ vals).length + (off' - (off + vals.length)) := by omega
  rw [this, List.drop_append, List.drop_drop, hl]

/-- A store into `elemRes` leaves what the kernels read of the gathered data
unchanged. -/
theorem readInput_writeAt_res (k : ElementKernels) (s : Nat) (e : Int) (vals data : List Int)
    (hv : vals.length ≤ s) (hd : 4 * s + (k.Xpts e).length ≤ data.length)
    (h1 : (k.localVars e).length ≤ s) (h2 : (k.localDotVars e).length ≤ s)
    (h3 : (k.localDDotVars e).length ≤ s) :
    readInput k s e (writeAt (3 * s) vals data) = readInput k s e data := by
  unfold readInput
  rw [readAt_writeAt_after _ _ _ _ _ (by omega) (by omega),
    readAt_writeAt_before _ 0 _ _ _ (by omega) (by omega),
    readAt_writeAt_before _ s _ _ _ (by omega) (by omega),
    readAt_writeAt_before _ (2 * s) _ _ _ (by omega) (by omega)]

/-- A store past `elemXpts` leaves what the kernels read of the gathered data
unchanged. -/
theorem readInput_writeAt_high (k : ElementKernels) (s sx off : Nat) (e : Int)
    (vals data : List Int) (hx : (k.Xpts e).length ≤ sx) (ho : 4 * s + sx ≤ off)
    (hd : off + vals.length ≤ data.length)
    (h1 : (k.localVars e).length ≤ s) (h2 : (k.localDotVars e).length ≤ s)
    (h3 : (k.localDDotVars e).length ≤ s) :
    readInput k s e (writeAt off vals data) = readInput k s e data := by
  unfold readInput
  rw [readAt_writeAt_before _ (4 * s) _ _ _ (by omega) (by omega),
    readAt_writeAt_before _ 0 _ _ _ (by omega) (by omega),
    readAt_writeAt_before _ s _ _ _ (by omega) (by omega),
    readAt_writeAt_before _ (2 * s) _ _ _ (by omega) (by omega)]

/-- After the four `getValues` calls the kernels read the element-local data of
the element, whatever the array held before. -/
theorem gatherElement_spec (k : ElementKernels) (s : Nat) (e : Int) (data : List Int)
    (hd : 4 * s + (k.Xpts e).length ≤ data.length)
    (h1 : (k.localVars e).length ≤ s) (h2 : (k.localDotVars e).length ≤ s)
    (h3 : (k.localDDotVars e).length ≤ s) :
    (gatherElement k s e data).length = data.length ∧
    readInput k s e (gatherElement k s e data) = k.input e := by
  have l1 := length_writeAt (4 * s) (k.Xpts e) data hd
  have l2 := length_writeAt 0 (k.localVars e) (writeAt (4 * s) (k.Xpts e) data) (by omega)
  have l3 := length_writeAt s (k.localDotVars e)
    (writeAt 0 (k.localVars e) (writeAt (4 * s) (k.Xpts e) data)) (by omega)
  have l4 := length_writeAt (2 * s) (k.localDDotVars e)
    (writeAt s (k.localDotVars e)
      (writeAt 0 (k.localVars e) (writeAt (4 * s) (k.Xpts e) data))) (by omega)
  refine ⟨by unfold gatherElement; omega, ?_⟩
  unfold gatherElement readInput ElementKernels.input
  congr 1
  · rw [readAt_writeAt_after _ (4 * s) _ _ _ (by omega) (by omega),
      readAt_writeAt_after _ (4 * s) _ _ _ (by omega) (by omega),
      readAt_writeAt_after _ (4 * s) _ _ _ (by omega) (by omega),
      readAt_writeAt_same _ _ _ hd]
  · rw [readAt_writeAt_before _ 0 _ _ _ (by omega) (by omega),
      readAt_writeAt_before _ 0 _ _ _ (by omega) (by omega),
      readAt_writeAt_same _ _ _ (by omega)]
  · rw [readAt_writeAt_before _ s _ _ _ (by omega) (by omega),
      readAt_writeAt_same _ _ _ (by omega)]
  · rw [readAt_writeAt_same _ _ _ (by omega)]

theorem length_readAt (off n : Nat) (data : List Int) (h : off + n ≤ data.length) :
    (readAt off n data).length = n := by
  simp only [readAt, List.length_take, List.length_drop]
  omega

/-- A kernel call on `elemRes`: the array keeps its size, the kernels still
read the gathered data, and `elemRes` holds the kernel's result. -/
theorem writeAt_res_spec (tacs : TACSAssembler) (k : ElementKernels) (s sx sw : Nat)
    (hfit : ScratchFits tacs k s sx sw) (e : Int) (vals d : List Int)
    (hd : 4 * s + sx ≤ d.length) (hv : vals.length = tacs.numVariables e) :
    (writeAt (3 * s) vals d).length = d.length ∧
    readInput k s e (writeAt (3 * s) vals d) = readInput k s e d ∧
    readAt (3 * s) (tacs.numVariables e) (writeAt (3 * s) vals d) = vals := by
  have hn := hfit.nvars e
  have hx := hfit.xpts e
  refine ⟨length_writeAt _ _ _ (by omega),
    readInput_writeAt_res k s e vals d (by omega) (by omega) (hfit.vars e) (hfit.dvars e)
      (hfit.ddvars e), ?_⟩
  rw [← hv]
  exact readAt_writeAt_same _ _ _ (by omega)

theorem auxResidualLoop_scratch_spec (tacs : TACSAssembler) (k : ElementKernels)
    (s sx sw : Nat) (hfit : ScratchFits tacs k s sx sw) (e : Int) :
    ∀ (n c : Nat) (d : List Int), 4 * s + sx ≤ d.length → readInput k s e d = k.input e →
      (auxResidualLoop_scratch tacs k s e n c d).1 =
        (auxResidualLoop (withKernels tacs k) e n c
          (readAt (3 * s) (tacs.numVariables e) d)).1 ∧
      (auxResidualLoop_scratch tacs k s e n c d).2.1 =
        (auxResidualLoop (withKernels tacs k) e n c
          (readAt (3 * s) (tacs.numVariables e) d)).2.1 ∧
      readAt (3 * s) (tacs.numVariables e) (auxResidualLoop_scratch tacs k s e n c d).2.2 =
        (auxResidualLoop (withKernels tacs k) e n c
          (readAt (3 * s) (tacs.numVariables e) d)).2.2 ∧
      (auxResidualLoop_scratch tacs k s e n c d).2.2.length = d.length := by
  intro n
  induction n with
  | zero => intro c d _ _; exact ⟨rfl, rfl, rfl, rfl⟩
  | succ n ih =>
    intro c d hd hin
    have haux : (withKernels tacs k).aux = tacs.aux := rfl
    by_cases hc : rd tacs.aux c = e
    · have hn := hfit.nvars e
      have hlen : (k.auxAddResidual c (readInput k s e d)
          (readAt (3 * s) (tacs.numVariables e) d)).length = tacs.numVariables e := by
        rw [hfit.auxResLen, length_readAt _ _ _ (by omega)]
      obtain ⟨w1, w2, w3⟩ := writeAt_res_spec tacs k s sx sw hfit e _ d hd hlen
      obtain ⟨i1, i2, i3, i4⟩ := ih (c + 1) _ (by rw [w1]; exact hd) (by rw [w2]; exact hin)
      rw [w3] at i1 i2 i3
      rw [hin] at i1 i2 i3 i4 w1
      simp only [auxResidualLoop_scratch, auxResidualLoop, haux, hc, if_true]
      rw [hin]
      exact ⟨by rw [i1]; rfl, by rw [i2]; rfl, by rw [i3]; rfl, by rw [i4, w1]⟩
    · simp [auxResidualLoop_scratch, auxResidualLoop, haux, hc]

/-- One iteration of the residual worker on the array makes the calls, with the
local values, of the iteration that starts from cleared buffers. -/
theorem assembleRes_scratch_body_spec (tacs : TACSAssembler) (k : ElementKernels)
    (s sx sw : Nat) (hfit : ScratchFits tacs k s sx sw) (c : Nat) (d : List Int) (e : Int)
    (hd : 4 * s + sx ≤ d.length) :
    (assembleRes_scratch_body tacs k s c d e).1 = (assembleRes_body (withKernels tacs k) c e).1 ∧
    (assembleRes_scratch_body tacs k s c d e).2.2 =
      (assembleRes_body (withKernels tacs k) c e).2 ∧
    (assembleRes_scratch_body tacs k s c d e).2.1.length = d.length := by
  by_cases h0 : e ≥ 0
  · have hn := hfit.nvars e
    have hx := hfit.xpts e
    obtain ⟨g1, g2⟩ := gatherElement_spec k s e d (by omega) (hfit.vars e) (hfit.dvars e)
      (hfit.ddvars e)
    have hrep : (List.replicate (tacs.numVariables e) (0 : Int)).length =
        tacs.numVariables e := List.length_replicate _ _
    obtain ⟨m1, m2, m3⟩ := writeAt_res_spec tacs k s sx sw hfit e _ (gatherElement k s e d)
      (by omega) hrep
    have hlen : (k.addResidual e
        (readInput k s e (memset (3 * s) (tacs.numVariables e) (gatherElement k s e d)))
        (readAt (3 * s) (tacs.numVariables e)
          (memset (3 * s) (tacs.numVariables e) (gatherElement k s e d)))).length =
        tacs.numVariables e := by
      rw [hfit.resLen, memset, m3, hrep]
    obtain ⟨w1, w2, w3⟩ := writeAt_res_spec tacs k s sx sw hfit e _
      (memset (3 * s) (tacs.numVariables e) (gatherElement k s e d))
      (by rw [memset, m1]; omega) hlen
    have hin : readInput k s e (memset (3 * s) (tacs.numVariables e) (gatherElement k s e d)) =
        k.input e := by rw [memset, m2, g2]
    obtain ⟨i1, i2, i3, i4⟩ := auxResidualLoop_scratch_spec tacs k s sx sw hfit e
      (tacs.aux.length - auxSkip tacs.aux e (tacs.aux.length - c) c)
      (auxSkip tacs.aux e (tacs.aux.length - c) c) _
      (by rw [w1, memset, m1]; omega) (by rw [w2]; exact hin)
    have hz : readAt (3 * s) (tacs.numVariables e)
        (memset (3 * s) (tacs.numVariables e) (gatherElement k s e d)) =
        List.replicate (tacs.numVariables e) 0 := by rw [memset, m3]
    rw [w3] at i1 i2 i3
    rw [hin, hz] at i1 i2 i3 i4 w1
    have hfree : assembleRes_body (withKernels tacs k) c e =
        ((auxResidualLoop (withKernels tacs k) e
            (tacs.aux.length - auxSkip tacs.aux e (tacs.aux.length - c) c)
            (auxSkip tacs.aux e (tacs.aux.length - c) c)
            (k.addResidual e (k.input e) (List.replicate (tacs.numVariables e) 0))).2.1,
          Event.addResidual e ::
            (auxResidualLoop (withKernels tacs k) e
              (tacs.aux.length - auxSkip tacs.aux e (tacs.aux.length - c) c)
              (auxSkip tacs.aux e (tacs.aux.length - c) c)
              (k.addResidual e (k.input e) (List.replicate (tacs.numVariables e) 0))).1 ++
            [Event.addValues e
              (auxResidualLoop (withKernels tacs k) e
                (tacs.aux.length - auxSkip tacs.aux e (tacs.aux.length - c) c)
                (auxSkip tacs.aux e (tacs.aux.length - c) c)
                (k.addResidual e (k.input e) (List.replicate (tacs.numVariables e) 0))).2.2]) := by
      simp only [assembleRes_body, h0, if_true]
      rfl
    rw [hfree]
    simp only [assembleRes_scratch_body, h0, if_true]
    rw [hin, hz]
    refine ⟨i2, ?_, ?_⟩
    · rw [i1, i3]
    · rw [i4, w1, memset, m1, g1]
  · simp [assembleRes_scratch_body, assembleRes_body, h0]

theorem assembleRes_scratch_loop_spec (tacs : TACSAssembler) (k : ElementKernels)
    (s sx sw : Nat) (hfit : ScratchFits tacs k s sx sw) :
    ∀ (items : List Int) (c : Nat) (d : List Int), 4 * s + sx ≤ d.length →
      assembleRes_scratch_loop tacs k s c d items =
        assembleRes_loop (withKernels tacs k) c items := by
  intro items
  induction items with
  | nil => intro c d _; rfl
  | cons e rest ih =>
    intro c d hd
    obtain ⟨b1, b2, b3⟩ := assembleRes_scratch_body_spec tacs k s sx sw hfit c d e hd
    simp only [assembleRes_scratch_loop, assembleRes_loop]
    rw [b2, ih _ _ (by rw [b3]; exact hd), b1]

/-- A kernel call on `elemRes` in the tangent worker. -/
theorem ScratchHolds.call_res {tacs : TACSAssembler} {k : ElementKernels} {s sx sw : Nat}
    {e : Int} {d r m : List Int} (h : ScratchHolds tacs k s sx sw e d r m)
    (hfit : ScratchFits tacs k s sx sw) (f : ElementInput → List Int → List Int)
    (hf : ∀ i x, (f i x).length = x.length) :
    ScratchHolds tacs k s sx sw e
      (writeAt (3 * s) (f (readInput k s e d) (readAt (3 * s) (tacs.numVariables e) d)) d)
      (f (k.input e) r) m := by
  have hn := hfit.nvars e
  have hl := h.len
  have hlen : (f (readInput k s e d) (readAt (3 * s) (tacs.numVariables e) d)).length =
      tacs.numVariables e := by
    rw [hf, length_readAt _ _ _ (by omega)]
  obtain ⟨w1, w2, w3⟩ := writeAt_res_spec tacs k s sx sw hfit e _ d (by omega) hlen
  refine ⟨by rw [w1]; exact hl, by rw [w2]; exact h.input, ?_, ?_⟩
  · rw [w3, h.input, h.res]
  · rw [readAt_writeAt_after _ _ _ _ _ (by omega) (by omega)]
    exact h.mat

/-- A kernel call on `elemMat` in the tangent worker. -/
theorem ScratchHolds.call_mat {tacs : TACSAssembler} {k : ElementKernels} {s sx sw : Nat}
    {e : Int} {d r m : List Int} (h : ScratchHolds tacs k s sx sw e d r m)
    (hfit : ScratchFits tacs k s sx sw) (f : ElementInput → List Int → List Int)
    (hf : ∀ i x, (f i x).length = x.length) :
    ScratchHolds tacs k s sx sw e
      (writeAt (4 * s + sx + sw)
        (f (readInput k s e d)
          (readAt (4 * s + sx + sw) (tacs.numVariables e * tacs.numVariables e) d)) d)
      r (f (k.input e) m) := by
  have hn := hfit.nvars e
  have hnn : tacs.numVariables e * tacs.numVariables e ≤ s * s := Nat.mul_le_mul hn hn
  have hl := h.len
  have hx := hfit.xpts e
  have hlen : (f (readInput k s e d)
      (readAt (4 * s + sx + sw) (tacs.numVariables e * tacs.numVariables e) d)).length =
      tacs.numVariables e * tacs.numVariables e := by
    rw [hf, length_readAt _ _ _ (by omega)]
  refine ⟨?_, ?_, ?_, ?_⟩
  · rw [length_writeAt _ _ _ (by omega)]
    exact hl
  · rw [readInput_writeAt_high k s sx _ e _ d hx (by omega) (by omega) (hfit.vars e)
      (hfit.dvars e) (hfit.ddvars e)]
    exact h.input
  · rw [readAt_writeAt_before _ _ _ _ _ (by omega) (by omega)]
    exact h.res
  · have := readAt_writeAt_same (4 * s + sx + sw) _ d
      (show 4 * s + sx + sw + (f (readInput k s e d)
        (readAt (4 * s + sx + sw) (tacs.numVariables e * tacs.numVariables e) d)).length ≤
        d.length by omega)
    rw [hlen] at this
    rw [this, h.input, h.mat]

theorem auxJacobianLoop_scratch_spec (tacs : TACSAssembler) (pinfo : TACSAssemblerPthreadInfo)
    (k : ElementKernels) (s sx sw : Nat) (hfit : ScratchFits tacs k s sx sw) (e : Int) :
    ∀ (n c : Nat) (d r m : List Int), ScratchHolds tacs k s sx sw e d r m →
      (auxJacobianLoop_scratch tacs pinfo k s (4 * s + sx + sw) e n c d).1 =
        (auxJacobianLoop (withKernels tacs k) pinfo e n c r m).1 ∧
      (auxJacobianLoop_scratch tacs pinfo k s (4 * s + sx + sw) e n c d).2.1 =
        (auxJacobianLoop (withKernels tacs k) pinfo e n c r m).2.1 ∧
      ScratchHolds tacs k s sx sw e
        (auxJacobianLoop_scratch tacs pinfo k s (4 * s + sx + sw) e n c d).2.2
        (auxJacobianLoop (withKernels tacs k) pinfo e n c r m).2.2.1
        (auxJacobianLoop (withKernels tacs k) pinfo e n c r m).2.2.2 := by
  intro n
  induction n with
  | zero => intro c d r m h; exact ⟨rfl, rfl, h⟩
  | succ n ih =>
    intro c d r m h
    have haux : (withKernels tacs k).aux = tacs.aux := rfl
    by_cases hc : rd tacs.aux c = e
    · have h1 := h.call_res hfit (k.auxAddResidual c) (hfit.auxResLen c)
      have h2 := h1.call_mat hfit (k.auxAddJacobian c pinfo.alpha pinfo.beta pinfo.gamma)
        (hfit.auxJacLen c pinfo.alpha pinfo.beta pinfo.gamma)
      obtain ⟨i1, i2, i3⟩ := ih (c + 1) _ _ _ h2
      simp only [auxJacobianLoop_scratch, auxJacobianLoop, haux, hc, if_true]
      exact ⟨by rw [i1]; rfl, by rw [i2]; rfl, i3⟩
    · simp only [auxJacobianLoop_scratch, auxJacobianLoop, haux, hc, if_false]
      exact ⟨trivial, trivial, h⟩

theorem assembleJacobian_body_nonneg (tacs : TACSAssembler) (pinfo : TACSAssemblerPthreadInfo)
    (c : Nat) (e : Int) (h0 : e ≥ 0) (X : List Event × Nat × List Int × List Int)
    (hX : X = auxJacobianLoop tacs pinfo e
      (tacs.aux.length - auxSkip tacs.aux e (tacs.aux.length - c) c)
      (auxSkip tacs.aux e (tacs.aux.length - c) c)
      (tacs.addResidual e (List.replicate (tacs.numVariables e) 0))
      (tacs.addJacobian e pinfo.alpha pinfo.beta pinfo.gamma
        (List.replicate (tacs.numVariables e * tacs.numVariables e) 0))) :
    assembleJacobian_body tacs pinfo c e =
      (X.2.1, Event.addResidual e :: Event.addJacobian e :: X.1 ++
        [Event.addValues e X.2.2.1, Event.addMatValues e X.2.2.2]) := by
  subst hX
  simp only [assembleJacobian_body, h0, if_true]

/-- One iteration of the tangent worker on the array makes the calls, with the
local values, of the iteration that starts from cleared buffers. -/
theorem assembleJacobian_scratch_body_spec (tacs : TACSAssembler)
    (pinfo : TACSAssemblerPthreadInfo) (k : ElementKernels) (s sx sw : Nat)
    (hfit : ScratchFits tacs k s sx sw) (c : Nat) (d : List Int) (e : Int)
    (hd : 4 * s + sx + s * s + sw ≤ d.length) :
    (assembleJacobian_scratch_body tacs pinfo k s sx sw c d e).1 =
      (assembleJacobian_body (withKernels tacs k) pinfo c e).1 ∧
    (assembleJacobian_scratch_body tacs pinfo k s sx sw c d e).2.2 =
      (assembleJacobian_body (withKernels tacs k) pinfo c e).2 ∧
    4 * s + sx + s * s + sw ≤
      (assembleJacobian_scratch_body tacs pinfo k s sx sw c d e).2.1.length := by
  by_cases h0 : e ≥ 0
  · have hn := hfit.nvars e
    have hnn : tacs.numVariables e * tacs.numVariables e ≤ s * s := Nat.mul_le_mul hn hn
    have hx := hfit.xpts e
    have hw := hfit.weights e
    obtain ⟨g1, g2⟩ := gatherElement_spec k s e d (by omega) (hfit.vars e) (hfit.dvars e)
      (hfit.ddvars e)
    have hrep : (List.replicate (tacs.numVariables e) (0 : Int)).length =
        tacs.numVariables e := List.length_replicate _ _
    have hrep2 : (List.replicate (tacs.numVariables e * tacs.numVariables e) (0 : Int)).length =
        tacs.numVariables e * tacs.numVariables e := List.length_replicate _ _
    obtain ⟨m1, m2, m3⟩ := writeAt_res_spec tacs k s sx sw hfit e _ (gatherElement k s e d)
      (by omega) hrep
    have H3 : ScratchHolds tacs k s sx sw e
        (writeAt (4 * s + sx + sw)
          (List.replicate (tacs.numVariables e * tacs.numVariables e) 0)
          (writeAt (3 * s) (List.replicate (tacs.numVariables e) 0) (gatherElement k s e d)))
        (List.replicate (tacs.numVariables e) 0)
        (List.replicate (tacs.numVariables e * tacs.numVariables e) 0) := by
      refine ⟨?_, ?_, ?_, ?_⟩
      · rw [length_writeAt _ _ _ (by rw [hrep2, m1]; omega), m1]
        omega
      · rw [readInput_writeAt_high k s sx _ e _ _ hx (by omega) (by rw [hrep2, m1]; omega)
          (hfit.vars e) (hfit.dvars e) (hfit.ddvars e), m2, g2]
      · rw [readAt_writeAt_before _ _ _ _ _ (by rw [hrep2, m1]; omega) (by omega), m3]
      · have := readAt_writeAt_same (4 * s + sx + sw)
          (List.replicate (tacs.numVariables e * tacs.numVariables e) 0)
          (writeAt (3 * s) (List.replicate (tacs.numVariables e) 0) (gatherElement k s e d))
          (by rw [hrep2, m1]; omega)
        rw [hrep2] at this
        exact this
    have H4 := H3.call_res hfit (k.addResidual e) (hfit.resLen e)
    have H5 := H4.call_mat hfit (k.addJacobian e pinfo.alpha pinfo.beta pinfo.gamma)
      (hfit.jacLen e pinfo.alpha pinfo.beta pinfo.gamma)
    obtain ⟨i1, i2, i3⟩ := auxJacobianLoop_scratch_spec tacs pinfo k s sx sw hfit e
      (tacs.aux.length - auxSkip tacs.aux e (tacs.aux.length - c) c)
      (auxSkip tacs.aux e (tacs.aux.length - c) c) _ _ _ H5
    rw [assembleJacobian_body_nonneg (withKernels tacs k) pinfo c e h0 _ rfl]
    simp only [assembleJacobian_scratch_body, memset, h0, if_true]
    refine ⟨i2, ?_, ?_⟩
    · rw [i1, i3.res, i3.mat]
      rfl
    · have := i3.len
      rw [length_writeAt _ _ _ (by omega)]
      exact this
  · simp only [assembleJacobian_scratch_body, assembleJacobian_body, h0, if_false]
    exact ⟨trivial, trivial, hd⟩

theorem assembleJacobian_scratch_loop_spec (tacs : TACSAssembler)
    (pinfo : TACSAssemblerPthreadInfo) (k : ElementKernels) (s sx sw : Nat)
    (hfit : ScratchFits tacs k s sx sw) :
    ∀ (items : List Int) (c : Nat) (d : List Int), 4 * s + sx + s * s + sw ≤ d.length →
      assembleJacobian_scratch_loop tacs pinfo k s sx sw c d items =
        assembleJacobian_loop (withKernels tacs k) pinfo c items := by
  intro items
  induction items with
  | nil => intro c d _; rfl
  | cons e rest ih =>
    intro c d hd
    obtain ⟨b1, b2, b3⟩ := assembleJacobian_scratch_body_spec tacs pinfo k s sx sw hfit c d e hd
    simp only [assembleJacobian_scratch_loop, assembleJacobian_loop]
    rw [b2, ih _ _ b3, b1]

/-! ### Scratch isolation -/

theorem filterMap_flatMap_single {α β : Type} (f : α → List Event) (g : Event → Option β)
    (e : α) : ∀ L : List α, L.Nodup → e ∈ L →
      (∀ x ∈ L, x ≠ e → (f x).filterMap g = []) →
      (L.flatMap f).filterMap g = (f e).filterMap g := by
  have hnil : ∀ L : List α, (∀ x ∈ L, (f x).filterMap g = []) →
      (L.flatMap f).filterMap g = [] := by
    intro L
    induction L with
    | nil => intro _; rfl
    | cons x rest ih =>
      intro h
      rw [List.flatMap_cons, List.filterMap_append, h x (List.mem_cons_self _ _),
        ih (fun y hy => h y (List.mem_cons_of_mem _ hy))]
      rfl
  intro L
  induction L with
  | nil => intro _ he; simp at he
  | cons x rest ih =>
    intro hnd he h
    rw [List.nodup_cons] at hnd
    rw [List.flatMap_cons, List.filterMap_append]
    by_cases hx : x = e
    · subst hx
      rw [hnil rest (fun y hy => h y (List.mem_cons_of_mem _ hy)
        (fun heq => hnd.1 (heq ▸ hy))), List.append_nil]
    · have her : e ∈ rest := by
        rcases List.mem_cons.1 he with h1 | h1
        · exact absurd h1.symm hx
        · exact h1
      rw [h x (List.mem_cons_self _ _) hx,
        ih hnd.2 her (fun y hy => h y (List.mem_cons_of_mem _ hy)), List.nil_append]

theorem residualUnit_scattered_ne (tacs : TACSAssembler) {x e : Int} (h0 : 0 ≤ x)
    (hne : x ≠ e) : (residualUnit tacs x).filterMap (Event.scattered e) = [] := by
  obtain ⟨q, q', r, _, _, _, _, _, h⟩ := residualUnit_shape tacs h0
  rw [h]
  simp [List.filterMap_append, List.filterMap_map, Event.scattered, hne]

theorem jacobianUnit_scattered_ne (tacs : TACSAssembler) (pinfo : TACSAssemblerPthreadInfo)
    {x e : Int} (h0 : 0 ≤ x) (hne : x ≠ e) :
    (jacobianUnit tacs pinfo x).filterMap (Event.scattered e) = [] := by
  obtain ⟨q, q', r, m, _, _, _, _, _, h⟩ := jacobianUnit_shape tacs pinfo h0
  rw [h]
  simp [List.filterMap_append, List.filterMap_flatMap, Event.scattered, hne]

theorem residualUnit_scattered_sorted (tacs : TACSAssembler) (hs : tacs.aux.Pairwise (· ≤ ·))
    {e : Int} (h0 : 0 ≤ e) :
    (residualUnit tacs e).filterMap (Event.scattered e) = [localResidual tacs e] := by
  unfold residualUnit
  rw [(assembleRes_body_spec tacs hs h0 (Nat.zero_le _)
    (fun j hj => absurd hj (Nat.not_lt_zero j))).1]
  simp [residualSpec, List.filterMap_append, List.filterMap_map, Event.scattered]

theorem jacobianUnit_scattered_sorted (tacs : TACSAssembler) (pinfo : TACSAssemblerPthreadInfo)
    (hs : tacs.aux.Pairwise (· ≤ ·)) {e : Int} (h0 : 0 ≤ e) :
    (jacobianUnit tacs pinfo e).filterMap (Event.scattered e) =
      [localResidual tacs e, localJacobian tacs pinfo e] := by
  unfold jacobianUnit
  rw [(assembleJacobian_body_spec tacs pinfo hs h0 (Nat.zero_le _)
    (fun j hj => absurd hj (Nat.not_lt_zero j))).1]
  simp [jacobianSpec, List.filterMap_append, List.filterMap_flatMap, Event.scattered]

/-- C11: in the residual and tangent workers run on the explicit scratch array
(buffers large enough for every element, kernels following the element kernel
contract), whatever the array holds at the start and whatever increasing
indices the worker is handed: the worker makes exactly the steps of the
single-unit references of the elements it processes; for each element `e` it
processes, the local values it scatter-adds for `e` (`elemRes`, and `elemMat`
for the tangent) are those of the single-unit reference of `e`, which mention
neither the initial array, nor the other elements processed, nor the worker;
and with a sorted auxiliary table they are the element kernel applied to the
gathered data of `e` from cleared buffers followed by the auxiliary entries for
`e`. -/
theorem scratch_isolation (tacs : TACSAssembler) (pinfo : TACSAssemblerPthreadInfo)
    (k : ElementKernels) (s n w : Nat) (hfit : ScratchFits tacs k s (3 * n) w)
    (data data' : List Int) (hd : data.length = assembleRes_dataSize s n)
    (hd' : data'.length = assembleJacobian_dataSize s n w) (items : List Int)
    (hpw : (items.filter (fun r => decide (0 ≤ r))).Pairwise (· < ·)) :
    assembleRes_scratch tacs k s data items =
      (items.filter (fun r => decide (0 ≤ r))).flatMap (residualUnit (withKernels tacs k)) ∧
    assembleJacobian_scratch tacs pinfo k s n w data' items =
      (items.filter (fun r => decide (0 ≤ r))).flatMap
        (jacobianUnit (withKernels tacs k) pinfo) ∧
    (∀ e ∈ items, 0 ≤ e →
      (assembleRes_scratch tacs k s data items).filterMap (Event.scattered e) =
        (residualUnit (withKernels tacs k) e).filterMap (Event.scattered e) ∧
      (assembleJacobian_scratch tacs pinfo k s n w data' items).filterMap
          (Event.scattered e) =
        (jacobianUnit (withKernels tacs k) pinfo e).filterMap (Event.scattered e)) ∧
    (tacs.aux.Pairwise (· ≤ ·) → ∀ e ∈ items, 0 ≤ e →
      (assembleRes_scratch tacs k s data items).filterMap (Event.scattered e) =
        [localResidual (withKernels tacs k) e] ∧
      (assembleJacobian_scratch tacs pinfo k s n w data' items).filterMap
          (Event.scattered e) =
        [localResidual (withKernels tacs k) e, localJacobian (withKernels tacs k) pinfo e]) := by
  have hR : assembleRes_scratch tacs k s data items =
      (items.filter (fun r => decide (0 ≤ r))).flatMap (residualUnit (withKernels tacs k)) := by
    unfold assembleRes_scratch
    rw [assembleRes_scratch_loop_spec tacs k s (3 * n) w hfit items 0 data
      (by rw [hd, assembleRes_dataSize])]
    exact assembleRes_thread_general (withKernels tacs k) items hpw
  have hJ : assembleJacobian_scratch tacs pinfo k s n w data' items =
      (items.filter (fun r => decide (0 ≤ r))).flatMap
        (jacobianUnit (withKernels tacs k) pinfo) := by
    unfold assembleJacobian_scratch
    rw [assembleJacobian_scratch_loop_spec tacs pinfo k s (3 * n) w hfit items 0 data'
      (by rw [hd', assembleJacobian_dataSize])]
    exact assembleJacobian_thread_general (withKernels tacs k) pinfo items hpw
  have hnd : (items.filter (fun r => decide (0 ≤ r))).Nodup :=
    hpw.imp (fun h => ne_of_lt h)
  have hnn : ∀ x ∈ items.filter (fun r => decide (0 ≤ r)), 0 ≤ x := by
    intro x hx
    simpa using (List.mem_filter.1 hx).2
  have hU : ∀ e ∈ items, 0 ≤ e →
      (assembleRes_scratch tacs k s data items).filterMap (Event.scattered e) =
        (residualUnit (withKernels tacs k) e).filterMap (Event.scattered e) ∧
      (assembleJacobian_scratch tacs pinfo k s n w data' items).filterMap
          (Event.scattered e) =
        (jacobianUnit (withKernels tacs k) pinfo e).filterMap (Event.scattered e) := by
    intro e he h0
    have hmem : e ∈ items.filter (fun r => decide (0 ≤ r)) :=
      List.mem_filter.2 ⟨he, by simpa using h0⟩
    rw [hR, hJ]
    exact ⟨filterMap_flatMap_single _ _ e _ hnd hmem
        (fun x hx hne => residualUnit_scattered_ne _ (hnn x hx) hne),
      filterMap_flatMap_single _ _ e _ hnd hmem
        (fun x hx hne => jacobianUnit_scattered_ne _ pinfo (hnn x hx) hne)⟩
  refine ⟨hR, hJ, hU, ?_⟩
  intro hs e he h0
  have hs' : (withKernels tacs k).aux.Pairwise (· ≤ ·) := hs
  rw [(hU e he h0).1, (hU e he h0).2, residualUnit_scattered_sorted _ hs' h0,
    jacobianUnit_scattered_sorted _ pinfo hs' h0]
  exact ⟨rfl, rfl⟩

theorem scratchKernels_fits : ScratchFits scratchTacs scratchKernels 2 (3 * 1) 1 :=
  ⟨by intro e; simp [scratchKernels],
    by intro e; simp only [scratchKernels]; split <;> simp,
    by intro e; simp only [scratchKernels]; split <;> simp,
    by intro e; simp only [scratchKernels]; split <;> simp,
    by intro e; simp only [scratchTacs]; split <;> omega,
    by intro e; simp [scratchKernels],
    by intro e i r; simp [scratchKernels],
    by intro e a b g i r; simp [scratchKernels],
    by intro j i r; simp [scratchKernels],
    by intro j a b g i r; simp [scratchKernels]⟩

theorem scratch_isolation_witness :
    ScratchFits scratchTacs scratchKernels 2 (3 * 1) 1 ∧
    ([7, 7, 7, 7, 7, 7, 7, 7, 7, 7, 7] : List Int).length = assembleRes_dataSize 2 1 ∧
    ([7, 7, 7, 7, 7, 7, 7, 7, 7, 7, 7, 7, 7, 7, 7, 7] : List Int).length =
      assembleJacobian_dataSize 2 1 1 ∧
    (([0, 1, 3, -1] : List Int).filter (fun r => decide (0 ≤ r))).Pairwise (· < ·) ∧
    (assembleRes_scratch scratchTacs scratchKernels 2 [7, 7, 7, 7, 7, 7, 7, 7, 7, 7, 7]
        [0, 1, 3, -1] =
      (([0, 1, 3, -1] : List Int).filter (fun r => decide (0 ≤ r))).flatMap
        (residualUnit (withKernels scratchTacs scratchKernels))) ∧
    (assembleRes_scratch scratchTacs scratchKernels 2 [7, 7, 7, 7, 7, 7, 7, 7, 7, 7, 7]
        [0, 1, 3, -1]).filterMap (Event.scattered 3) = [[3075]] ∧
    (assembleRes_scratch scratchTacs scratchKernels 2 [0, 0, 0, 0, 0, 0, 0, 0, 0, 0, 0]
        [3]).filterMap (Event.scattered 3) = [[3075]] ∧
    (assembleJacobian_scratch scratchTacs unitInfo scratchKernels 2 1 1
        [7, 7, 7, 7, 7, 7, 7, 7, 7, 7, 7, 7, 7, 7, 7, 7] [0, 1, 3, -1]).filterMap
      (Event.scattered 1) = [[3070, 3070], [106, 106, 106, 106]] ∧
    (assembleJacobian_scratch scratchTacs unitInfo scratchKernels 2 1 1
        [0, 1, 2, 3, 4, 5, 6, 7, 8, 9, 10, 11, 12, 13, 14, 15] [1]).filterMap
      (Event.scattered 1) = [[3070, 3070], [106, 106, 106, 106]] :=
  ⟨scratchKernels_fits, by decide, by decide, by decide,
    (scratch_isolation scratchTacs unitInfo scratchKernels 2 1 1 scratchKernels_fits
      [7, 7, 7, 7, 7, 7, 7, 7, 7, 7, 7] [7, 7, 7, 7, 7, 7, 7, 7, 7, 7, 7, 7, 7, 7, 7, 7]
      (by decide) (by decide) [0, 1, 3, -1] (by decide)).1,
    by decide, by decide, by decide, by decide⟩

/-! ### The cached quantity along a worker's run -/

theorem evalFunctions_body_cursor (funcs : List TACSFunction) (off : List Int)
    (s s' : FuncCursor) (item : Int) (h0 : 0 ≤ item)
    (hf : findFunction off funcs.length s item = some s') :
    ∃ evs, evalFunctions_body funcs off s item = some (s', evs) := by
  simp only [evalFunctions_body, ge_iff_le, h0, if_true, hf]
  split
  · exact ⟨_, rfl⟩
  · split
    · exact ⟨_, rfl⟩
    · exact ⟨_, rfl⟩

theorem evalDVSens_body_cursor (funcs : List TACSFunction) (off : List Int)
    (s s' : FuncCursor) (item : Int) (h0 : 0 ≤ item)
    (hf : findFunction off funcs.length s item = some s') :
    ∃ evs, evalDVSens_body funcs off s item = some (s', evs) := by
  simp only [evalDVSens_body, ge_iff_le, h0, if_true, hf]
  split
  · exact ⟨_, rfl⟩
  · split
    · exact ⟨_, rfl⟩
    · exact ⟨_, rfl⟩

/-- One use of the mapper from a cached quantity whose range does not start
above the flat index. -/
theorem cachedLookup_of_range (numElements : Int) (hn : 0 ≤ numElements)
    (funcs : List TACSFunction) {item : Int} {k : Nat} (hk : k < funcs.length)
    (h0 : 0 ≤ item) (hge : rd (funcElemDomainSize numElements funcs) k ≤ item)
    (hlt : item < rd (funcElemDomainSize numElements funcs) funcs.length) :
    ∃ k', findFunction (funcElemDomainSize numElements funcs) funcs.length ⟨k, k⟩ item =
        some ⟨k', k'⟩ ∧ k' < funcs.length ∧
      rd (funcElemDomainSize numElements funcs) k' ≤ item ∧
      CachedLookup funcs (funcElemDomainSize numElements funcs) numElements
        ⟨⟨k, k⟩, item, some ⟨k', k'⟩⟩ := by
  obtain ⟨k', hf, _, hk', h1, h2, hiff, hl0, hl1⟩ :=
    findFunction_from_cache numElements hn funcs k hk item hge hlt
  refine ⟨k', hf, hk', h1, rfl, hk, h0, hlt, hge, ?_, k', rfl, hf, hk', ?_, h1, h2, hl0, hl1⟩
  · constructor
    · intro h hin; omega
    · intro h
      by_contra hc
      exact h ⟨hge, by omega⟩
  · constructor
    · intro h; exact ⟨hge, hiff.1 h⟩
    · intro h; exact hiff.2 h.2

theorem lookupLoop_spec (body : FuncCursor → Int → Option (FuncCursor × List Event))
    (m : Nat) (off : List Int) (P : Lookup → Prop)
    (hbody : ∀ k item, k < m → 0 ≤ item → rd off k ≤ item → item < rd off m →
      ∃ k' evs, body ⟨k, k⟩ item = some (⟨k', k'⟩, evs) ∧ k' < m ∧ rd off k' ≤ item ∧
        P ⟨⟨k, k⟩, item, some ⟨k', k'⟩⟩)
    (hneg : ∀ s item, item < 0 → body s item = some (s, [])) :
    ∀ (items : List Int) (k : Nat), k < m →
      (items.filter (fun r => decide (0 ≤ r))).Pairwise (· < ·) →
      (∀ i ∈ items, 0 ≤ i → rd off k ≤ i ∧ i < rd off m) →
      (lookupLoop body m ⟨k, k⟩ items).map Lookup.item =
        items.filter (fun r => decide (0 ≤ r)) ∧
      ∀ l ∈ lookupLoop body m ⟨k, k⟩ items, P l := by
  intro items
  induction items with
  | nil => intro k _ _ _; simp [lookupLoop]
  | cons item rest ih =>
    intro k hk hpw hb
    by_cases h0 : 0 ≤ item
    · obtain ⟨hk0, hlt⟩ := hb item (List.mem_cons_self _ _) h0
      obtain ⟨k', evs, hbd, hk', hge', hP⟩ := hbody k item hk h0 hk0 hlt
      have hfil : (item :: rest).filter (fun r => decide (0 ≤ r)) =
          item :: rest.filter (fun r => decide (0 ≤ r)) := by
        simp [List.filter_cons, h0]
      rw [hfil] at hpw ⊢
      rw [List.pairwise_cons] at hpw
      have hrest : ∀ i ∈ rest, 0 ≤ i → rd off k' ≤ i ∧ i < rd off m := by
        intro i hi hi0
        have hlt' : item < i := hpw.1 i (List.mem_filter.2 ⟨hi, by simpa using hi0⟩)
        exact ⟨by omega, (hb i (List.mem_cons_of_mem _ hi) hi0).2⟩
      obtain ⟨ih1, ih2⟩ := ih k' hk' hpw.2 hrest
      have hloop : lookupLoop body m ⟨k, k⟩ (item :: rest) =
          ⟨⟨k, k⟩, item, some ⟨k', k'⟩⟩ :: lookupLoop body m ⟨k', k'⟩ rest := by
        simp [lookupLoop, hk, hbd, h0]
      rw [hloop]
      refine ⟨by simp [ih1], ?_⟩
      intro l hl
      rcases List.mem_cons.1 hl with h | h
      · subst h; exact hP
      · exact ih2 l h
    · have hfil : (item :: rest).filter (fun r => decide (0 ≤ r)) =
          rest.filter (fun r => decide (0 ≤ r)) := by
        simp [List.filter_cons, h0]
      rw [hfil] at hpw ⊢
      have hloop : lookupLoop body m ⟨k, k⟩ (item :: rest) =
          lookupLoop body m ⟨k, k⟩ rest := by
        simp [lookupLoop, hk, hneg ⟨k, k⟩ item (by omega), h0]
      rw [hloop]
      exact ih k hk hpw (fun i hi => hb i (List.mem_cons_of_mem _ hi))

theorem lookupLoop_no_functions (body : FuncCursor → Int → Option (FuncCursor × List Event))
    (s : FuncCursor) (items : List Int) : lookupLoop body 0 s items = [] := by
  cases items <;> simp [lookupLoop]

/-- The lookups of a multi-function worker on the indices the dispenser hands
to worker `w`: every claimed index is looked up, and every lookup satisfies
`P`. -/
theorem lookupLoop_claims (numElements : Int) (hn : 0 ≤ numElements)
    (funcs : List TACSFunction) (hI : isInt (totalSize numElements funcs))
    (body : FuncCursor → Int → Option (FuncCursor × List Event))
    (P : Lookup → Prop)
    (hbody : ∀ k item, k < funcs.length → 0 ≤ item →
      rd (funcElemDomainSize numElements funcs) k ≤ item →
      item < rd (funcElemDomainSize numElements funcs) funcs.length →
      ∃ k' evs, body ⟨k, k⟩ item = some (⟨k', k'⟩, evs) ∧ k' < funcs.length ∧
        rd (funcElemDomainSize numElements funcs) k' ≤ item ∧
        P ⟨⟨k, k⟩, item, some ⟨k', k'⟩⟩)
    (hneg : ∀ s item, item < 0 → body s item = some (s, []))
    (sched : List Nat) (w : Nat) :
    (lookupLoop body funcs.length ⟨0, 0⟩
        (claimsOf w (runClaims (totalSize numElements funcs) 0 sched))).map Lookup.item =
      (claimsOf w (runClaims (totalSize numElements funcs) 0 sched)).filter
          (fun r => decide (0 ≤ r)) ∧
    ∀ l ∈ lookupLoop body funcs.length ⟨0, 0⟩
        (claimsOf w (runClaims (totalSize numElements funcs) 0 sched)), P l := by
  obtain ⟨hpw, hrange⟩ :=
    claimsOf_sorted (totalSize numElements funcs) (totalSize_nonneg hn funcs) hI sched w
  rcases Nat.eq_zero_or_pos funcs.length with hm | hm
  · have hnil : funcs = [] := List.length_eq_zero.1 hm
    subst hnil
    simp only [List.length_nil, lookupLoop_no_functions, List.map_nil,
      List.not_mem_nil, false_implies, implies_true, and_true]
    symm
    rw [List.filter_eq_nil_iff]
    intro i hi
    have := hrange i hi
    have ht : totalSize numElements [] = 0 := by
      simp [totalSize, funcElemDomainSize, domainSizeLoop, rd]
    rw [ht] at this
    simp only [decide_eq_true_eq]
    intro h
    have := this h
    omega
  · have hb : ∀ i ∈ claimsOf w (runClaims (totalSize numElements funcs) 0 sched), 0 ≤ i →
        rd (funcElemDomainSize numElements funcs) 0 ≤ i ∧
        i < rd (funcElemDomainSize numElements funcs) funcs.length := by
      intro i hi h0
      rw [funcElemDomainSize_zero]
      exact ⟨h0, hrange i hi h0⟩
    exact lookupLoop_spec body funcs.length
      (funcElemDomainSize numElements funcs) P hbody hneg _ 0 hm hpw hb

/-- C15: along the run of any worker, in any serialised order of the claims,
every flat index `i` the worker claims is looked up from a cached quantity
`c < numFuncs` with `0 <= i < total`; the mapper re-scans exactly when `i`
falls outside the range of `c` and keeps `c` exactly when
`offset[c] <= i < offset[c+1]`, and the quantity `k` it ends up using satisfies
`offset[k] <= i < offset[k+1]`, the local index `i - offset[k]` being
non-negative and smaller than the domain size of `k`.  This holds for
`evalFunctions_thread` and for `evalDVSens_thread`. -/
theorem cached_lookup (numElements : Int) (hn : 0 ≤ numElements)
    (funcs : List TACSFunction) (hI : isInt (totalSize numElements funcs))
    (sched : List Nat) (w : Nat) :
    ((lookupLoop (evalFunctions_body funcs (funcElemDomainSize numElements funcs))
        funcs.length ⟨0, 0⟩
        (claimsOf w (runClaims (totalSize numElements funcs) 0 sched))).map Lookup.item =
      (claimsOf w (runClaims (totalSize numElements funcs) 0 sched)).filter
          (fun r => decide (0 ≤ r)) ∧
    ∀ l ∈ lookupLoop (evalFunctions_body funcs (funcElemDomainSize numElements funcs))
        funcs.length ⟨0, 0⟩
        (claimsOf w (runClaims (totalSize numElements funcs) 0 sched)),
      CachedLookup funcs (funcElemDomainSize numElements funcs) numElements l) ∧
    ((lookupLoop (evalDVSens_body funcs (funcElemDomainSize numElements funcs))
        funcs.length ⟨0, 0⟩
        (claimsOf w (runClaims (totalSize numElements funcs) 0 sched))).map Lookup.item =
      (claimsOf w (runClaims (totalSize numElements funcs) 0 sched)).filter
          (fun r => decide (0 ≤ r)) ∧
    ∀ l ∈ lookupLoop (evalDVSens_body funcs (funcElemDomainSize numElements funcs))
        funcs.length ⟨0, 0⟩
        (claimsOf w (runClaims (totalSize numElements funcs) 0 sched)),
      CachedLookup funcs (funcElemDomainSize numElements funcs) numElements l) := by
  constructor
  · refine lookupLoop_claims numElements hn funcs hI _ _ ?_
      (fun s _ h => evalFunctions_body_neg funcs _ s h) sched w
    intro k item hk h0 hge hlt
    obtain ⟨k', hf, hk', h1, hC⟩ := cachedLookup_of_range numElements hn funcs hk h0 hge hlt
    obtain ⟨evs, hb⟩ := evalFunctions_body_cursor funcs _ _ _ item h0 hf
    exact ⟨k', evs, hb, hk', h1, hC⟩
  · refine lookupLoop_claims numElements hn funcs hI _ _ ?_
      (fun s _ h => evalDVSens_body_neg funcs _ s h) sched w
    intro k item hk h0 hge hlt
    obtain ⟨k', hf, hk', h1, hC⟩ := cachedLookup_of_range numElements hn funcs hk h0 hge hlt
    obtain ⟨evs, hb⟩ := evalDVSens_body_cursor funcs _ _ _ item h0 hf
    exact ⟨k', evs, hb, hk', h1, hC⟩

theorem cached_lookup_witness :
    ((0 : Int) ≤ 7 ∧ isInt (totalSize 7 threeFuncs)) ∧
    (∀ l ∈ lookupLoop (evalFunctions_body threeFuncs (funcElemDomainSize 7 threeFuncs))
        threeFuncs.length ⟨0, 0⟩
        (claimsOf 0 (runClaims (totalSize 7 threeFuncs) 0 [0, 1, 0, 1, 1, 0, 1, 1, 0])),
      CachedLookup threeFuncs (funcElemDomainSize 7 threeFuncs) 7 l) ∧
    funcElemDomainSize 7 threeFuncs = [0, 3, 3, 8] ∧
    claimsOf 0 (runClaims (totalSize 7 threeFuncs) 0 [0, 1, 0, 1, 1, 0, 1, 1, 0]) =
      [0, 2, 5, -1] ∧
    lookupLoop (evalFunctions_body threeFuncs (funcElemDomainSize 7 threeFuncs))
        threeFuncs.length ⟨0, 0⟩
        (claimsOf 0 (runClaims (totalSize 7 threeFuncs) 0 [0, 1, 0, 1, 1, 0, 1, 1, 0])) =
      [⟨⟨0, 0⟩, 0, some ⟨0, 0⟩⟩, ⟨⟨0, 0⟩, 2, some ⟨0, 0⟩⟩, ⟨⟨0, 0⟩, 5, some ⟨2, 2⟩⟩] :=
  ⟨⟨by decide, by decide⟩,
    (cached_lookup 7 (by decide) threeFuncs (by decide) [0, 1, 0, 1, 1, 0, 1, 1, 0] 0).1.2,
    by decide, by decide, by decide⟩

end TACS
